import Mathlib

/-!
visualizenavigation: the graph builder, ranker and reducer.

A shallow embedding of `graph.go` and of `Logs.ToSessions` (`logs.go`).

* A Go `map[string]T` is a `GoMap T`: a key/value list without duplicate keys.
  `m[k]` is `GoMap.get`, `m[k] = v` is `GoMap.set`.
* Go leaves the order in which `range` visits a map open, and `sort.Slice` is not
  stable.  Both choices are collected in a `Runtime`: every `range` over a map visits
  `rt.order site _ m.entries`, some permutation of the entries, and every `sort.Slice`
  is `rt.sort`, some sorting permutation.  General theorems hold for every `Runtime`;
  evaluations at a concrete input use `Runtime.std` or `Runtime.rev`.
* Go `int` is `Int`, taken as the 64-bit type of the usual platforms.  Counts stay far
  below `2^63`; the `- 1` and `+ 1` on the timestamps, which come from the input, wrap
  around as in Go (`wrapInt`).
* Go `float32` is `Float32`: rationals together with the IEEE special values.  The
  divisions that compute the ranks and the sums of `printDebug` are exact, so rounding
  is not modelled there but division by zero is.  The running sum of `reduceEdgesUpTo`
  is rounded after every addition by a `Rounding`, of which only what IEEE rounding
  guarantees is known.  `roundNearestEven`, the IEEE rounding to `float32` that Go
  uses, is one; `Rounding.exact`, which does not round, is another.
* A run-time panic (slice bounds out of range) is `none`.
-/

namespace VisualizeNavigation

/-! ## Go runtime model -/

/-- Value of a Go `float32`, in exact arithmetic: a rational, an infinity or NaN. -/
inductive Float32 where
  | num (q : ℚ)
  | posInf
  | negInf
  | nan
  deriving DecidableEq

/-- Conversion `float32(i)` of an `int`. -/
def Float32.ofInt (i : Int) : Float32 := Float32.num i

/-- IEEE division `a / b` (the sign of a zero is not tracked). -/
def Float32.div : Float32 → Float32 → Float32
  | Float32.num a, Float32.num b =>
    if b = 0 then
      if a = 0 then Float32.nan else if 0 < a then Float32.posInf else Float32.negInf
    else Float32.num (a / b)
  | Float32.num _, Float32.posInf => Float32.num 0
  | Float32.num _, Float32.negInf => Float32.num 0
  | Float32.posInf, Float32.num b => if b < 0 then Float32.negInf else Float32.posInf
  | Float32.negInf, Float32.num b => if b < 0 then Float32.posInf else Float32.negInf
  | _, _ => Float32.nan

/-- IEEE addition `a + b`, in exact arithmetic. -/
def Float32.add : Float32 → Float32 → Float32
  | Float32.num a, Float32.num b => Float32.num (a + b)
  | Float32.num _, Float32.posInf => Float32.posInf
  | Float32.posInf, Float32.num _ => Float32.posInf
  | Float32.posInf, Float32.posInf => Float32.posInf
  | Float32.num _, Float32.negInf => Float32.negInf
  | Float32.negInf, Float32.num _ => Float32.negInf
  | Float32.negInf, Float32.negInf => Float32.negInf
  | _, _ => Float32.nan

/-- IEEE comparison `a <= b`; false when either side is NaN. -/
def Float32.le : Float32 → Float32 → Bool
  | Float32.num a, Float32.num b => decide (a ≤ b)
  | Float32.nan, _ => false
  | _, Float32.nan => false
  | Float32.negInf, _ => true
  | _, Float32.posInf => true
  | _, _ => false

/-- IEEE comparison `a < b`; false when either side is NaN. -/
def Float32.lt : Float32 → Float32 → Bool
  | Float32.num a, Float32.num b => decide (a < b)
  | Float32.nan, _ => false
  | _, Float32.nan => false
  | Float32.negInf, Float32.negInf => false
  | Float32.negInf, _ => true
  | Float32.posInf, _ => false
  | _, Float32.posInf => true
  | _, _ => false

/-- The rounding of `float32` arithmetic: `round q` is the `float32` stored for a result
whose exact value is `q`. Nothing is known about it except what holds of IEEE 754
rounding to `float32`, in any of its rounding directions: it never decreases when the
exact value increases (a result too large for a `float32` becomes an infinity), it
leaves a value that is a `float32` already unchanged, and it keeps 0. The rounding of
Go is `roundNearestEven`. -/
structure Rounding where
  round : ℚ → Float32
  round_mono : ∀ a b : ℚ, a ≤ b → Float32.le (round a) (round b) = true
  round_fix : ∀ a q : ℚ, round a = Float32.num q → round q = Float32.num q
  round_zero : round 0 = Float32.num 0

/-- The rounding that does not round: exact arithmetic. -/
def Rounding.exact : Rounding where
  round := Float32.num
  round_mono := fun a b h => by simpa [Float32.le] using h
  round_fix := fun _ _ h => by cases h; rfl
  round_zero := rfl

/-- The integer nearest to `x`; of the two nearest integers of a tie, the even one. -/
def roundHalfEven (x : ℚ) : Int :=
  if x - ⌊x⌋ < 1 / 2 then ⌊x⌋
  else if 1 / 2 < x - ⌊x⌋ then ⌊x⌋ + 1
  else if ⌊x⌋ % 2 = 0 then ⌊x⌋ else ⌊x⌋ + 1

/-- Binary exponent that a `float32` uses for the positive value `q`: the `e` with
`2^e <= q < 2^(e+1)`, and -126, the exponent of the subnormal numbers, for the values
below `2^(-126)`. -/
def float32Exponent (q : ℚ) : Int := max (Int.log 2 q) (-126)

/-- The number with a significand of 24 bits that is nearest to `q >= 0`: a multiple of
`2^(e-23)`, the distance between neighbouring `float32` values at the exponent `e` of
`q`. -/
def roundToGrid (q : ℚ) : ℚ :=
  roundHalfEven (q / 2 ^ (float32Exponent q - 23)) * 2 ^ (float32Exponent q - 23)

/-- IEEE 754 rounding of an exact value to `float32` in the default direction, to
nearest with ties to even: the nearest number with a significand of 24 bits, of the
same sign, and an infinity once that number reaches `2^128`. -/
def roundNearestEven (q : ℚ) : Float32 :=
  if 0 ≤ q then
    if roundToGrid q < 340282366920938463463374607431768211456 then Float32.num (roundToGrid q)
    else Float32.posInf
  else
    if roundToGrid (-q) < 340282366920938463463374607431768211456 then
      Float32.num (-roundToGrid (-q))
    else Float32.negInf

/-- IEEE addition `a + b` of two `float32`, the exact sum of two numbers rounded by
`rd`. -/
def Float32.addRounded (rd : Rounding) : Float32 → Float32 → Float32
  | Float32.num a, Float32.num b => rd.round (a + b)
  | Float32.num _, Float32.posInf => Float32.posInf
  | Float32.posInf, Float32.num _ => Float32.posInf
  | Float32.posInf, Float32.posInf => Float32.posInf
  | Float32.num _, Float32.negInf => Float32.negInf
  | Float32.negInf, Float32.num _ => Float32.negInf
  | Float32.negInf, Float32.negInf => Float32.negInf
  | _, _ => Float32.nan

/-- Value that Go stores for an `int` result whose exact value is `x`: `int` has 64
bits and its arithmetic wraps around, so the result is the number congruent to `x`
modulo `2^64` that lies between `-2^63` and `2^63 - 1`. -/
def wrapInt (x : Int) : Int :=
  (x + 9223372036854775808) % 18446744073709551616 - 9223372036854775808

/-- Entry list of a map after `m[k] = v`: the value of an existing key is replaced,
a new key is added. -/
def setEntries {α : Type} : List (String × α) → String → α → List (String × α)
  | [], k, v => [(k, v)]
  | (k', v') :: rest, k, v =>
    if k' = k then (k, v) :: rest else (k', v') :: setEntries rest k v

/-- Lookup `v, found := m[k]` in an entry list. -/
def getEntries {α : Type} : List (String × α) → String → Option α
  | [], _ => none
  | (k', v') :: rest, k => if k' = k then some v' else getEntries rest k

/-- Go `map[string]α`: entries with pairwise distinct keys. The order of `entries` is
only a representation; iteration goes through `Runtime.order`. -/
structure GoMap (α : Type) where
  entries : List (String × α)
  nodup : (entries.map Prod.fst).Nodup

/-- The empty map literal `map[string]α{}`. -/
def GoMap.empty {α : Type} : GoMap α := ⟨[], List.nodup_nil⟩

/-- Map read `v, found := m[k]`. -/
def GoMap.get {α : Type} (m : GoMap α) (k : String) : Option α := getEntries m.entries k

/-- Map write `m[k] = v`. -/
def GoMap.set {α : Type} (m : GoMap α) (k : String) (v : α) : GoMap α :=
  ⟨setEntries m.entries k v, by
    have key : ∀ (l : List (String × α)), (l.map Prod.fst).Nodup →
        ((setEntries l k v).map Prod.fst).Nodup ∧
        ∀ x, x ∈ (setEntries l k v).map Prod.fst → x = k ∨ x ∈ l.map Prod.fst := by
      intro l
      induction l with
      | nil => intro _; simp [setEntries]
      | cons p rest ih =>
        obtain ⟨k', v'⟩ := p
        intro h
        rw [List.map_cons, List.nodup_cons] at h
        by_cases hk : k' = k
        · subst hk
          simp only [setEntries, if_true, List.map_cons, List.nodup_cons]
          exact ⟨⟨h.1, h.2⟩, fun x hx => by simpa using hx⟩
        · have ih' := ih h.2
          simp only [setEntries, hk, if_false, List.map_cons, List.nodup_cons]
          refine ⟨⟨fun hmem => ?_, ih'.1⟩, fun x hx => ?_⟩
          · rcases ih'.2 k' hmem with h1 | h1
            · exact hk h1
            · exact h.1 h1
          · rcases List.mem_cons.1 hx with h1 | h1
            · exact Or.inr (by simp [h1])
            · rcases ih'.2 x h1 with h2 | h2
              · exact Or.inl h2
              · exact Or.inr (by simp [h2])
    exact (key m.entries m.nodup).1⟩

/-- Loop `for k, v := range m { ...; m[k] = f k v }`: a range loop whose only write
is to the key it is visiting visits every entry once and replaces its value, in
whatever order the entries are visited. -/
def GoMap.mapValues {α : Type} (f : String → α → α) (m : GoMap α) : GoMap α :=
  ⟨m.entries.map (fun e => (e.1, f e.1 e.2)), by
    have h : (m.entries.map (fun e => (e.1, f e.1 e.2))).map Prod.fst
        = m.entries.map Prod.fst := by
      rw [List.map_map]; rfl
    rw [h]; exact m.nodup⟩

/-- What Go requires of the `less` function handed to `sort.Slice`: a strict weak
ordering. -/
def StrictWeak {α : Type} (less : α → α → Bool) : Prop :=
  (∀ a b, less a b = true → less b a = false) ∧
  (∀ a b c, less b a = false → less c b = false → less c a = false)

/-- The choices Go leaves to the runtime. `order site α l` is the order in which the
`range` statement numbered `site` visits the entries `l` of a map; `sort α less l` is
the slice `sort.Slice` leaves behind. Nothing is known about them except that both
permute their input and that the sorted slice is ordered by `less`.
The sites are: 1 `createNodeMapWithVisitCount`, 2 `calculateClickCount`,
3 `createEdgeMapWithVisitCount`, 4 the edge loop of `enrichNodesWithRankAndEdges`,
6 `nodeMapToSortedSlice`, 8 `filterEdgeMap`. -/
structure Runtime where
  order : Nat → (α : Type) → List α → List α
  sort : (α : Type) → (α → α → Bool) → List α → List α
  order_perm : ∀ (site : Nat) (α : Type) (l : List α), (order site α l).Perm l
  sort_perm : ∀ (α : Type) (less : α → α → Bool) (l : List α), (sort α less l).Perm l
  sort_sorted : ∀ (α : Type) (less : α → α → Bool) (l : List α), StrictWeak less →
    (sort α less l).Pairwise (fun a b => less b a = false)

/-- One possible runtime: maps are visited in the order of their entry list and
`sort.Slice` is a stable insertion sort. -/
def Runtime.std : Runtime where
  order := fun _ _ l => l
  sort := fun _ less l => List.insertionSort (fun a b => less b a = false) l
  order_perm := fun _ _ l => List.Perm.refl l
  sort_perm := fun _ less l => List.perm_insertionSort (fun a b => less b a = false) l
  sort_sorted := fun α less l h => by
    haveI : IsTotal α (fun a b => less b a = false) := ⟨fun a b => by
      cases hab : less b a with
      | false => exact Or.inl rfl
      | true => exact Or.inr (h.1 b a hab)⟩
    haveI : IsTrans α (fun a b => less b a = false) := ⟨fun a b c hab hbc => h.2 a b c hab hbc⟩
    exact List.sorted_insertionSort (fun a b => less b a = false) l

/-- Another possible runtime: maps are visited in the reverse order of their entry
list. -/
def Runtime.rev : Runtime where
  order := fun _ _ l => l.reverse
  sort := Runtime.std.sort
  order_perm := fun _ _ l => List.reverse_perm l
  sort_perm := Runtime.std.sort_perm
  sort_sorted := Runtime.std.sort_sorted

/-! ## logs.go -/

/-- Type `Log` of logs.go. -/
structure Log where
  Timestamp : Int
  SessionID : String
  ScreenName : String
  deriving DecidableEq

/-- Body of the first loop of `ToSessions`: append the log to its session. -/
def appendToSession (sessions : GoMap (List Log)) (log : Log) : GoMap (List Log) :=
  let session := match sessions.get log.SessionID with
    | some session => session
    | none => []
  sessions.set log.SessionID (session ++ [log])

/-- Body of the second loop of `ToSessions`: order the session on time and bracket it
with a start and an end log. `session[0]` and `session[len(session)-1]` are in range
because the first loop only stores sessions that hold a log; the fallback timestamp 0
stands for the index panic that therefore cannot happen. The `- 1` and the `+ 1` are
`int` operations and wrap around. -/
def bracketSession (rt : Runtime) (name : String) (session : List Log) : List Log :=
  let sorted := rt.sort Log (fun a b => decide (a.Timestamp < b.Timestamp)) session
  let withStart :=
    { Timestamp := wrapInt (((sorted.head?).map Log.Timestamp).getD 0 - 1),
      SessionID := name, ScreenName := "start" : Log } :: sorted
  withStart ++
    [{ Timestamp := wrapInt (((withStart.getLast?).map Log.Timestamp).getD 0 + 1),
       SessionID := name, ScreenName := "end" : Log }]

/-- Method `Logs.ToSessions` of logs.go. -/
def ToSessions (rt : Runtime) (logs : List Log) : GoMap (List Log) :=
  (logs.foldl appendToSession GoMap.empty).mapValues (bracketSession rt)

/-! ## graph.go -/

/-- Type `Edge` of graph.go. -/
structure Edge where
  Name : String
  Origin : String
  Destination : String
  VisitCount : Int
  Rank : Float32
  LocalRank : Float32
  deriving DecidableEq

/-- Type `Node` of graph.go. -/
structure Node where
  Name : String
  Edges : List Edge
  VisitCount : Int
  Rank : Float32
  deriving DecidableEq

/-- Type `Graph` of graph.go. -/
structure Graph where
  totalClickCount : Int
  nodeSlice : List Node
  nodeMap : GoMap Node
  edgeMap : GoMap Edge

/-- Inner loop body of `createNodeMapWithVisitCount`. -/
def visitNode (nodeMap : GoMap Node) (log : Log) : GoMap Node :=
  let node := match nodeMap.get log.ScreenName with
    | some node => node
    | none => { Name := log.ScreenName, Edges := [], VisitCount := 0, Rank := Float32.num 0 }
  nodeMap.set log.ScreenName { node with VisitCount := node.VisitCount + 1 }

/-- Function `createNodeMapWithVisitCount` of graph.go. -/
def createNodeMapWithVisitCount (rt : Runtime) (sessionMap : GoMap (List Log)) : GoMap Node :=
  (rt.order 1 _ sessionMap.entries).foldl
    (fun nodeMap entry => entry.2.foldl visitNode nodeMap) GoMap.empty

/-- Function `calculateClickCount` of graph.go. -/
def calculateClickCount (rt : Runtime) (edgeMap : GoMap Edge) : Int :=
  (rt.order 2 _ edgeMap.entries).foldl
    (fun totalVisits entry =>
      if entry.2.Destination ≠ "end" then totalVisits + entry.2.VisitCount else totalVisits) 0

/-- Key of an edge: `fmt.Sprintf("%s-%s", prevName, log.ScreenName)`. -/
def edgeName (prevName screenName : String) : String := prevName ++ "-" ++ screenName

/-- Inner loop body of `createEdgeMapWithVisitCount`; the state is the edge map and
`prevName`. -/
def visitEdge (state : GoMap Edge × String) (log : Log) : GoMap Edge × String :=
  if state.2 ≠ "" then
    let name := edgeName state.2 log.ScreenName
    let edge := match state.1.get name with
      | some edge => edge
      | none =>
        { Name := name, Origin := state.2, Destination := log.ScreenName, VisitCount := 0,
          Rank := Float32.num 0, LocalRank := Float32.num 0 }
    (state.1.set name { edge with VisitCount := edge.VisitCount + 1 }, log.ScreenName)
  else (state.1, log.ScreenName)

/-- Function `createEdgeMapWithVisitCount` of graph.go. -/
def createEdgeMapWithVisitCount (rt : Runtime) (sessionMap : GoMap (List Log)) : GoMap Edge :=
  (rt.order 3 _ sessionMap.entries).foldl
    (fun edgeMap entry => (entry.2.foldl visitEdge (edgeMap, "")).1) GoMap.empty

/-- First loop body of `enrichNodesWithRankAndEdges`: attach the edge to its origin. -/
def attachEdge (nodeMap : GoMap Node) (edge : Edge) : GoMap Node :=
  match nodeMap.get edge.Origin with
  | some origNode => nodeMap.set edge.Origin { origNode with Edges := origNode.Edges ++ [edge] }
  | none => nodeMap

/-- Second loop body of `enrichNodesWithRankAndEdges`: sort the edges of the node and
fill in the ranks. -/
def rankNode (rt : Runtime) (totalVisitCount : Int) (node : Node) : Node :=
  let sorted := rt.sort Edge (fun a b => decide (a.VisitCount > b.VisitCount)) node.Edges
  { node with
    Edges := sorted.map (fun edge =>
      { edge with
        Rank := Float32.div (Float32.ofInt edge.VisitCount) (Float32.ofInt totalVisitCount),
        LocalRank := Float32.div (Float32.ofInt edge.VisitCount) (Float32.ofInt node.VisitCount) }),
    Rank := Float32.div (Float32.ofInt node.VisitCount) (Float32.ofInt totalVisitCount) }

/-- Function `enrichNodesWithRankAndEdges` of graph.go. -/
def enrichNodesWithRankAndEdges (rt : Runtime) (nodeMap : GoMap Node) (edgeMap : GoMap Edge)
    (totalVisitCount : Int) : GoMap Node :=
  GoMap.mapValues (fun _ node => rankNode rt totalVisitCount node)
    ((rt.order 4 _ edgeMap.entries).foldl (fun nodeMap entry => attachEdge nodeMap entry.2) nodeMap)

/-- Function `nodeMapToSortedSlice` of graph.go. -/
def nodeMapToSortedSlice (rt : Runtime) (nodeMap : GoMap Node) : List Node :=
  rt.sort Node (fun a b => decide (a.VisitCount > b.VisitCount))
    ((rt.order 6 _ nodeMap.entries).map Prod.snd)

/-- Function `nodeSliceToMap` of graph.go. -/
def nodeSliceToMap (nodeList : List Node) : GoMap Node :=
  nodeList.foldl (fun nodeMap node => nodeMap.set node.Name node) GoMap.empty

/-- Function `NewGraph` of graph.go. -/
def NewGraph (rt : Runtime) (sessionMap : GoMap (List Log)) : Graph :=
  let nodeMap := createNodeMapWithVisitCount rt sessionMap
  let edgeMap := createEdgeMapWithVisitCount rt sessionMap
  let clickCount := calculateClickCount rt edgeMap
  let enrichedNodeMap := enrichNodesWithRankAndEdges rt nodeMap edgeMap clickCount
  let nodeSlice := nodeMapToSortedSlice rt enrichedNodeMap
  { totalClickCount := clickCount, nodeMap := enrichedNodeMap, edgeMap := edgeMap,
    nodeSlice := nodeSlice }

/-- The value of `nodeSum` that `printDebug` reports: the sum of Rank over the nodes other
than start and end. -/
def nodeSum (nodeSlice : List Node) : Float32 :=
  nodeSlice.foldl
    (fun nodeSum node =>
      if node.Name ≠ "start" ∧ node.Name ≠ "end" then Float32.add nodeSum node.Rank else nodeSum)
    (Float32.num 0)

/-- The value of `sofar` after the edge loop of `printDebug`, in exact arithmetic: the
sum of LocalRank over the edges. -/
def localRankSum (edges : List Edge) : Float32 :=
  edges.foldl (fun sofar edge => Float32.add sofar edge.LocalRank) (Float32.num 0)

/-- Inner loop of `stripNodeMap`; the state is `reducedEdges` and `node.Edges`. The
assignment to `node.Edges` sits inside the `if`. -/
def stripEdges (edgeMap : GoMap Edge) (edges : List Edge) : List Edge :=
  (edges.foldl
    (fun (state : List Edge × List Edge) edge =>
      if (edgeMap.get edge.Name).isSome then (state.1 ++ [edge], state.1 ++ [edge]) else state)
    ([], edges)).2

/-- Function `stripNodeMap` of graph.go. -/
def stripNodeMap (nodeMap : GoMap Node) (edgeMap : GoMap Edge) : GoMap Node :=
  GoMap.mapValues (fun _ node => { node with Edges := stripEdges edgeMap node.Edges }) nodeMap

/-- Function `filterEdgeMap` of graph.go. -/
def filterEdgeMap (rt : Runtime) (edgeMap : GoMap Edge) (nodeMap : GoMap Node) : GoMap Edge :=
  (rt.order 8 _ edgeMap.entries).foldl
    (fun reducedEdgeMap entry =>
      if (nodeMap.get entry.2.Origin).isSome && (nodeMap.get entry.2.Destination).isSome then
        reducedEdgeMap.set entry.1 entry.2
      else reducedEdgeMap) GoMap.empty

/-- Function `min` of graph.go. -/
def min (a b : Int) : Int := if a < b then a else b

/-- Method `Graph.NodeCount` of graph.go. -/
def Graph.NodeCount (g : Graph) : Int := g.nodeSlice.length

/-- Method `Graph.ReduceTo` of graph.go. The slice expression
`g.nodeSlice[0:min(limit, len(g.nodeSlice)-1)]` panics when its upper bound is
negative (the bound never exceeds the length); the panic is `none`. -/
def Graph.ReduceTo (rt : Runtime) (g : Graph) (limit : Int) : Option Graph :=
  let high := min limit ((g.nodeSlice.length : Int) - 1)
  if high < 0 then none
  else
    let reducedNodeSlice := g.nodeSlice.take high.toNat
    let reducedNodeMap := nodeSliceToMap reducedNodeSlice
    let reducedEdgeMap := filterEdgeMap rt g.edgeMap reducedNodeMap
    let reducedClickCount := calculateClickCount rt reducedEdgeMap
    let strippedNodeMap := stripNodeMap reducedNodeMap reducedEdgeMap
    some
      { totalClickCount := reducedClickCount,
        nodeSlice := nodeMapToSortedSlice rt strippedNodeMap,
        nodeMap := strippedNodeMap,
        edgeMap := reducedEdgeMap }

/-- Function `factorRepresented` of graph.go. -/
def factorRepresented (reducedClickCount totalClickCount : Int) : Float32 :=
  Float32.div (Float32.ofInt reducedClickCount) (Float32.ofInt totalClickCount)

/-- Function `reduceEdgesUpTo` of graph.go; the state of the loop is `reducedEdges` and
`sofar`. The statement `sofar += edge.LocalRank` is a `float32` addition, rounded by
`rd`. -/
def reduceEdgesUpTo (rd : Rounding) (edges : List Edge) (upto : Float32) : List Edge :=
  (edges.foldl
    (fun (state : List Edge × Float32) edge =>
      if Float32.le (Float32.addRounded rd state.2 edge.LocalRank) upto = true then
        (state.1 ++ [edge], Float32.addRounded rd state.2 edge.LocalRank)
      else (state.1, Float32.addRounded rd state.2 edge.LocalRank))
    ([], Float32.num 0)).1

/-! ## Notions used to state the properties -/

/-- The value of `sofar` in `reduceEdgesUpTo` once the loop has met `edges`: the
cumulative LocalRank sum as the code accumulates it, rounded after every addition. -/
def runningSum (rd : Rounding) (edges : List Edge) : Float32 :=
  edges.foldl (fun sofar edge => Float32.addRounded rd sofar edge.LocalRank) (Float32.num 0)

/-- The node set of the graph holds a node named `name`. -/
@[reducible] def Graph.hasNode (g : Graph) (name : String) : Prop :=
  (g.nodeMap.get name).isSome = true

/-- The edges of the graph's edge set. -/
def Graph.edges (g : Graph) : List Edge := g.edgeMap.entries.map Prod.snd

/-- Names of the node sequence, in order. -/
def Graph.nodeNames (g : Graph) : List String := g.nodeSlice.map Node.Name

/-- An edge apart from its ranks: Name, Origin, Destination and VisitCount. -/
def edgeCore (edge : Edge) : String × String × String × Int :=
  (edge.Name, edge.Origin, edge.Destination, edge.VisitCount)

/-- Screen names of all events of all sessions. -/
def screenNames (sessionMap : GoMap (List Log)) : List String :=
  sessionMap.entries.flatMap (fun entry => entry.2.map Log.ScreenName)

/-- Pairs (previous screen, screen) met when the events `logs` follow an event named
`prevName`. -/
def pairsFrom : String → List Log → List (String × String)
  | _, [] => []
  | prevName, log :: rest => (prevName, log.ScreenName) :: pairsFrom log.ScreenName rest

/-- Consecutive pairs of a session: `(o, d)` occurs once for every event named `o` that
is immediately followed by an event named `d`. -/
def transitions : List Log → List (String × String)
  | [] => []
  | log :: rest => pairsFrom log.ScreenName rest

/-- Consecutive pairs of all sessions. -/
def allTransitions (sessionMap : GoMap (List Log)) : List (String × String) :=
  sessionMap.entries.flatMap (fun entry => transitions entry.2)

/-- Names and VisitCounts of the node sequence, in order. -/
def Graph.visitPairs (g : Graph) : List (String × Int) :=
  g.nodeSlice.map (fun node => (node.Name, node.VisitCount))

/-- No two screen names occur in the same number of events. -/
@[reducible] def DistinctCounts (sessionMap : GoMap (List Log)) : Prop :=
  ∀ a ∈ screenNames sessionMap, ∀ b ∈ screenNames sessionMap,
    (screenNames sessionMap).count a = (screenNames sessionMap).count b → a = b

/-- No event has the empty screen name, the value `createEdgeMapWithVisitCount` keeps
in `prevName` for a session that has no previous event yet. -/
@[reducible] def NoEmptyName (sessionMap : GoMap (List Log)) : Prop :=
  ∀ name ∈ screenNames sessionMap, name ≠ ""

/-- Different consecutive pairs have different edge keys `origin-destination`. -/
@[reducible] def DistinctKeys (sessionMap : GoMap (List Log)) : Prop :=
  ∀ p ∈ allTransitions sessionMap, ∀ q ∈ allTransitions sessionMap,
    edgeName p.1 p.2 = edgeName q.1 q.2 → p = q

/-- The session is one leading start event, then its real events, then one trailing end
event. -/
@[reducible] def Bracketed (logs : List Log) : Prop :=
  logs.map Log.ScreenName
    = "start" :: ((logs.map Log.ScreenName).tail.dropLast ++ ["end"])

/-- No real screen of the bracketed session is named start or end. -/
@[reducible] def RealNamesFree (logs : List Log) : Prop :=
  "start" ∉ (logs.map Log.ScreenName).tail.dropLast ∧
    "end" ∉ (logs.map Log.ScreenName).tail.dropLast

/-- Sum of `VisitCount` over the nodes other than start and end, as `printDebug` sums
their ranks. -/
def realVisitSum (nodes : List Node) : Int :=
  (nodes.map (fun node =>
    if node.Name ≠ "start" ∧ node.Name ≠ "end" then node.VisitCount else 0)).sum

/-- Sum of `VisitCount` over a list of edges. -/
def edgeVisitSum (edges : List Edge) : Int := (edges.map Edge.VisitCount).sum

/-! ## Proof devices -/

/-- Update of the edge map that `visitEdge` makes for the pair `(prevName, screenName)`
when `prevName` is not empty. -/
def bumpEdge (edgeMap : GoMap Edge) (p : String × String) : GoMap Edge :=
  let name := edgeName p.1 p.2
  let edge := match edgeMap.get name with
    | some edge => edge
    | none =>
      { Name := name, Origin := p.1, Destination := p.2, VisitCount := 0,
        Rank := Float32.num 0, LocalRank := Float32.num 0 }
  edgeMap.set name { edge with VisitCount := edge.VisitCount + 1 }

/-- Pairs for which `createEdgeMapWithVisitCount` updates the edge map while it walks
`logs` with `prevName` as the previous name. -/
def codePairs : String → List Log → List (String × String)
  | _, [] => []
  | prevName, log :: rest =>
    if prevName ≠ "" then (prevName, log.ScreenName) :: codePairs log.ScreenName rest
    else codePairs log.ScreenName rest

/-- The edges that the loop of `reduceEdgesUpTo` appends when it meets `edges` with
`sofar` as the sum so far. -/
def keepUpTo (rd : Rounding) (upto : Float32) : Float32 → List Edge → List Edge
  | _, [] => []
  | sofar, edge :: rest =>
    if Float32.le (Float32.addRounded rd sofar edge.LocalRank) upto = true then
      edge :: keepUpTo rd upto (Float32.addRounded rd sofar edge.LocalRank) rest
    else keepUpTo rd upto (Float32.addRounded rd sofar edge.LocalRank) rest

/-- The sum `sofar` after the loop of `reduceEdgesUpTo` has met `edges`, starting from
`sofar`. -/
def sumFrom (rd : Rounding) (sofar : Float32) (edges : List Edge) : Float32 :=
  edges.foldl (fun sofar edge => Float32.addRounded rd sofar edge.LocalRank) sofar

/-- A `float32` that is a number, one that `rd` leaves unchanged, or +Inf. -/
def Float32.IsSum (rd : Rounding) (x : Float32) : Prop :=
  (∃ q, x = Float32.num q ∧ rd.round q = Float32.num q) ∨ x = Float32.posInf

/-- VisitCount of the edge stored under `key`, 0 when there is none. -/
def edgeVisits (edgeMap : GoMap Edge) (key : String) : Int :=
  match edgeMap.get key with
  | some edge => edge.VisitCount
  | none => 0

/-- Sum of a weight over the values of a map. -/
def GoMap.valueSum {α : Type} (w : α → Int) (m : GoMap α) : Int :=
  (m.entries.map (fun entry => w entry.2)).sum

/-- Weight of a node in `realVisitSum`. -/
def realWeight (node : Node) : Int :=
  if node.Name ≠ "start" ∧ node.Name ≠ "end" then node.VisitCount else 0

/-- Weight of an edge: its VisitCount when its Origin and Destination satisfy `sel`. -/
def edgeWeight (sel : String → String → Bool) (edge : Edge) : Int :=
  if sel edge.Origin edge.Destination = true then edge.VisitCount else 0

/-- Every edge of the map is stored under its Name, which is the key of its Origin and
Destination, and these form a pair of `all`. -/
def EdgeShape (edgeMap : GoMap Edge) (all : List (String × String)) : Prop :=
  ∀ k e, edgeMap.get k = some e →
    e.Name = k ∧ k = edgeName e.Origin e.Destination ∧ (e.Origin, e.Destination) ∈ all

/-- Every node of the map is stored under its Name. -/
def NodeKeyed (nodeMap : GoMap Node) : Prop :=
  ∀ k node, nodeMap.get k = some node → node.Name = k

/-- VisitCount of the node stored under `key`, 0 when there is none. -/
def nodeVisits (nodeMap : GoMap Node) (key : String) : Int :=
  match nodeMap.get key with
  | some node => node.VisitCount
  | none => 0

/-- Loop body of `filterEdgeMap`. -/
def keepEdge (nodeMap : GoMap Node) (reducedEdgeMap : GoMap Edge) (entry : String × Edge) :
    GoMap Edge :=
  if (nodeMap.get entry.2.Origin).isSome && (nodeMap.get entry.2.Destination).isSome then
    reducedEdgeMap.set entry.1 entry.2
  else reducedEdgeMap

/-! ## Concrete inputs -/

/-- A log record. -/
def mkLog (t : Int) (s n : String) : Log := { Timestamp := t, SessionID := s, ScreenName := n }

/-- One session `[start, A, end]`. -/
def sessionsA : GoMap (List Log) := ToSessions Runtime.std [mkLog 5 "s1" "A"]

/-- Two sessions `[start, A, B, end]` and `[start, A, C, end]`. -/
def sessionsAB : GoMap (List Log) :=
  ToSessions Runtime.std [mkLog 1 "s1" "A", mkLog 2 "s1" "B", mkLog 1 "s2" "A", mkLog 2 "s2" "C"]

/-- Two sessions `[start, A, end]` and `[start, B, end]`. -/
def sessionsTwo : GoMap (List Log) := ToSessions Runtime.std [mkLog 1 "s1" "A", mkLog 1 "s2" "B"]

/-- One session `[start, A, A, end]`. -/
def sessionsAA : GoMap (List Log) := ToSessions Runtime.std [mkLog 1 "s" "A", mkLog 2 "s" "A"]

/-- The sessions `[start, A, B, end]`, `[start, A, C, end]` reduced with limit 3. -/
def reducedAB : Graph :=
  ((NewGraph Runtime.std sessionsAB).ReduceTo Runtime.std 3).getD (NewGraph Runtime.std sessionsAB)

/-- The edge from start to A as the edge set of the graph of `sessionsAB` holds it. -/
def edgeStartA : Edge :=
  { Name := "start-A", Origin := "start", Destination := "A", VisitCount := 2,
    Rank := Float32.num 0, LocalRank := Float32.num 0 }

/-- Node A of the graph of `sessionsAB`. -/
def nodeAofAB : Node :=
  ((NewGraph Runtime.std sessionsAB).nodeMap.get "A").getD
    { Name := "", Edges := [], VisitCount := 0, Rank := Float32.num 0 }

/-- Node A of `reducedAB`. -/
def reducedNodeA : Node :=
  (reducedAB.nodeMap.get "A").getD
    { Name := "", Edges := [], VisitCount := 0, Rank := Float32.num 0 }

/-- One session `[start, end]`. -/
def sessionsStartEnd : GoMap (List Log) :=
  GoMap.empty.set "s" [mkLog 0 "s" "start", mkLog 1 "s" "end"]

/-- One session `[start, end, end]`, built by `ToSessions` from a single log whose screen
is named end. -/
def sessionsEndScreen : GoMap (List Log) := ToSessions Runtime.std [mkLog 5 "s" "end"]

/-- An edge with LocalRank 1. -/
def edgeOne : Edge :=
  { Name := "end-end", Origin := "end", Destination := "end", VisitCount := 1,
    Rank := Float32.posInf, LocalRank := Float32.num 1 }

/-- An edge whose LocalRank is the `float32` nearest to 1/3. -/
def edgeThird : Edge :=
  { Name := "A-B", Origin := "A", Destination := "B", VisitCount := 1,
    Rank := Float32.num (11184811 / 33554432), LocalRank := Float32.num (11184811 / 33554432) }

/-- One session `[start, A, A, A, end, end]`, built by `ToSessions` from logs whose last
screen is named end: no two nodes have the same VisitCount. -/
def sessionsDistinct : GoMap (List Log) :=
  ToSessions Runtime.std
    [mkLog 1 "s" "A", mkLog 2 "s" "A", mkLog 3 "s" "A", mkLog 4 "s" "end"]

/-- One session `[start, "", A, end]`: a record whose screen path is empty once the
prefix is stripped. -/
def sessionsEmptyName : GoMap (List Log) :=
  ToSessions Runtime.std [mkLog 1 "s" "", mkLog 2 "s" "A"]

/-- One session `[start, a, b-c, a-b, c, end]`: the pairs `(a, b-c)` and `(a-b, c)` have
the same key `a-b-c`. -/
def sessionsDash : GoMap (List Log) :=
  ToSessions Runtime.std [mkLog 1 "s" "a", mkLog 2 "s" "b-c", mkLog 3 "s" "a-b", mkLog 4 "s" "c"]

/-- One session `[start, x, y-end, x-y, end]`: the pairs `(x, y-end)` and `(x-y, end)`
have the same key `x-y-end`. -/
def sessionsDashEnd : GoMap (List Log) :=
  ToSessions Runtime.std [mkLog 1 "s" "x", mkLog 2 "s" "y-end", mkLog 3 "s" "x-y"]

/-! ## Map lemmas -/

theorem getEntries_setEntries {α : Type} (l : List (String × α)) (k : String) (v : α)
    (k' : String) :
    getEntries (setEntries l k v) k' = if k' = k then some v else getEntries l k' := by
  induction l with
  | nil =>
    by_cases h : k' = k
    · simp [setEntries, getEntries, h]
    · have h' : ¬ k = k' := fun e => h e.symm
      simp [setEntries, getEntries, h, h']
  | cons p rest ih =>
    obtain ⟨k0, v0⟩ := p
    by_cases h0 : k0 = k
    · subst h0
      by_cases h : k' = k0
      · simp [setEntries, getEntries, h]
      · have h' : ¬ k0 = k' := fun e => h e.symm
        simp [setEntries, getEntries, h, h']
    · by_cases h : k0 = k'
      · have h1 : ¬ k' = k := fun e => h0 (h.trans e)
        simp [setEntries, getEntries, h0, h, h1]
      · simp [setEntries, getEntries, h0, h, ih]

theorem GoMap.get_set {α : Type} (m : GoMap α) (k : String) (v : α) (k' : String) :
    (m.set k v).get k' = if k' = k then some v else m.get k' :=
  getEntries_setEntries m.entries k v k'

theorem GoMap.get_empty {α : Type} (k : String) : (GoMap.empty : GoMap α).get k = none := rfl

theorem getEntries_eq_none_iff {α : Type} (l : List (String × α)) (k : String) :
    getEntries l k = none ↔ k ∉ l.map Prod.fst := by
  induction l with
  | nil => simp [getEntries]
  | cons p rest ih =>
    obtain ⟨k0, v0⟩ := p
    by_cases h : k0 = k
    · simp [getEntries, h]
    · have h' : ¬ k = k0 := fun e => h e.symm
      simp only [getEntries, h, if_false, ih, List.map_cons, List.mem_cons, h', false_or]

theorem getEntries_eq_some_iff {α : Type} (l : List (String × α))
    (hl : (l.map Prod.fst).Nodup) (k : String) (v : α) :
    getEntries l k = some v ↔ (k, v) ∈ l := by
  induction l with
  | nil => simp [getEntries]
  | cons p rest ih =>
    obtain ⟨k0, v0⟩ := p
    rw [List.map_cons, List.nodup_cons] at hl
    by_cases h : k0 = k
    · subst h
      have hn : (k0, v) ∉ rest := fun hm => hl.1 (List.mem_map.2 ⟨(k0, v), hm, rfl⟩)
      simp only [getEntries, if_true, Option.some.injEq, List.mem_cons, Prod.mk.injEq, true_and,
        hn, or_false]
      exact eq_comm
    · have h' : ¬ k = k0 := fun e => h e.symm
      simp only [getEntries, h, if_false, ih hl.2, List.mem_cons, Prod.mk.injEq, h', false_and,
        false_or]

theorem GoMap.get_eq_some_iff {α : Type} (m : GoMap α) (k : String) (v : α) :
    m.get k = some v ↔ (k, v) ∈ m.entries :=
  getEntries_eq_some_iff m.entries m.nodup k v

theorem GoMap.get_isSome_iff {α : Type} (m : GoMap α) (k : String) :
    (m.get k).isSome = true ↔ k ∈ m.entries.map Prod.fst := by
  rw [← not_iff_not, ← getEntries_eq_none_iff]
  unfold GoMap.get
  cases getEntries m.entries k <;> simp

theorem GoMap.get_mapValues {α : Type} (f : String → α → α) (m : GoMap α) (k : String) :
    (m.mapValues f).get k = (m.get k).map (f k) := by
  unfold GoMap.get GoMap.mapValues
  simp only
  induction m.entries with
  | nil => simp [getEntries]
  | cons p rest ih =>
    obtain ⟨k0, v0⟩ := p
    by_cases h : k0 = k
    · subst h; simp [getEntries]
    · simp [getEntries, h, ih]

theorem foldl_invariant {α β : Type} (P : β → Prop) (f : β → α → β) (l : List α) (init : β)
    (h0 : P init) (hs : ∀ b a, a ∈ l → P b → P (f b a)) : P (l.foldl f init) := by
  induction l generalizing init with
  | nil => exact h0
  | cons a rest ih =>
    rw [List.foldl_cons]
    exact ih (f init a) (hs init a (List.mem_cons_self a rest) h0)
      (fun b x hx hb => hs b x (List.mem_cons_of_mem a hx) hb)

theorem Runtime.order_nil (rt : Runtime) (site : Nat) (α : Type) : rt.order site α [] = [] :=
  (rt.order_perm site α []).eq_nil

theorem Runtime.sort_nil (rt : Runtime) (α : Type) (less : α → α → Bool) :
    rt.sort α less [] = [] :=
  (rt.sort_perm α less []).eq_nil

/-! ## filterEdgeMap, nodeSliceToMap, stripNodeMap -/

theorem keepEdge_fold_get_of_not_mem (nodeMap : GoMap Node) (l : List (String × Edge))
    (acc : GoMap Edge) (k : String) (hk : k ∉ l.map Prod.fst) :
    (l.foldl (keepEdge nodeMap) acc).get k = acc.get k := by
  induction l generalizing acc with
  | nil => rfl
  | cons x rest ih =>
    rw [List.map_cons, List.mem_cons, not_or] at hk
    rw [List.foldl_cons, ih _ hk.2]
    unfold keepEdge
    split
    · rw [GoMap.get_set, if_neg hk.1]
    · rfl

theorem keepEdge_fold_complete (nodeMap : GoMap Node) (l : List (String × Edge))
    (hl : (l.map Prod.fst).Nodup) (acc : GoMap Edge) (k : String) (e : Edge)
    (hmem : (k, e) ∈ l)
    (hkeep : ((nodeMap.get e.Origin).isSome && (nodeMap.get e.Destination).isSome) = true) :
    (l.foldl (keepEdge nodeMap) acc).get k = some e := by
  induction l generalizing acc with
  | nil => cases hmem
  | cons x rest ih =>
    rw [List.map_cons, List.nodup_cons] at hl
    rw [List.foldl_cons]
    rcases List.mem_cons.1 hmem with h | h
    · subst h
      rw [keepEdge_fold_get_of_not_mem nodeMap rest _ k hl.1]
      unfold keepEdge
      rw [if_pos hkeep, GoMap.get_set, if_pos rfl]
    · exact ih hl.2 _ h

theorem keepEdge_fold_sound (nodeMap : GoMap Node) (l : List (String × Edge)) (k : String)
    (e : Edge) (h : (l.foldl (keepEdge nodeMap) GoMap.empty).get k = some e) :
    (k, e) ∈ l ∧
      ((nodeMap.get e.Origin).isSome && (nodeMap.get e.Destination).isSome) = true := by
  have inv := foldl_invariant
    (fun acc : GoMap Edge => ∀ k e, acc.get k = some e → (k, e) ∈ l ∧
      ((nodeMap.get e.Origin).isSome && (nodeMap.get e.Destination).isSome) = true)
    (keepEdge nodeMap) l GoMap.empty
    (fun k e h => by rw [GoMap.get_empty] at h; cases h)
    (fun acc x hx hacc k e h => by
      unfold keepEdge at h
      split at h
      · rename_i hkeep
        rw [GoMap.get_set] at h
        split at h
        · rename_i hk
          cases h
          subst hk
          exact ⟨hx, hkeep⟩
        · exact hacc k e h
      · exact hacc k e h)
  exact inv k e h

theorem filterEdgeMap_get (rt : Runtime) (edgeMap : GoMap Edge) (nodeMap : GoMap Node)
    (k : String) (e : Edge) :
    (filterEdgeMap rt edgeMap nodeMap).get k = some e ↔
      edgeMap.get k = some e ∧ (nodeMap.get e.Origin).isSome = true
        ∧ (nodeMap.get e.Destination).isSome = true := by
  have hperm := rt.order_perm 8 _ edgeMap.entries
  have hnodup : ((rt.order 8 _ edgeMap.entries).map Prod.fst).Nodup :=
    ((hperm.map Prod.fst).nodup_iff).2 edgeMap.nodup
  have hfold : filterEdgeMap rt edgeMap nodeMap
      = (rt.order 8 _ edgeMap.entries).foldl (keepEdge nodeMap) GoMap.empty := rfl
  rw [hfold, GoMap.get_eq_some_iff edgeMap]
  constructor
  · intro h
    have hs := keepEdge_fold_sound nodeMap _ k e h
    rw [Bool.and_eq_true] at hs
    exact ⟨hperm.mem_iff.1 hs.1, hs.2⟩
  · rintro ⟨hmem, ho, hd⟩
    exact keepEdge_fold_complete nodeMap _ hnodup _ k e (hperm.mem_iff.2 hmem)
      (by rw [Bool.and_eq_true]; exact ⟨ho, hd⟩)

theorem nodeSliceToMap_fold_isSome (l : List Node) (acc : GoMap Node) (k : String) :
    ((l.foldl (fun nodeMap node => nodeMap.set node.Name node) acc).get k).isSome = true ↔
      (acc.get k).isSome = true ∨ k ∈ l.map Node.Name := by
  induction l generalizing acc with
  | nil => simp
  | cons n rest ih =>
    rw [List.foldl_cons, ih, GoMap.get_set, List.map_cons, List.mem_cons]
    by_cases h : k = n.Name
    · simp [h]
    · simp [h]

theorem nodeSliceToMap_isSome (l : List Node) (k : String) :
    ((nodeSliceToMap l).get k).isSome = true ↔ k ∈ l.map Node.Name := by
  unfold nodeSliceToMap
  rw [nodeSliceToMap_fold_isSome, GoMap.get_empty]
  simp

theorem stripNodeMap_isSome (nodeMap : GoMap Node) (edgeMap : GoMap Edge) (k : String) :
    ((stripNodeMap nodeMap edgeMap).get k).isSome = (nodeMap.get k).isSome := by
  unfold stripNodeMap
  rw [GoMap.get_mapValues]
  cases nodeMap.get k <;> rfl

/-- What `ReduceTo` returns when it returns. -/
theorem reduceTo_eq_some (rt : Runtime) (g r : Graph) (limit : Int)
    (h : g.ReduceTo rt limit = some r) :
    ¬ min limit ((g.nodeSlice.length : Int) - 1) < 0 ∧
    r.edgeMap = filterEdgeMap rt g.edgeMap
      (nodeSliceToMap (g.nodeSlice.take (min limit ((g.nodeSlice.length : Int) - 1)).toNat)) ∧
    r.nodeMap = stripNodeMap
      (nodeSliceToMap (g.nodeSlice.take (min limit ((g.nodeSlice.length : Int) - 1)).toNat))
      r.edgeMap ∧
    r.nodeSlice = nodeMapToSortedSlice rt r.nodeMap ∧
    r.totalClickCount = calculateClickCount rt r.edgeMap := by
  unfold Graph.ReduceTo at h
  simp only at h
  split at h
  · cases h
  · rename_i hlt
    cases h
    exact ⟨hlt, rfl, rfl, rfl, rfl⟩

/-! ## Nodes of the built graph -/

theorem visitNode_get (nodeMap : GoMap Node) (log : Log) (k : String) :
    (visitNode nodeMap log).get k =
      if k = log.ScreenName then
        some { (match nodeMap.get log.ScreenName with
                | some node => node
                | none => { Name := log.ScreenName, Edges := [], VisitCount := 0,
                            Rank := Float32.num 0 }) with
               VisitCount := (match nodeMap.get log.ScreenName with
                | some node => node
                | none => { Name := log.ScreenName, Edges := [], VisitCount := 0,
                            Rank := Float32.num 0 }).VisitCount + 1 }
      else nodeMap.get k := by
  unfold visitNode
  exact GoMap.get_set _ _ _ k

theorem visitNode_fold_isSome (logs : List Log) (acc : GoMap Node) (k : String) :
    ((logs.foldl visitNode acc).get k).isSome = true ↔
      (acc.get k).isSome = true ∨ k ∈ logs.map Log.ScreenName := by
  induction logs generalizing acc with
  | nil => simp
  | cons log rest ih =>
    rw [List.foldl_cons, ih, visitNode_get, List.map_cons, List.mem_cons]
    by_cases h : k = log.ScreenName
    · simp [h]
    · simp [h]

theorem sessions_fold_isSome (l : List (String × List Log)) (acc : GoMap Node) (k : String) :
    ((l.foldl (fun nodeMap entry => entry.2.foldl visitNode nodeMap) acc).get k).isSome = true ↔
      (acc.get k).isSome = true ∨ k ∈ l.flatMap (fun entry => entry.2.map Log.ScreenName) := by
  induction l generalizing acc with
  | nil => simp
  | cons entry rest ih =>
    rw [List.foldl_cons, ih, visitNode_fold_isSome, List.flatMap_cons, List.mem_append, or_assoc]

theorem createNodeMap_isSome (rt : Runtime) (sessionMap : GoMap (List Log)) (k : String) :
    ((createNodeMapWithVisitCount rt sessionMap).get k).isSome = true ↔
      k ∈ screenNames sessionMap := by
  unfold createNodeMapWithVisitCount screenNames
  rw [sessions_fold_isSome, GoMap.get_empty]
  have hp := (rt.order_perm 1 _ sessionMap.entries).flatMap_right
    (fun entry => entry.2.map Log.ScreenName)
  simp [hp.mem_iff]

theorem attachEdge_isSome (nodeMap : GoMap Node) (edge : Edge) (k : String) :
    ((attachEdge nodeMap edge).get k).isSome = (nodeMap.get k).isSome := by
  unfold attachEdge
  cases h : nodeMap.get edge.Origin with
  | none => rfl
  | some origNode =>
    simp only
    rw [GoMap.get_set]
    by_cases hk : k = edge.Origin
    · rw [if_pos hk, hk, h]; rfl
    · rw [if_neg hk]

theorem attachEdge_fold_isSome (l : List (String × Edge)) (nodeMap : GoMap Node) (k : String) :
    ((l.foldl (fun nodeMap entry => attachEdge nodeMap entry.2) nodeMap).get k).isSome
      = (nodeMap.get k).isSome := by
  induction l generalizing nodeMap with
  | nil => rfl
  | cons entry rest ih => rw [List.foldl_cons, ih, attachEdge_isSome]

theorem enrich_isSome (rt : Runtime) (nodeMap : GoMap Node) (edgeMap : GoMap Edge)
    (total : Int) (k : String) :
    ((enrichNodesWithRankAndEdges rt nodeMap edgeMap total).get k).isSome
      = (nodeMap.get k).isSome := by
  unfold enrichNodesWithRankAndEdges
  rw [GoMap.get_mapValues, Option.isSome_map', attachEdge_fold_isSome]

theorem newGraph_hasNode_iff (rt : Runtime) (sessionMap : GoMap (List Log)) (k : String) :
    (NewGraph rt sessionMap).hasNode k ↔ k ∈ screenNames sessionMap := by
  unfold Graph.hasNode NewGraph
  simp only
  rw [enrich_isSome, createNodeMap_isSome]

/-! ## Edges of the built graph -/

theorem visitEdge_fold (logs : List Log) (edgeMap : GoMap Edge) (prevName : String) :
    (logs.foldl visitEdge (edgeMap, prevName)).1
      = (codePairs prevName logs).foldl bumpEdge edgeMap := by
  induction logs generalizing edgeMap prevName with
  | nil => rfl
  | cons log rest ih =>
    rw [List.foldl_cons]
    by_cases h : prevName = ""
    · have h1 : visitEdge (edgeMap, prevName) log = (edgeMap, log.ScreenName) := by
        simp [visitEdge, h]
      rw [h1, ih]
      simp [codePairs, h]
    · have h1 : visitEdge (edgeMap, prevName) log
          = (bumpEdge edgeMap (prevName, log.ScreenName), log.ScreenName) := by
        simp [visitEdge, bumpEdge, h]
      rw [h1, ih]
      simp [codePairs, h]

theorem foldl_flatMap_eq {α β γ : Type} (f : γ → β → γ) (g : α → List β) (l : List α)
    (init : γ) :
    l.foldl (fun acc a => (g a).foldl f acc) init = (l.flatMap g).foldl f init := by
  induction l generalizing init with
  | nil => rfl
  | cons a rest ih => rw [List.foldl_cons, ih, List.flatMap_cons, List.foldl_append]

theorem createEdgeMap_eq (rt : Runtime) (sessionMap : GoMap (List Log)) :
    createEdgeMapWithVisitCount rt sessionMap
      = ((rt.order 3 _ sessionMap.entries).flatMap (fun entry => codePairs "" entry.2)).foldl
          bumpEdge GoMap.empty := by
  unfold createEdgeMapWithVisitCount
  rw [← foldl_flatMap_eq]
  congr 1
  funext edgeMap entry
  exact visitEdge_fold entry.2 edgeMap ""

theorem bumpEdge_get (edgeMap : GoMap Edge) (p : String × String) (k : String) :
    (bumpEdge edgeMap p).get k =
      if k = edgeName p.1 p.2 then
        some (match edgeMap.get (edgeName p.1 p.2) with
          | some edge => { edge with VisitCount := edge.VisitCount + 1 }
          | none =>
            { Name := edgeName p.1 p.2, Origin := p.1, Destination := p.2, VisitCount := 0 + 1,
              Rank := Float32.num 0, LocalRank := Float32.num 0 })
      else edgeMap.get k := by
  unfold bumpEdge
  simp only
  rw [GoMap.get_set]
  cases edgeMap.get (edgeName p.1 p.2) <;> rfl

/-- Every edge of a map built by `bumpEdge` from the pairs `ps` is stored under its
Name, which is the key of its Origin and Destination, and these form a pair of `ps`. -/
theorem bumpEdge_fold_shape (ps : List (String × String)) (k : String) (e : Edge)
    (h : (ps.foldl bumpEdge GoMap.empty).get k = some e) :
    e.Name = k ∧ k = edgeName e.Origin e.Destination ∧ (e.Origin, e.Destination) ∈ ps := by
  have inv := foldl_invariant
    (fun acc : GoMap Edge => ∀ k e, acc.get k = some e →
      e.Name = k ∧ k = edgeName e.Origin e.Destination ∧ (e.Origin, e.Destination) ∈ ps)
    bumpEdge ps GoMap.empty
    (fun k e h => by rw [GoMap.get_empty] at h; cases h)
    (fun acc p hp hacc k e h => by
      rw [bumpEdge_get] at h
      split at h
      · rename_i hk
        cases hold : acc.get (edgeName p.1 p.2) with
        | none =>
          rw [hold] at h
          cases h
          exact ⟨hk.symm, hk, hp⟩
        | some e0 =>
          rw [hold] at h
          cases h
          have h0 := hacc _ e0 hold
          exact ⟨h0.1.trans hk.symm, hk.trans h0.2.1, h0.2.2⟩
      · exact hacc k e h)
  exact inv k e h

theorem mem_pairsFrom (logs : List Log) (prevName : String) (p : String × String)
    (h : p ∈ pairsFrom prevName logs) :
    (p.1 = prevName ∨ p.1 ∈ logs.map Log.ScreenName) ∧ p.2 ∈ logs.map Log.ScreenName := by
  induction logs generalizing prevName with
  | nil => cases h
  | cons log rest ih =>
    rcases List.mem_cons.1 h with h1 | h1
    · subst h1
      simp
    · have h2 := ih _ h1
      rcases h2 with ⟨h3 | h3, h4⟩
      · simp [h3, h4]
      · simp [h3, h4]

theorem mem_transitions (logs : List Log) (p : String × String) (h : p ∈ transitions logs) :
    p.1 ∈ logs.map Log.ScreenName ∧ p.2 ∈ logs.map Log.ScreenName := by
  cases logs with
  | nil => cases h
  | cons log rest =>
    have h2 := mem_pairsFrom rest log.ScreenName p h
    rcases h2 with ⟨h3 | h3, h4⟩
    · simp [h3, h4]
    · simp [h3, h4]

theorem codePairs_sublist_pairsFrom (logs : List Log) (prevName : String) :
    (codePairs prevName logs).Sublist (pairsFrom prevName logs) := by
  induction logs generalizing prevName with
  | nil => exact List.Sublist.refl _
  | cons log rest ih =>
    by_cases h : prevName = ""
    · simp only [codePairs, h, ne_eq, not_true_eq_false, if_false, pairsFrom]
      exact (ih _).cons _
    · simp only [codePairs, h, ne_eq, not_false_eq_true, if_true, pairsFrom]
      exact (ih _).cons₂ _

theorem codePairs_sublist_transitions (logs : List Log) :
    (codePairs "" logs).Sublist (transitions logs) := by
  cases logs with
  | nil => exact List.Sublist.refl _
  | cons log rest =>
    simp only [codePairs, ne_eq, not_true_eq_false, if_false, transitions]
    exact codePairs_sublist_pairsFrom rest _

/-- All pairs for which the edge map is updated, in the order in which the runtime
visits the sessions. -/
theorem allCodePairs_sublist (l : List (String × List Log)) :
    (l.flatMap (fun entry => codePairs "" entry.2)).Sublist
      (l.flatMap (fun entry => transitions entry.2)) := by
  induction l with
  | nil => exact List.Sublist.refl _
  | cons entry rest ih =>
    rw [List.flatMap_cons, List.flatMap_cons]
    exact (codePairs_sublist_transitions entry.2).append ih

theorem mem_allTransitions_names (sessionMap : GoMap (List Log)) (p : String × String)
    (h : p ∈ allTransitions sessionMap) :
    p.1 ∈ screenNames sessionMap ∧ p.2 ∈ screenNames sessionMap := by
  unfold allTransitions at h
  unfold screenNames
  rw [List.mem_flatMap] at h
  obtain ⟨entry, hentry, hp⟩ := h
  have h2 := mem_transitions entry.2 p hp
  exact ⟨List.mem_flatMap.2 ⟨entry, hentry, h2.1⟩, List.mem_flatMap.2 ⟨entry, hentry, h2.2⟩⟩

/-- The pairs counted by `createEdgeMapWithVisitCount` are consecutive pairs of the
sessions. -/
theorem mem_codePairs_allTransitions (rt : Runtime) (sessionMap : GoMap (List Log))
    (p : String × String)
    (h : p ∈ (rt.order 3 _ sessionMap.entries).flatMap (fun entry => codePairs "" entry.2)) :
    p ∈ allTransitions sessionMap := by
  have h1 := (allCodePairs_sublist (rt.order 3 _ sessionMap.entries)).subset h
  exact (((rt.order_perm 3 _ sessionMap.entries).flatMap_right
    (fun entry => transitions entry.2)).mem_iff).1 h1

theorem newGraph_edge_shape (rt : Runtime) (sessionMap : GoMap (List Log)) (k : String)
    (e : Edge) (h : (NewGraph rt sessionMap).edgeMap.get k = some e) :
    e.Name = k ∧ k = edgeName e.Origin e.Destination ∧
      (e.Origin, e.Destination) ∈ allTransitions sessionMap := by
  have h1 : (NewGraph rt sessionMap).edgeMap = createEdgeMapWithVisitCount rt sessionMap := rfl
  rw [h1, createEdgeMap_eq] at h
  have h2 := bumpEdge_fold_shape _ k e h
  exact ⟨h2.1, h2.2.1, mem_codePairs_allTransitions rt sessionMap _ h2.2.2⟩

theorem reduceTo_isSome (rt : Runtime) (g : Graph) (limit : Int) (hl : 0 ≤ limit)
    (hn : 0 < g.NodeCount) : (g.ReduceTo rt limit).isSome = true := by
  unfold Graph.NodeCount at hn
  have hm : ¬ min limit ((g.nodeSlice.length : Int) - 1) < 0 := by
    unfold min
    split <;> omega
  unfold Graph.ReduceTo
  simp only [hm, if_false, Option.isSome_some]

/-! ## Counting the edges -/

theorem bumpEdge_edgeVisits (edgeMap : GoMap Edge) (p : String × String) (k : String) :
    edgeVisits (bumpEdge edgeMap p) k
      = edgeVisits edgeMap k + (if edgeName p.1 p.2 = k then 1 else 0) := by
  unfold edgeVisits
  rw [bumpEdge_get]
  by_cases h : k = edgeName p.1 p.2
  · subst h
    simp only [if_true]
    cases edgeMap.get (edgeName p.1 p.2) <;> simp
  · have h' : ¬ edgeName p.1 p.2 = k := fun e => h e.symm
    simp only [h, h', if_false, add_zero]

theorem bumpEdge_fold_edgeVisits (ps : List (String × String)) (edgeMap : GoMap Edge)
    (k : String) :
    edgeVisits (ps.foldl bumpEdge edgeMap) k
      = edgeVisits edgeMap k + (ps.countP (fun p => decide (edgeName p.1 p.2 = k)) : Nat) := by
  induction ps generalizing edgeMap with
  | nil => simp
  | cons p rest ih =>
    rw [List.foldl_cons, ih, bumpEdge_edgeVisits, List.countP_cons]
    by_cases h : edgeName p.1 p.2 = k
    · simp only [h, if_true, decide_True, Nat.cast_add, Nat.cast_one]
      omega
    · simp only [h, if_false, decide_False, add_zero, Bool.false_eq_true]

theorem bumpEdge_fold_isSome (ps : List (String × String)) (edgeMap : GoMap Edge)
    (k : String) :
    ((ps.foldl bumpEdge edgeMap).get k).isSome = true ↔
      (edgeMap.get k).isSome = true ∨ ∃ p ∈ ps, edgeName p.1 p.2 = k := by
  induction ps generalizing edgeMap with
  | nil => simp
  | cons p rest ih =>
    rw [List.foldl_cons, ih, bumpEdge_get]
    by_cases h : k = edgeName p.1 p.2
    · simp [h]
    · have h' : ¬ edgeName p.1 p.2 = k := fun e => h e.symm
      simp [h, h']

theorem codePairs_eq_pairsFrom (logs : List Log) (prevName : String) (hp : prevName ≠ "")
    (hne : ∀ name ∈ logs.map Log.ScreenName, name ≠ "") :
    codePairs prevName logs = pairsFrom prevName logs := by
  induction logs generalizing prevName with
  | nil => rfl
  | cons log rest ih =>
    have h1 : log.ScreenName ≠ "" := hne _ (by simp)
    have h2 : ∀ name ∈ rest.map Log.ScreenName, name ≠ "" :=
      fun name hn => hne name (by simp only [List.map_cons, List.mem_cons]; exact Or.inr hn)
    simp only [codePairs, hp, ne_eq, not_false_eq_true, if_true, pairsFrom, ih _ h1 h2]

theorem codePairs_eq_transitions (logs : List Log)
    (hne : ∀ name ∈ logs.map Log.ScreenName, name ≠ "") :
    codePairs "" logs = transitions logs := by
  cases logs with
  | nil => rfl
  | cons log rest =>
    have h1 : log.ScreenName ≠ "" := hne _ (by simp)
    have h2 : ∀ name ∈ rest.map Log.ScreenName, name ≠ "" :=
      fun name hn => hne name (by simp only [List.map_cons, List.mem_cons]; exact Or.inr hn)
    simp only [codePairs, ne_eq, not_true_eq_false, if_false, transitions]
    exact codePairs_eq_pairsFrom rest _ h1 h2

/-- Without empty screen names the pairs counted by `createEdgeMapWithVisitCount` are
the consecutive pairs of the sessions, up to the order of the sessions. -/
theorem codePairs_perm_allTransitions (rt : Runtime) (sessionMap : GoMap (List Log))
    (hne : NoEmptyName sessionMap) :
    ((rt.order 3 _ sessionMap.entries).flatMap (fun entry => codePairs "" entry.2)).Perm
      (allTransitions sessionMap) := by
  have hp := rt.order_perm 3 _ sessionMap.entries
  have h1 : (rt.order 3 _ sessionMap.entries).flatMap (fun entry => codePairs "" entry.2)
      = (rt.order 3 _ sessionMap.entries).flatMap (fun entry => transitions entry.2) := by
    apply List.flatMap_congr
    intro entry hentry
    apply codePairs_eq_transitions
    intro name hname
    exact hne name (List.mem_flatMap.2 ⟨entry, hp.mem_iff.1 hentry, hname⟩)
  rw [h1]
  exact hp.flatMap_right _

theorem mem_edges_iff (g : Graph) (e : Edge) :
    e ∈ g.edges ↔ ∃ k, g.edgeMap.get k = some e := by
  unfold Graph.edges
  rw [List.mem_map]
  constructor
  · rintro ⟨x, hx, rfl⟩
    exact ⟨x.1, (GoMap.get_eq_some_iff _ _ _).2 hx⟩
  · rintro ⟨k, hk⟩
    exact ⟨(k, e), (GoMap.get_eq_some_iff _ _ _).1 hk, rfl⟩

/-- VisitCount of an edge of the built graph: the number of counted pairs with its key. -/
theorem newGraph_edge_visits (rt : Runtime) (sessionMap : GoMap (List Log)) (k : String)
    (e : Edge) (h : (NewGraph rt sessionMap).edgeMap.get k = some e) :
    e.VisitCount =
      ((((rt.order 3 _ sessionMap.entries).flatMap (fun entry => codePairs "" entry.2)).countP
        (fun p => decide (edgeName p.1 p.2 = k)) : Nat) : Int) := by
  have h1 : (NewGraph rt sessionMap).edgeMap = createEdgeMapWithVisitCount rt sessionMap := rfl
  rw [h1, createEdgeMap_eq] at h
  have h2 := bumpEdge_fold_edgeVisits
    ((rt.order 3 _ sessionMap.entries).flatMap (fun entry => codePairs "" entry.2))
    GoMap.empty k
  unfold edgeVisits at h2
  rw [h, GoMap.get_empty] at h2
  simpa using h2

theorem countP_key_eq_count (ps all : List (String × String)) (hsub : ∀ p ∈ ps, p ∈ all)
    (hkeys : ∀ p ∈ all, ∀ q ∈ all, edgeName p.1 p.2 = edgeName q.1 q.2 → p = q)
    (q : String × String) (hq : q ∈ all) :
    ps.countP (fun p => decide (edgeName p.1 p.2 = edgeName q.1 q.2)) = ps.count q := by
  rw [List.count_eq_countP]
  apply List.countP_congr
  intro p hp
  simp only [decide_eq_true_eq, beq_iff_eq]
  constructor
  · intro h
    exact hkeys p (hsub p hp) q hq h
  · intro h
    rw [h]

theorem length_le_one_of_nodup_of_all_eq (l : List String) (k : String) (hl : l.Nodup)
    (hall : ∀ x ∈ l, x = k) : l.length ≤ 1 := by
  match l, hl, hall with
  | [], _, _ => simp
  | [_], _, _ => simp
  | a :: b :: rest, hl, hall =>
    exfalso
    have ha : a = k := hall a (by simp)
    have hb : b = k := hall b (by simp)
    rw [List.nodup_cons] at hl
    exact hl.1 (by rw [ha, hb]; simp)

/-! ## Sums over maps -/

theorem sum_setEntries {α : Type} (w : α → Int) (l : List (String × α)) (k : String) (v : α) :
    ((setEntries l k v).map (fun entry => w entry.2)).sum
      = (l.map (fun entry => w entry.2)).sum
        - (match getEntries l k with
            | some old => w old
            | none => 0) + w v := by
  induction l with
  | nil => simp [setEntries, getEntries]
  | cons x rest ih =>
    obtain ⟨k0, v0⟩ := x
    by_cases h : k0 = k
    · simp only [setEntries, getEntries, h, if_true, List.map_cons, List.sum_cons]
      omega
    · simp only [setEntries, getEntries, h, if_false, List.map_cons, List.sum_cons, ih]
      omega

theorem GoMap.valueSum_set {α : Type} (w : α → Int) (m : GoMap α) (k : String) (v : α) :
    (m.set k v).valueSum w
      = m.valueSum w - (match m.get k with
          | some old => w old
          | none => 0) + w v :=
  sum_setEntries w m.entries k v

theorem GoMap.valueSum_empty {α : Type} (w : α → Int) :
    (GoMap.empty : GoMap α).valueSum w = 0 := rfl

theorem GoMap.valueSum_mapValues {α : Type} (w : α → Int) (f : String → α → α) (m : GoMap α)
    (h : ∀ k v, w (f k v) = w v) : (m.mapValues f).valueSum w = m.valueSum w := by
  unfold GoMap.valueSum GoMap.mapValues
  simp only [List.map_map]
  congr 1
  apply List.map_congr_left
  intro entry _
  exact h entry.1 entry.2

theorem valueSum_eq_of_perm {α : Type} (w : α → Int) (m : GoMap α) (l : List (String × α))
    (h : l.Perm m.entries) : ((l.map Prod.snd).map w).sum = m.valueSum w := by
  unfold GoMap.valueSum
  rw [List.map_map]
  exact (h.map _).sum_eq

/-! ## Visit counts of the nodes -/

theorem visitNode_keyed (nodeMap : GoMap Node) (log : Log) (h : NodeKeyed nodeMap) :
    NodeKeyed (visitNode nodeMap log) := by
  intro k node hk
  rw [visitNode_get] at hk
  split at hk
  · rename_i hkey
    cases hold : nodeMap.get log.ScreenName with
    | none => rw [hold] at hk; cases hk; exact hkey.symm
    | some old =>
      rw [hold] at hk
      cases hk
      exact (h _ old hold).trans hkey.symm
  · exact h k node hk

theorem visitNode_realSum (nodeMap : GoMap Node) (log : Log) (h : NodeKeyed nodeMap) :
    (visitNode nodeMap log).valueSum realWeight
      = nodeMap.valueSum realWeight
        + (if log.ScreenName ≠ "start" ∧ log.ScreenName ≠ "end" then 1 else 0) := by
  unfold visitNode
  simp only
  rw [GoMap.valueSum_set]
  cases hold : nodeMap.get log.ScreenName with
  | none =>
    simp only [realWeight]
    split <;> simp
  | some old =>
    have hname := h _ old hold
    simp only [realWeight, hname]
    split <;> omega

theorem visitNode_fold_realSum (logs : List Log) (nodeMap : GoMap Node)
    (h : NodeKeyed nodeMap) :
    NodeKeyed (logs.foldl visitNode nodeMap) ∧
    (logs.foldl visitNode nodeMap).valueSum realWeight
      = nodeMap.valueSum realWeight
        + ((logs.map Log.ScreenName).countP
            (fun name => decide (name ≠ "start" ∧ name ≠ "end")) : Nat) := by
  induction logs generalizing nodeMap with
  | nil => exact ⟨h, by simp⟩
  | cons log rest ih =>
    have ih' := ih (visitNode nodeMap log) (visitNode_keyed nodeMap log h)
    rw [List.foldl_cons]
    refine ⟨ih'.1, ?_⟩
    rw [ih'.2, visitNode_realSum nodeMap log h, List.map_cons, List.countP_cons]
    by_cases hn : log.ScreenName ≠ "start" ∧ log.ScreenName ≠ "end"
    · rw [if_pos hn, if_pos (decide_eq_true hn)]
      push_cast
      omega
    · rw [if_neg hn, if_neg (fun hd => hn (of_decide_eq_true hd))]
      simp

theorem sessions_fold_realSum (l : List (String × List Log)) (nodeMap : GoMap Node)
    (h : NodeKeyed nodeMap) :
    NodeKeyed (l.foldl (fun nodeMap entry => entry.2.foldl visitNode nodeMap) nodeMap) ∧
    (l.foldl (fun nodeMap entry => entry.2.foldl visitNode nodeMap) nodeMap).valueSum realWeight
      = nodeMap.valueSum realWeight
        + ((l.flatMap (fun entry => entry.2.map Log.ScreenName)).countP
            (fun name => decide (name ≠ "start" ∧ name ≠ "end")) : Nat) := by
  induction l generalizing nodeMap with
  | nil => exact ⟨h, by simp⟩
  | cons entry rest ih =>
    have h1 := visitNode_fold_realSum entry.2 nodeMap h
    have ih' := ih _ h1.1
    rw [List.foldl_cons]
    refine ⟨ih'.1, ?_⟩
    rw [ih'.2, h1.2, List.flatMap_cons, List.countP_append]
    push_cast
    omega

theorem nodeKeyed_empty : NodeKeyed GoMap.empty := by
  intro k node h
  rw [GoMap.get_empty] at h
  cases h

theorem createNodeMap_keyed (rt : Runtime) (sessionMap : GoMap (List Log)) :
    NodeKeyed (createNodeMapWithVisitCount rt sessionMap) :=
  (sessions_fold_realSum _ GoMap.empty nodeKeyed_empty).1

theorem createNodeMap_realSum (rt : Runtime) (sessionMap : GoMap (List Log)) :
    (createNodeMapWithVisitCount rt sessionMap).valueSum realWeight
      = (((screenNames sessionMap).countP
          (fun name => decide (name ≠ "start" ∧ name ≠ "end")) : Nat) : Int) := by
  unfold createNodeMapWithVisitCount
  rw [(sessions_fold_realSum _ GoMap.empty nodeKeyed_empty).2, GoMap.valueSum_empty, zero_add]
  unfold screenNames
  rw [((rt.order_perm 1 _ sessionMap.entries).flatMap_right _).countP_eq]

theorem attachEdge_realSum (nodeMap : GoMap Node) (edge : Edge) :
    (attachEdge nodeMap edge).valueSum realWeight = nodeMap.valueSum realWeight := by
  unfold attachEdge
  cases h : nodeMap.get edge.Origin with
  | none => rfl
  | some origNode =>
    simp only
    rw [GoMap.valueSum_set, h]
    simp only [realWeight]
    omega

theorem attachEdge_fold_realSum (l : List (String × Edge)) (nodeMap : GoMap Node) :
    (l.foldl (fun nodeMap entry => attachEdge nodeMap entry.2) nodeMap).valueSum realWeight
      = nodeMap.valueSum realWeight := by
  induction l generalizing nodeMap with
  | nil => rfl
  | cons entry rest ih => rw [List.foldl_cons, ih, attachEdge_realSum]

theorem enrich_realSum (rt : Runtime) (nodeMap : GoMap Node) (edgeMap : GoMap Edge)
    (total : Int) :
    (enrichNodesWithRankAndEdges rt nodeMap edgeMap total).valueSum realWeight
      = nodeMap.valueSum realWeight := by
  unfold enrichNodesWithRankAndEdges
  rw [GoMap.valueSum_mapValues realWeight (fun _ node => rankNode rt total node) _
    (fun _ _ => rfl), attachEdge_fold_realSum]

theorem sortedSlice_perm (rt : Runtime) (nodeMap : GoMap Node) :
    (nodeMapToSortedSlice rt nodeMap).Perm (nodeMap.entries.map Prod.snd) :=
  (rt.sort_perm _ _ _).trans ((rt.order_perm 6 _ nodeMap.entries).map Prod.snd)

theorem sortedSlice_realSum (rt : Runtime) (nodeMap : GoMap Node) :
    realVisitSum (nodeMapToSortedSlice rt nodeMap) = nodeMap.valueSum realWeight := by
  have h1 : realVisitSum (nodeMapToSortedSlice rt nodeMap)
      = ((nodeMapToSortedSlice rt nodeMap).map realWeight).sum := rfl
  rw [h1, ((sortedSlice_perm rt nodeMap).map realWeight).sum_eq]
  exact valueSum_eq_of_perm realWeight nodeMap nodeMap.entries (List.Perm.refl _)

/-- The real visits of the node sequence of the built graph: the number of events whose
screen name is neither start nor end. -/
theorem newGraph_realVisitSum (rt : Runtime) (sessionMap : GoMap (List Log)) :
    realVisitSum (NewGraph rt sessionMap).nodeSlice
      = (((screenNames sessionMap).countP
          (fun name => decide (name ≠ "start" ∧ name ≠ "end")) : Nat) : Int) := by
  have h1 : (NewGraph rt sessionMap).nodeSlice
      = nodeMapToSortedSlice rt (enrichNodesWithRankAndEdges rt
          (createNodeMapWithVisitCount rt sessionMap) (createEdgeMapWithVisitCount rt sessionMap)
          (calculateClickCount rt (createEdgeMapWithVisitCount rt sessionMap))) := rfl
  rw [h1, sortedSlice_realSum, enrich_realSum, createNodeMap_realSum]

/-! ## Click count -/

theorem foldl_cond_add {α : Type} (c : α → Prop) [DecidablePred c] (f : α → Int) (l : List α)
    (acc : Int) :
    l.foldl (fun total a => if c a then total + f a else total) acc
      = acc + (l.map (fun a => if c a then f a else 0)).sum := by
  induction l generalizing acc with
  | nil => simp
  | cons a rest ih =>
    rw [List.foldl_cons, ih, List.map_cons, List.sum_cons]
    split <;> omega

theorem calculateClickCount_eq (rt : Runtime) (edgeMap : GoMap Edge) :
    calculateClickCount rt edgeMap
      = edgeMap.valueSum (edgeWeight (fun _ d => decide (d ≠ "end"))) := by
  unfold calculateClickCount
  rw [foldl_cond_add (fun entry : String × Edge => entry.2.Destination ≠ "end")
    (fun entry => entry.2.VisitCount), zero_add]
  unfold GoMap.valueSum
  have hp := ((rt.order_perm 2 _ edgeMap.entries).map
    (fun entry : String × Edge => if entry.2.Destination ≠ "end" then entry.2.VisitCount else 0)).sum_eq
  rw [hp]
  congr 1
  apply List.map_congr_left
  intro entry _
  unfold edgeWeight
  by_cases h : entry.2.Destination = "end" <;> simp [h]

theorem edgeShape_empty (all : List (String × String)) : EdgeShape GoMap.empty all := by
  intro k e h
  rw [GoMap.get_empty] at h
  cases h

theorem bumpEdge_shape (edgeMap : GoMap Edge) (all : List (String × String))
    (p : String × String) (hp : p ∈ all) (h : EdgeShape edgeMap all) :
    EdgeShape (bumpEdge edgeMap p) all := by
  intro k e hk
  rw [bumpEdge_get] at hk
  split at hk
  · rename_i hkey
    cases hold : edgeMap.get (edgeName p.1 p.2) with
    | none =>
      rw [hold] at hk
      cases hk
      exact ⟨hkey.symm, hkey, hp⟩
    | some e0 =>
      rw [hold] at hk
      cases hk
      have h0 := h _ e0 hold
      exact ⟨h0.1.trans hkey.symm, hkey.trans h0.2.1, h0.2.2⟩
  · exact h k e hk

theorem bumpEdge_weight (sel : String → String → Bool) (edgeMap : GoMap Edge)
    (all : List (String × String))
    (hkeys : ∀ p ∈ all, ∀ q ∈ all, edgeName p.1 p.2 = edgeName q.1 q.2 → p = q)
    (p : String × String) (hp : p ∈ all) (h : EdgeShape edgeMap all) :
    (bumpEdge edgeMap p).valueSum (edgeWeight sel)
      = edgeMap.valueSum (edgeWeight sel) + (if sel p.1 p.2 = true then 1 else 0) := by
  unfold bumpEdge
  simp only
  rw [GoMap.valueSum_set]
  cases hold : edgeMap.get (edgeName p.1 p.2) with
  | none =>
    simp only [edgeWeight]
    split <;> simp
  | some e0 =>
    have h0 := h _ e0 hold
    have heq := hkeys p hp (e0.Origin, e0.Destination) h0.2.2 h0.2.1
    have ho : p.1 = e0.Origin := congrArg Prod.fst heq
    have hd : p.2 = e0.Destination := congrArg Prod.snd heq
    simp only [edgeWeight, ho, hd]
    split <;> omega

theorem bumpEdge_fold_weight (sel : String → String → Bool) (all : List (String × String))
    (hkeys : ∀ p ∈ all, ∀ q ∈ all, edgeName p.1 p.2 = edgeName q.1 q.2 → p = q)
    (ps : List (String × String)) (hsub : ∀ p ∈ ps, p ∈ all) (edgeMap : GoMap Edge)
    (h : EdgeShape edgeMap all) :
    (ps.foldl bumpEdge edgeMap).valueSum (edgeWeight sel)
      = edgeMap.valueSum (edgeWeight sel) + (ps.countP (fun p => sel p.1 p.2) : Nat) := by
  induction ps generalizing edgeMap with
  | nil => simp
  | cons p rest ih =>
    have hp : p ∈ all := hsub p (List.mem_cons_self p rest)
    rw [List.foldl_cons,
      ih (fun q hq => hsub q (List.mem_cons_of_mem p hq)) _ (bumpEdge_shape edgeMap all p hp h),
      bumpEdge_weight sel edgeMap all hkeys p hp h, List.countP_cons]
    split
    · push_cast
      omega
    · simp

/-- Sum of the VisitCounts of the edges of the built graph that `sel` selects: the number
of counted pairs that `sel` selects, when different pairs have different keys. -/
theorem newGraph_edge_weight (rt : Runtime) (sessionMap : GoMap (List Log))
    (hkeys : DistinctKeys sessionMap) (sel : String → String → Bool) :
    (NewGraph rt sessionMap).edgeMap.valueSum (edgeWeight sel)
      = ((((rt.order 3 _ sessionMap.entries).flatMap (fun entry => codePairs "" entry.2)).countP
          (fun p => sel p.1 p.2) : Nat) : Int) := by
  have h1 : (NewGraph rt sessionMap).edgeMap = createEdgeMapWithVisitCount rt sessionMap := rfl
  rw [h1, createEdgeMap_eq,
    bumpEdge_fold_weight sel (allTransitions sessionMap) hkeys _
      (fun p hp => mem_codePairs_allTransitions rt sessionMap p hp) _
      (edgeShape_empty _),
    GoMap.valueSum_empty, zero_add]

theorem countP_flatMap_congr {α β γ : Type} (l : List α) (f : α → List β) (g : α → List γ)
    (p : β → Bool) (q : γ → Bool) (h : ∀ x ∈ l, (f x).countP p = (g x).countP q) :
    (l.flatMap f).countP p = (l.flatMap g).countP q := by
  induction l with
  | nil => rfl
  | cons x rest ih =>
    rw [List.flatMap_cons, List.flatMap_cons, List.countP_append, List.countP_append,
      h x (List.mem_cons_self x rest), ih (fun y hy => h y (List.mem_cons_of_mem x hy))]

theorem countP_flatMap_le {α β γ : Type} (l : List α) (f : α → List β) (g : α → List γ)
    (p : β → Bool) (q : γ → Bool) (h : ∀ x ∈ l, (f x).countP p ≤ (g x).countP q) :
    (l.flatMap f).countP p ≤ (l.flatMap g).countP q := by
  induction l with
  | nil => exact Nat.le_refl _
  | cons x rest ih =>
    rw [List.flatMap_cons, List.flatMap_cons, List.countP_append, List.countP_append]
    exact Nat.add_le_add (h x (List.mem_cons_self x rest))
      (ih (fun y hy => h y (List.mem_cons_of_mem x hy)))

theorem pairsFrom_map_snd (logs : List Log) (prevName : String) :
    (pairsFrom prevName logs).map Prod.snd = logs.map Log.ScreenName := by
  induction logs generalizing prevName with
  | nil => rfl
  | cons log rest ih => simp only [pairsFrom, List.map_cons, ih]

theorem transitions_map_snd (logs : List Log) :
    (transitions logs).map Prod.snd = (logs.map Log.ScreenName).tail := by
  cases logs with
  | nil => rfl
  | cons log rest => simp only [transitions, pairsFrom_map_snd, List.map_cons, List.tail_cons]

/-- In a bracketed session the events named neither start nor end are as many as the
consecutive pairs that do not lead to end. -/
theorem bracketed_real_count (logs : List Log) (hb : Bracketed logs)
    (hfree : RealNamesFree logs) :
    (logs.map Log.ScreenName).countP (fun name => decide (name ≠ "start" ∧ name ≠ "end"))
      = (transitions logs).countP (fun p => decide (p.2 ≠ "end")) := by
  have h1 : (transitions logs).countP (fun p => decide (p.2 ≠ "end"))
      = ((transitions logs).map Prod.snd).countP (fun name => decide (name ≠ "end")) := by
    rw [List.countP_map]
    rfl
  rw [h1, transitions_map_snd]
  unfold Bracketed at hb
  unfold RealNamesFree at hfree
  generalize (logs.map Log.ScreenName).tail.dropLast = mid at hb hfree
  rw [hb]
  simp only [List.tail_cons, List.countP_cons, List.countP_append, List.countP_nil]
  have h2 : mid.countP (fun name => decide (name ≠ "start" ∧ name ≠ "end"))
      = mid.countP (fun name => decide (name ≠ "end")) := by
    apply List.countP_congr
    intro x hx
    have hxs : x ≠ "start" := fun e => hfree.1 (e ▸ hx)
    simp [hxs]
  rw [h2]
  simp

/-! ## Outgoing edges of the nodes -/

theorem visitNode_nodeVisits (nodeMap : GoMap Node) (log : Log) (k : String) :
    nodeVisits (visitNode nodeMap log) k
      = nodeVisits nodeMap k + (if log.ScreenName = k then 1 else 0) := by
  unfold nodeVisits
  rw [visitNode_get]
  by_cases h : k = log.ScreenName
  · subst h
    simp only [if_true]
    cases nodeMap.get log.ScreenName <;> simp
  · have h' : ¬ log.ScreenName = k := fun e => h e.symm
    simp only [h, h', if_false, add_zero]

theorem visitNode_fold_nodeVisits (logs : List Log) (nodeMap : GoMap Node) (k : String) :
    nodeVisits (logs.foldl visitNode nodeMap) k
      = nodeVisits nodeMap k
        + ((logs.map Log.ScreenName).countP (fun name => decide (name = k)) : Nat) := by
  induction logs generalizing nodeMap with
  | nil => simp
  | cons log rest ih =>
    rw [List.foldl_cons, ih, visitNode_nodeVisits, List.map_cons, List.countP_cons]
    by_cases h : log.ScreenName = k
    · rw [if_pos h, if_pos (decide_eq_true h)]
      push_cast
      omega
    · rw [if_neg h, if_neg (fun hd => h (of_decide_eq_true hd))]
      simp

theorem sessions_fold_nodeVisits (l : List (String × List Log)) (nodeMap : GoMap Node)
    (k : String) :
    nodeVisits (l.foldl (fun nodeMap entry => entry.2.foldl visitNode nodeMap) nodeMap) k
      = nodeVisits nodeMap k
        + ((l.flatMap (fun entry => entry.2.map Log.ScreenName)).countP
            (fun name => decide (name = k)) : Nat) := by
  induction l generalizing nodeMap with
  | nil => simp
  | cons entry rest ih =>
    rw [List.foldl_cons, ih, visitNode_fold_nodeVisits, List.flatMap_cons, List.countP_append]
    push_cast
    omega

/-- VisitCount of a node of the first node map: the number of events with its name. -/
theorem createNodeMap_nodeVisits (rt : Runtime) (sessionMap : GoMap (List Log)) (k : String) :
    nodeVisits (createNodeMapWithVisitCount rt sessionMap) k
      = (((screenNames sessionMap).countP (fun name => decide (name = k)) : Nat) : Int) := by
  unfold createNodeMapWithVisitCount
  rw [sessions_fold_nodeVisits]
  unfold screenNames
  rw [((rt.order_perm 1 _ sessionMap.entries).flatMap_right _).countP_eq]
  simp [nodeVisits, GoMap.get_empty]

theorem createNodeMap_edges_nil (rt : Runtime) (sessionMap : GoMap (List Log)) (k : String)
    (node : Node) (h : (createNodeMapWithVisitCount rt sessionMap).get k = some node) :
    node.Edges = [] := by
  have inner : ∀ (logs : List Log) (acc : GoMap Node),
      (∀ k node, acc.get k = some node → node.Edges = []) →
      ∀ k node, (logs.foldl visitNode acc).get k = some node → node.Edges = [] := by
    intro logs acc hacc
    exact foldl_invariant (fun m : GoMap Node => ∀ k node, m.get k = some node → node.Edges = [])
      visitNode logs acc hacc
      (fun m log _ hm k node hk => by
        rw [visitNode_get] at hk
        split at hk
        · cases hold : m.get log.ScreenName with
          | none => rw [hold] at hk; cases hk; rfl
          | some old => rw [hold] at hk; cases hk; exact hm _ old hold
        · exact hm k node hk)
  have outer := foldl_invariant
    (fun m : GoMap Node => ∀ k node, m.get k = some node → node.Edges = [])
    (fun nodeMap (entry : String × List Log) => entry.2.foldl visitNode nodeMap)
    (rt.order 1 _ sessionMap.entries) GoMap.empty
    (fun k node hk => by rw [GoMap.get_empty] at hk; cases hk)
    (fun m entry _ hm => inner entry.2 m hm)
  exact outer k node h

theorem attachEdge_get (nodeMap : GoMap Node) (edge : Edge) (k : String) :
    (attachEdge nodeMap edge).get k
      = (nodeMap.get k).map (fun node =>
          if edge.Origin = k then { node with Edges := node.Edges ++ [edge] } else node) := by
  unfold attachEdge
  cases h : nodeMap.get edge.Origin with
  | none =>
    simp only
    by_cases hk : edge.Origin = k
    · rw [← hk, h]; rfl
    · simp only [hk, if_false]
      cases nodeMap.get k <;> rfl
  | some origNode =>
    simp only
    rw [GoMap.get_set]
    by_cases hk : k = edge.Origin
    · subst hk
      simp [h]
    · have hk' : ¬ edge.Origin = k := fun e => hk e.symm
      simp only [hk, hk', if_false]
      cases nodeMap.get k <;> rfl

theorem attachEdge_fold_get (l : List (String × Edge)) (nodeMap : GoMap Node) (k : String) :
    (l.foldl (fun nodeMap entry => attachEdge nodeMap entry.2) nodeMap).get k
      = (nodeMap.get k).map (fun node =>
          { node with
            Edges := node.Edges ++ (l.map Prod.snd).filter (fun e => decide (e.Origin = k)) }) := by
  induction l generalizing nodeMap with
  | nil =>
    simp only [List.foldl_nil, List.map_nil, List.filter_nil, List.append_nil]
    cases nodeMap.get k <;> rfl
  | cons entry rest ih =>
    rw [List.foldl_cons, ih, attachEdge_get]
    cases nodeMap.get k with
    | none => rfl
    | some node =>
      by_cases hk : entry.2.Origin = k
      · simp [hk, List.filter_cons]
      · simp [hk, List.filter_cons]

theorem edgeVisitSum_filter (sel : String → String → Bool) (es : List Edge) :
    edgeVisitSum (es.filter (fun e => sel e.Origin e.Destination))
      = (es.map (edgeWeight sel)).sum := by
  unfold edgeVisitSum
  induction es with
  | nil => rfl
  | cons e rest ih =>
    rw [List.filter_cons]
    by_cases h : sel e.Origin e.Destination = true
    · simp only [h, if_true, List.map_cons, List.sum_cons, ih, edgeWeight]
    · simp only [h, if_false, List.map_cons, List.sum_cons, ih, edgeWeight,
        Bool.false_eq_true, zero_add]

theorem rankNode_edgeVisitSum (rt : Runtime) (total : Int) (node : Node) :
    edgeVisitSum (rankNode rt total node).Edges = edgeVisitSum node.Edges := by
  unfold edgeVisitSum rankNode
  simp only [List.map_map]
  exact ((rt.sort_perm Edge _ node.Edges).map _).sum_eq

theorem mem_sortedSlice (rt : Runtime) (nodeMap : GoMap Node) (node : Node)
    (h : node ∈ nodeMapToSortedSlice rt nodeMap) : ∃ k, nodeMap.get k = some node := by
  have h1 := (sortedSlice_perm rt nodeMap).mem_iff.1 h
  obtain ⟨entry, hentry, rfl⟩ := List.mem_map.1 h1
  exact ⟨entry.1, (GoMap.get_eq_some_iff _ _ _).2 hentry⟩

theorem pairsFrom_countP_origin (logs : List Log) (prevName k : String) :
    (pairsFrom prevName logs).countP (fun p => decide (p.1 = k))
      ≤ (if prevName = k then 1 else 0)
        + (logs.map Log.ScreenName).countP (fun name => decide (name = k)) := by
  induction logs generalizing prevName with
  | nil => simp [pairsFrom]
  | cons log rest ih =>
    have h := ih log.ScreenName
    simp only [pairsFrom, List.countP_cons, List.map_cons, decide_eq_true_eq]
    omega

theorem codePairs_countP_origin (logs : List Log) (k : String) :
    (codePairs "" logs).countP (fun p => decide (p.1 = k))
      ≤ (logs.map Log.ScreenName).countP (fun name => decide (name = k)) := by
  refine le_trans ((codePairs_sublist_transitions logs).countP_le _) ?_
  cases logs with
  | nil => simp [transitions]
  | cons log rest =>
    have h := pairsFrom_countP_origin rest log.ScreenName k
    simp only [transitions, List.map_cons, List.countP_cons, decide_eq_true_eq]
    omega

/-- In the node map of the built graph the VisitCounts of the outgoing edges of a node
sum to at most the VisitCount of the node, when different pairs have different keys. -/
theorem newGraph_node_edges_le (rt : Runtime) (sessionMap : GoMap (List Log))
    (hkeys : DistinctKeys sessionMap) (k : String) (node : Node)
    (h : (NewGraph rt sessionMap).nodeMap.get k = some node) :
    edgeVisitSum node.Edges ≤ node.VisitCount := by
  have h1 : (NewGraph rt sessionMap).nodeMap
      = GoMap.mapValues
          (fun _ node => rankNode rt (NewGraph rt sessionMap).totalClickCount node)
          ((rt.order 4 _ (NewGraph rt sessionMap).edgeMap.entries).foldl
            (fun nodeMap entry => attachEdge nodeMap entry.2)
            (createNodeMapWithVisitCount rt sessionMap)) := rfl
  rw [h1, GoMap.get_mapValues, attachEdge_fold_get] at h
  cases h0 : (createNodeMapWithVisitCount rt sessionMap).get k with
  | none => rw [h0] at h; cases h
  | some node0 =>
    rw [h0] at h
    simp only [Option.map_some', Option.some.injEq] at h
    have hvisits := createNodeMap_nodeVisits rt sessionMap k
    unfold nodeVisits at hvisits
    rw [h0] at hvisits
    simp only at hvisits
    have hnil := createNodeMap_edges_nil rt sessionMap k node0 h0
    rw [← h, rankNode_edgeVisitSum]
    have hvc : (rankNode rt (NewGraph rt sessionMap).totalClickCount
        { node0 with
          Edges := node0.Edges ++
            ((rt.order 4 _ (NewGraph rt sessionMap).edgeMap.entries).map Prod.snd).filter
              (fun e => decide (e.Origin = k)) }).VisitCount = node0.VisitCount := rfl
    rw [hvc, hvisits]
    simp only [hnil, List.nil_append]
    rw [edgeVisitSum_filter (fun o _ => decide (o = k)),
      valueSum_eq_of_perm _ (NewGraph rt sessionMap).edgeMap _ (rt.order_perm 4 _ _),
      newGraph_edge_weight rt sessionMap hkeys]
    have hle := countP_flatMap_le sessionMap.entries (fun entry => codePairs "" entry.2)
      (fun entry => entry.2.map Log.ScreenName) (fun p => decide (p.1 = k))
      (fun name => decide (name = k)) (fun entry _ => codePairs_countP_origin entry.2 k)
    rw [((rt.order_perm 3 _ sessionMap.entries).flatMap_right _).countP_eq]
    unfold screenNames
    exact_mod_cast hle

/-! ## The node sequence -/

theorem newGraph_nodeMap_keyed (rt : Runtime) (sessionMap : GoMap (List Log)) :
    NodeKeyed (NewGraph rt sessionMap).nodeMap := by
  intro k node h
  have h1 : (NewGraph rt sessionMap).nodeMap
      = GoMap.mapValues
          (fun _ node => rankNode rt (NewGraph rt sessionMap).totalClickCount node)
          ((rt.order 4 _ (NewGraph rt sessionMap).edgeMap.entries).foldl
            (fun nodeMap entry => attachEdge nodeMap entry.2)
            (createNodeMapWithVisitCount rt sessionMap)) := rfl
  rw [h1, GoMap.get_mapValues, attachEdge_fold_get] at h
  cases h0 : (createNodeMapWithVisitCount rt sessionMap).get k with
  | none => rw [h0] at h; cases h
  | some node0 =>
    rw [h0] at h
    simp only [Option.map_some', Option.some.injEq] at h
    rw [← h]
    exact createNodeMap_keyed rt sessionMap k node0 h0

theorem keyed_names_eq_keys (nodeMap : GoMap Node) (h : NodeKeyed nodeMap) :
    (nodeMap.entries.map Prod.snd).map Node.Name = nodeMap.entries.map Prod.fst := by
  rw [List.map_map]
  apply List.map_congr_left
  intro entry hentry
  exact h entry.1 entry.2 ((GoMap.get_eq_some_iff _ _ _).2 hentry)

theorem sortedSlice_names_nodup (rt : Runtime) (nodeMap : GoMap Node) (h : NodeKeyed nodeMap) :
    ((nodeMapToSortedSlice rt nodeMap).map Node.Name).Nodup := by
  have hp := (sortedSlice_perm rt nodeMap).map Node.Name
  rw [keyed_names_eq_keys nodeMap h] at hp
  exact (hp.nodup_iff).2 nodeMap.nodup

theorem strictWeak_visitCount :
    StrictWeak (fun a b : Node => decide (a.VisitCount > b.VisitCount)) := by
  constructor
  · intro a b h
    have h1 : a.VisitCount > b.VisitCount := of_decide_eq_true h
    exact decide_eq_false (by omega)
  · intro a b c h1 h2
    have h3 : ¬ b.VisitCount > a.VisitCount := of_decide_eq_false h1
    have h4 : ¬ c.VisitCount > b.VisitCount := of_decide_eq_false h2
    exact decide_eq_false (by omega)

theorem sortedSlice_sorted (rt : Runtime) (nodeMap : GoMap Node) :
    (nodeMapToSortedSlice rt nodeMap).Pairwise (fun a b => b.VisitCount ≤ a.VisitCount) := by
  have h := rt.sort_sorted Node _ ((rt.order 6 _ nodeMap.entries).map Prod.snd)
    strictWeak_visitCount
  refine h.imp ?_
  intro a b hab
  have h1 : ¬ b.VisitCount > a.VisitCount := of_decide_eq_false hab
  omega

theorem mem_sortedSlice_of_get (rt : Runtime) (nodeMap : GoMap Node) (k : String) (node : Node)
    (h : nodeMap.get k = some node) : node ∈ nodeMapToSortedSlice rt nodeMap := by
  apply (sortedSlice_perm rt nodeMap).mem_iff.2
  exact List.mem_map.2 ⟨(k, node), (GoMap.get_eq_some_iff _ _ _).1 h, rfl⟩

/-- In a sequence sorted descending by VisitCount, with distinct names, in which every
node not named `s` or `other` has fewer visits than every node that is, a node named `s`
is one of the first two. -/
theorem sorted_top_two (x y : Node) (rest : List Node) (s other : String)
    (hnodup : ((x :: y :: rest).map Node.Name).Nodup)
    (hsorted : (x :: y :: rest).Pairwise (fun a b => b.VisitCount ≤ a.VisitCount))
    (hdom : ∀ node ∈ x :: y :: rest, node.Name ≠ s → node.Name ≠ other →
      ∀ o ∈ x :: y :: rest, (o.Name = s ∨ o.Name = other) → node.VisitCount < o.VisitCount)
    (n : Node) (hn : n ∈ x :: y :: rest) (hname : n.Name = s) : n = x ∨ n = y := by
  rcases List.mem_cons.1 hn with h | h
  · exact Or.inl h
  rcases List.mem_cons.1 h with h | h
  · exact Or.inr h
  exfalso
  simp only [List.map_cons, List.nodup_cons, List.mem_cons, List.mem_map, not_or, not_exists,
    not_and] at hnodup
  obtain ⟨⟨hxy, hxrest⟩, hyrest, _⟩ := hnodup
  rw [List.pairwise_cons, List.pairwise_cons] at hsorted
  obtain ⟨hx, hy, _⟩ := hsorted
  have hxn : n.VisitCount ≤ x.VisitCount := hx n (List.mem_cons_of_mem y h)
  have hyn : n.VisitCount ≤ y.VisitCount := hy n h
  have hxs : x.Name ≠ s := fun e => hxrest n h (by rw [hname, e])
  have hys : y.Name ≠ s := fun e => hyrest n h (by rw [hname, e])
  have hxo : x.Name = other := by
    by_contra hne
    have := hdom x (by simp) hxs hne n hn (Or.inl hname)
    omega
  have hyo : y.Name = other := by
    by_contra hne
    have := hdom y (by simp) hys hne n hn (Or.inl hname)
    omega
  exact hxy (by rw [hxo, hyo])

theorem bracketed_names (logs : List Log) (h : Bracketed logs) :
    "start" ∈ logs.map Log.ScreenName ∧ "end" ∈ logs.map Log.ScreenName := by
  unfold Bracketed at h
  rw [h]
  simp

theorem take_two_names (x y : Node) (rest : List Node) (n : Nat) (hn : 2 ≤ n) :
    x.Name ∈ ((x :: y :: rest).take n).map Node.Name ∧
      y.Name ∈ ((x :: y :: rest).take n).map Node.Name := by
  obtain ⟨m, rfl⟩ : ∃ m, n = m + 2 := ⟨n - 2, by omega⟩
  simp [List.take_succ_cons]

/-- A node sequence sorted descending by VisitCount, with distinct names and at least
three nodes, in which every node not named `s` or `other` has fewer visits than every
node that is: the name `s`, when it is in the sequence, is among the first `n >= 2`
names. -/
theorem name_in_take (l : List Node) (s other : String) (n : Nat) (hn : 2 ≤ n)
    (hlen : 2 ≤ l.length)
    (hnodup : (l.map Node.Name).Nodup)
    (hsorted : l.Pairwise (fun a b => b.VisitCount ≤ a.VisitCount))
    (hdom : ∀ node ∈ l, node.Name ≠ s → node.Name ≠ other →
      ∀ o ∈ l, (o.Name = s ∨ o.Name = other) → node.VisitCount < o.VisitCount)
    (hs : s ∈ l.map Node.Name) : s ∈ (l.take n).map Node.Name := by
  match l, hlen with
  | x :: y :: rest, _ =>
    obtain ⟨node, hnode, hname⟩ := List.mem_map.1 hs
    have htwo := take_two_names x y rest n hn
    rcases sorted_top_two x y rest s other hnodup hsorted hdom node hnode hname with h | h
    · rw [← hname, h]; exact htwo.1
    · rw [← hname, h]; exact htwo.2

/-! ## Ranks -/

theorem float32_add_num (a b : ℚ) :
    Float32.add (Float32.num a) (Float32.num b) = Float32.num (a + b) := rfl

theorem float32_div_ofInt (a b : Int) (hb : b ≠ 0) :
    Float32.div (Float32.ofInt a) (Float32.ofInt b) = Float32.num ((a : ℚ) / (b : ℚ)) := by
  have hb' : ¬ ((b : ℚ) = 0) := by exact_mod_cast hb
  simp only [Float32.div, Float32.ofInt, hb', if_false]

/-- A node of the built graph is a node of the first node map with the edges leaving it
attached and the ranks filled in. -/
theorem newGraph_node_eq (rt : Runtime) (sessionMap : GoMap (List Log)) (k : String)
    (node : Node) (h : (NewGraph rt sessionMap).nodeMap.get k = some node) :
    ∃ node0, (createNodeMapWithVisitCount rt sessionMap).get k = some node0 ∧
      node = rankNode rt (NewGraph rt sessionMap).totalClickCount
        { node0 with
          Edges := node0.Edges ++
            ((rt.order 4 _ (NewGraph rt sessionMap).edgeMap.entries).map Prod.snd).filter
              (fun e => decide (e.Origin = k)) } := by
  have h1 : (NewGraph rt sessionMap).nodeMap
      = GoMap.mapValues
          (fun _ node => rankNode rt (NewGraph rt sessionMap).totalClickCount node)
          ((rt.order 4 _ (NewGraph rt sessionMap).edgeMap.entries).foldl
            (fun nodeMap entry => attachEdge nodeMap entry.2)
            (createNodeMapWithVisitCount rt sessionMap)) := rfl
  rw [h1, GoMap.get_mapValues, attachEdge_fold_get] at h
  cases h0 : (createNodeMapWithVisitCount rt sessionMap).get k with
  | none => rw [h0] at h; cases h
  | some node0 =>
    rw [h0] at h
    simp only [Option.map_some', Option.some.injEq] at h
    exact ⟨node0, rfl, h.symm⟩

theorem newGraph_node_rank (rt : Runtime) (sessionMap : GoMap (List Log)) (k : String)
    (node : Node) (h : (NewGraph rt sessionMap).nodeMap.get k = some node) :
    node.Rank = Float32.div (Float32.ofInt node.VisitCount)
      (Float32.ofInt (NewGraph rt sessionMap).totalClickCount) := by
  obtain ⟨node0, _, hnode⟩ := newGraph_node_eq rt sessionMap k node h
  rw [hnode]
  rfl

theorem newGraph_edge_localRank (rt : Runtime) (sessionMap : GoMap (List Log)) (k : String)
    (node : Node) (h : (NewGraph rt sessionMap).nodeMap.get k = some node) :
    ∀ e ∈ node.Edges, e.LocalRank
      = Float32.div (Float32.ofInt e.VisitCount) (Float32.ofInt node.VisitCount) := by
  obtain ⟨node0, _, hnode⟩ := newGraph_node_eq rt sessionMap k node h
  intro e he
  rw [hnode] at he ⊢
  unfold rankNode at he
  simp only at he
  obtain ⟨e0, _, rfl⟩ := List.mem_map.1 he
  rfl

/-- Every node of the built graph has been visited. -/
theorem newGraph_node_visits_pos (rt : Runtime) (sessionMap : GoMap (List Log)) (k : String)
    (node : Node) (h : (NewGraph rt sessionMap).nodeMap.get k = some node) :
    0 < node.VisitCount := by
  obtain ⟨node0, h0, hnode⟩ := newGraph_node_eq rt sessionMap k node h
  have hvc : node.VisitCount = node0.VisitCount := by rw [hnode]; rfl
  have hvisits := createNodeMap_nodeVisits rt sessionMap k
  unfold nodeVisits at hvisits
  rw [h0] at hvisits
  simp only at hvisits
  have hmem : k ∈ screenNames sessionMap :=
    (createNodeMap_isSome rt sessionMap k).1 (by rw [h0]; rfl)
  have hpos : 0 < (screenNames sessionMap).countP (fun name => decide (name = k)) :=
    List.countP_pos_iff.2 ⟨k, hmem, by simp⟩
  rw [hvc, hvisits]
  exact_mod_cast hpos

theorem nodeSum_fold (t : ℚ) (l : List Node)
    (hrank : ∀ node ∈ l, node.Rank = Float32.num ((node.VisitCount : ℚ) / t)) (q : ℚ) :
    l.foldl
      (fun nodeSum node =>
        if node.Name ≠ "start" ∧ node.Name ≠ "end" then Float32.add nodeSum node.Rank
        else nodeSum)
      (Float32.num q)
      = Float32.num (q + (realVisitSum l : ℚ) / t) := by
  induction l generalizing q with
  | nil => simp [realVisitSum]
  | cons node rest ih =>
    have hnode := hrank node (List.mem_cons_self node rest)
    have hrest : ∀ n ∈ rest, n.Rank = Float32.num ((n.VisitCount : ℚ) / t) :=
      fun n hn => hrank n (List.mem_cons_of_mem node hn)
    have hsum : realVisitSum (node :: rest)
        = (if node.Name ≠ "start" ∧ node.Name ≠ "end" then node.VisitCount else 0)
          + realVisitSum rest := by
      simp [realVisitSum]
    rw [List.foldl_cons, hsum]
    by_cases hreal : node.Name ≠ "start" ∧ node.Name ≠ "end"
    · rw [if_pos hreal, if_pos hreal, hnode, float32_add_num, ih hrest]
      congr 1
      push_cast
      ring
    · rw [if_neg hreal, if_neg hreal, ih hrest]
      congr 1
      push_cast
      ring

theorem localRankSum_fold (v : ℚ) (es : List Edge)
    (hrank : ∀ e ∈ es, e.LocalRank = Float32.num ((e.VisitCount : ℚ) / v)) (q : ℚ) :
    es.foldl (fun sofar edge => Float32.add sofar edge.LocalRank) (Float32.num q)
      = Float32.num (q + (edgeVisitSum es : ℚ) / v) := by
  induction es generalizing q with
  | nil => simp [edgeVisitSum]
  | cons e rest ih =>
    have he := hrank e (List.mem_cons_self e rest)
    have hrest : ∀ x ∈ rest, x.LocalRank = Float32.num ((x.VisitCount : ℚ) / v) :=
      fun x hx => hrank x (List.mem_cons_of_mem e hx)
    have hsum : edgeVisitSum (e :: rest) = e.VisitCount + edgeVisitSum rest := by
      simp [edgeVisitSum]
    rw [List.foldl_cons, hsum, he, float32_add_num, ih hrest]
    congr 1
    push_cast
    ring

/-- With a positive click count the ranks of the node sequence of the built graph are
the exact quotients, so `nodeSum` is the quotient of the real visits by the click
count. -/
theorem newGraph_nodeSum (rt : Runtime) (sessionMap : GoMap (List Log))
    (hpos : 0 < (NewGraph rt sessionMap).totalClickCount) :
    nodeSum (NewGraph rt sessionMap).nodeSlice
      = Float32.num ((realVisitSum (NewGraph rt sessionMap).nodeSlice : ℚ)
          / ((NewGraph rt sessionMap).totalClickCount : ℚ)) := by
  have hrank : ∀ node ∈ (NewGraph rt sessionMap).nodeSlice,
      node.Rank = Float32.num ((node.VisitCount : ℚ)
        / ((NewGraph rt sessionMap).totalClickCount : ℚ)) := by
    intro node hnode
    have h1 : (NewGraph rt sessionMap).nodeSlice
        = nodeMapToSortedSlice rt (NewGraph rt sessionMap).nodeMap := rfl
    rw [h1] at hnode
    obtain ⟨k, hk⟩ := mem_sortedSlice rt _ node hnode
    rw [newGraph_node_rank rt sessionMap k node hk, float32_div_ofInt _ _ (by omega)]
  unfold nodeSum
  rw [nodeSum_fold _ _ hrank 0, zero_add]

theorem newGraph_node_localRank_le (rt : Runtime) (sessionMap : GoMap (List Log))
    (hkeys : DistinctKeys sessionMap) (k : String) (node : Node)
    (h : (NewGraph rt sessionMap).nodeMap.get k = some node) :
    Float32.le (localRankSum node.Edges) (Float32.num 1) = true := by
  have hle := newGraph_node_edges_le rt sessionMap hkeys k node h
  have hpos := newGraph_node_visits_pos rt sessionMap k node h
  have hrank : ∀ e ∈ node.Edges,
      e.LocalRank = Float32.num ((e.VisitCount : ℚ) / (node.VisitCount : ℚ)) := by
    intro e he
    rw [newGraph_edge_localRank rt sessionMap k node h e he, float32_div_ofInt _ _ (by omega)]
  unfold localRankSum
  rw [localRankSum_fold _ _ hrank 0, zero_add]
  have hposq : (0 : ℚ) < (node.VisitCount : ℚ) := by exact_mod_cast hpos
  have hleq : (edgeVisitSum node.Edges : ℚ) ≤ (node.VisitCount : ℚ) := by exact_mod_cast hle
  simp only [Float32.le, decide_eq_true_eq]
  exact (div_le_one hposq).2 hleq

/-! ## Sizes after reduction -/

theorem setEntries_length_le {α : Type} (l : List (String × α)) (k : String) (v : α) :
    (setEntries l k v).length ≤ l.length + 1 := by
  induction l with
  | nil => simp [setEntries]
  | cons x rest ih =>
    obtain ⟨k0, v0⟩ := x
    by_cases h : k0 = k
    · simp [setEntries, h]
    · simp only [setEntries, h, if_false, List.length_cons]
      omega

theorem nodeSliceToMap_fold_length_le (l : List Node) (acc : GoMap Node) :
    (l.foldl (fun nodeMap node => nodeMap.set node.Name node) acc).entries.length
      ≤ acc.entries.length + l.length := by
  induction l generalizing acc with
  | nil => simp
  | cons node rest ih =>
    rw [List.foldl_cons, List.length_cons]
    have h1 := ih (acc.set node.Name node)
    have h2 : (acc.set node.Name node).entries.length ≤ acc.entries.length + 1 :=
      setEntries_length_le acc.entries node.Name node
    omega

theorem nodeSliceToMap_length_le (l : List Node) :
    (nodeSliceToMap l).entries.length ≤ l.length := by
  have h := nodeSliceToMap_fold_length_le l GoMap.empty
  have h0 : (GoMap.empty : GoMap Node).entries.length = 0 := rfl
  unfold nodeSliceToMap
  omega

theorem sortedSlice_length (rt : Runtime) (nodeMap : GoMap Node) :
    (nodeMapToSortedSlice rt nodeMap).length = nodeMap.entries.length := by
  rw [(sortedSlice_perm rt nodeMap).length_eq, List.length_map]

theorem stripNodeMap_length (nodeMap : GoMap Node) (edgeMap : GoMap Edge) :
    (stripNodeMap nodeMap edgeMap).entries.length = nodeMap.entries.length := by
  unfold stripNodeMap GoMap.mapValues
  simp only [List.length_map]

theorem filterEdgeMap_length_le (rt : Runtime) (edgeMap : GoMap Edge) (nodeMap : GoMap Node) :
    (filterEdgeMap rt edgeMap nodeMap).entries.length ≤ edgeMap.entries.length := by
  apply List.Subperm.length_le
  apply List.subperm_of_subset
  · exact List.Nodup.of_map Prod.fst (filterEdgeMap rt edgeMap nodeMap).nodup
  · intro x hx
    have h1 := (GoMap.get_eq_some_iff _ x.1 x.2).2 hx
    have h2 := ((filterEdgeMap_get rt edgeMap nodeMap x.1 x.2).1 h1).1
    exact (GoMap.get_eq_some_iff _ x.1 x.2).1 h2

/-- Node count of a reduced graph: at most the number of nodes cut from the sequence. -/
theorem reduceTo_nodeCount_le (rt : Runtime) (g r : Graph) (limit : Int)
    (h : g.ReduceTo rt limit = some r) :
    r.NodeCount ≤ min limit ((g.nodeSlice.length : Int) - 1) := by
  obtain ⟨hhigh, _, hnodes, hslice, _⟩ := reduceTo_eq_some rt g r limit h
  unfold Graph.NodeCount
  rw [hslice, sortedSlice_length, hnodes, stripNodeMap_length]
  have h1 := nodeSliceToMap_length_le
    (g.nodeSlice.take (min limit ((g.nodeSlice.length : Int) - 1)).toNat)
  rw [List.length_take] at h1
  omega

/-! ## Nodes of a reduced graph -/

theorem nodeSliceToMap_get_mem (l : List Node) (k : String) (node : Node)
    (h : (nodeSliceToMap l).get k = some node) : node ∈ l ∧ node.Name = k := by
  have inv := foldl_invariant
    (fun acc : GoMap Node => ∀ k node, acc.get k = some node → node ∈ l ∧ node.Name = k)
    (fun nodeMap (node : Node) => nodeMap.set node.Name node) l GoMap.empty
    (fun k node h => by rw [GoMap.get_empty] at h; cases h)
    (fun acc x hx hacc k node h => by
      rw [GoMap.get_set] at h
      split at h
      · rename_i hk
        cases h
        exact ⟨hx, hk.symm⟩
      · exact hacc k node h)
  exact inv k node h

theorem stripEdges_fold (edgeMap : GoMap Edge) (l acc cur : List Edge) :
    l.foldl
      (fun (state : List Edge × List Edge) edge =>
        if (edgeMap.get edge.Name).isSome then (state.1 ++ [edge], state.1 ++ [edge]) else state)
      (acc, cur)
    = (acc ++ l.filter (fun e => (edgeMap.get e.Name).isSome),
        if l.filter (fun e => (edgeMap.get e.Name).isSome) = [] then cur
        else acc ++ l.filter (fun e => (edgeMap.get e.Name).isSome)) := by
  induction l generalizing acc cur with
  | nil => simp
  | cons e rest ih =>
    rw [List.foldl_cons]
    by_cases hp : (edgeMap.get e.Name).isSome = true
    · simp only [hp, if_true, ih, List.filter_cons, List.append_assoc, List.singleton_append]
      split <;> simp_all
    · simp only [hp, if_false, ih, List.filter_cons, Bool.false_eq_true]

/-- What the inner loop of `stripNodeMap` leaves in `node.Edges`: the retained edges, or
the whole list when none is retained. -/
theorem stripEdges_eq (edgeMap : GoMap Edge) (edges : List Edge) :
    stripEdges edgeMap edges
      = if edges.filter (fun e => (edgeMap.get e.Name).isSome) = [] then edges
        else edges.filter (fun e => (edgeMap.get e.Name).isSome) := by
  unfold stripEdges
  rw [stripEdges_fold]
  simp

theorem stripEdges_sublist (edgeMap : GoMap Edge) (edges : List Edge) :
    (stripEdges edgeMap edges).Sublist edges := by
  rw [stripEdges_eq]
  split
  · exact List.Sublist.refl _
  · exact List.filter_sublist _

theorem stripEdges_filter (edgeMap : GoMap Edge) (edges : List Edge) :
    (stripEdges edgeMap edges).filter (fun e => (edgeMap.get e.Name).isSome)
      = edges.filter (fun e => (edgeMap.get e.Name).isSome) := by
  rw [stripEdges_eq]
  split
  · rfl
  · rw [List.filter_filter]
    simp

/-- A node of a reduced graph is one of the nodes cut from the node sequence of `g`, under
its name, with the edge list that the inner loop of `stripNodeMap` leaves. -/
theorem reduceTo_node_eq (rt : Runtime) (g r : Graph) (limit : Int)
    (h : g.ReduceTo rt limit = some r) (k : String) (node' : Node)
    (hk : r.nodeMap.get k = some node') :
    ∃ node, node ∈ g.nodeSlice.take (min limit ((g.nodeSlice.length : Int) - 1)).toNat ∧
      node.Name = k ∧ node' = { node with Edges := stripEdges r.edgeMap node.Edges } := by
  obtain ⟨_, _, hnodes, _, _⟩ := reduceTo_eq_some rt g r limit h
  rw [hnodes] at hk
  unfold stripNodeMap at hk
  rw [GoMap.get_mapValues] at hk
  cases h0 : (nodeSliceToMap
      (g.nodeSlice.take (min limit ((g.nodeSlice.length : Int) - 1)).toNat)).get k with
  | none => rw [h0] at hk; cases hk
  | some node =>
    rw [h0] at hk
    simp only [Option.map_some', Option.some.injEq] at hk
    have hmem := nodeSliceToMap_get_mem _ k node h0
    exact ⟨node, hmem.1, hmem.2, hk.symm⟩

theorem newGraph_get_of_mem_slice (rt : Runtime) (sessionMap : GoMap (List Log)) (node : Node)
    (h : node ∈ (NewGraph rt sessionMap).nodeSlice) :
    (NewGraph rt sessionMap).nodeMap.get node.Name = some node := by
  have h1 : (NewGraph rt sessionMap).nodeSlice
      = nodeMapToSortedSlice rt (NewGraph rt sessionMap).nodeMap := rfl
  rw [h1] at h
  obtain ⟨k, hk⟩ := mem_sortedSlice rt _ node h
  have hname := newGraph_nodeMap_keyed rt sessionMap k node hk
  rw [hname]
  exact hk

theorem newGraph_slice_sorted (rt : Runtime) (sessionMap : GoMap (List Log)) :
    (NewGraph rt sessionMap).nodeSlice.Pairwise (fun a b => b.VisitCount ≤ a.VisitCount) :=
  sortedSlice_sorted rt _

/-! ## Sessions -/

theorem appendToSession_get (sessions : GoMap (List Log)) (log : Log) (id : String) :
    (appendToSession sessions log).get id
      = if id = log.SessionID then some ((sessions.get log.SessionID).getD [] ++ [log])
        else sessions.get id := by
  unfold appendToSession
  simp only
  rw [GoMap.get_set]
  cases sessions.get log.SessionID <;> rfl

theorem appendToSession_fold_get (logs : List Log) (sessions : GoMap (List Log))
    (id : String) :
    (logs.foldl appendToSession sessions).get id
      = if logs.filter (fun l => decide (l.SessionID = id)) = [] then sessions.get id
        else some ((sessions.get id).getD []
          ++ logs.filter (fun l => decide (l.SessionID = id))) := by
  induction logs generalizing sessions with
  | nil => simp
  | cons log rest ih =>
    rw [List.foldl_cons, ih, appendToSession_get, List.filter_cons]
    by_cases h : log.SessionID = id
    · subst h
      simp only [decide_True, if_true, Option.getD_some, List.append_assoc,
        List.singleton_append]
      split
      · rename_i hf
        simp [hf]
      · simp
    · have h' : ¬ id = log.SessionID := fun e => h e.symm
      simp only [h, h', decide_False, if_false, Bool.false_eq_true]

theorem toSessions_get (rt : Runtime) (logs : List Log) (id : String) :
    (ToSessions rt logs).get id
      = if logs.filter (fun l => decide (l.SessionID = id)) = [] then none
        else some (bracketSession rt id (logs.filter (fun l => decide (l.SessionID = id)))) := by
  unfold ToSessions
  rw [GoMap.get_mapValues, appendToSession_fold_get, GoMap.get_empty]
  split <;> simp

theorem filter_session_eq_nil_iff (logs : List Log) (id : String) :
    logs.filter (fun l => decide (l.SessionID = id)) = [] ↔ id ∉ logs.map Log.SessionID := by
  rw [List.filter_eq_nil_iff]
  constructor
  · intro h hmem
    obtain ⟨l, hl, hid⟩ := List.mem_map.1 hmem
    exact h l hl (by simp [hid])
  · intro h l hl hp
    apply h
    have hid : l.SessionID = id := by simpa using hp
    exact List.mem_map.2 ⟨l, hl, hid⟩

theorem strictWeak_timestamp :
    StrictWeak (fun a b : Log => decide (a.Timestamp < b.Timestamp)) := by
  constructor
  · intro a b h
    have h1 : a.Timestamp < b.Timestamp := of_decide_eq_true h
    exact decide_eq_false (by omega)
  · intro a b c h1 h2
    have h3 : ¬ b.Timestamp < a.Timestamp := of_decide_eq_false h1
    have h4 : ¬ c.Timestamp < b.Timestamp := of_decide_eq_false h2
    exact decide_eq_false (by omega)

theorem wrapInt_eq_self (x : Int) (hlo : -9223372036854775808 ≤ x)
    (hhi : x ≤ 9223372036854775807) : wrapInt x = x := by
  unfold wrapInt
  omega

theorem wrapInt_range (x : Int) :
    -9223372036854775808 ≤ wrapInt x ∧ wrapInt x ≤ 9223372036854775807 := by
  unfold wrapInt
  omega

/-- A bracketed session: the start log one before the first log of the time-ordered
session, the time-ordered session, the end log one after its last log, both steps taken
in wrapping `int` arithmetic. -/
theorem bracketSession_eq (rt : Runtime) (id : String) (session : List Log)
    (hs : session ≠ []) :
    ∃ sorted first last,
      bracketSession rt id session
        = { Timestamp := wrapInt (first.Timestamp - 1), SessionID := id, ScreenName := "start" }
          :: sorted
          ++ [{ Timestamp := wrapInt (last.Timestamp + 1), SessionID := id,
                ScreenName := "end" }]
      ∧ sorted.Perm session
      ∧ sorted.Pairwise (fun a b => a.Timestamp ≤ b.Timestamp)
      ∧ first ∈ sorted ∧ (∀ l ∈ sorted, first.Timestamp ≤ l.Timestamp)
      ∧ last ∈ sorted ∧ (∀ l ∈ sorted, l.Timestamp ≤ last.Timestamp) := by
  have hperm := rt.sort_perm Log (fun a b => decide (a.Timestamp < b.Timestamp)) session
  have hsorted : (rt.sort Log (fun a b => decide (a.Timestamp < b.Timestamp)) session).Pairwise
      (fun a b => a.Timestamp ≤ b.Timestamp) := by
    refine (rt.sort_sorted Log _ session strictWeak_timestamp).imp ?_
    intro a b hab
    have h1 : ¬ b.Timestamp < a.Timestamp := of_decide_eq_false hab
    omega
  have hne : rt.sort Log (fun a b => decide (a.Timestamp < b.Timestamp)) session ≠ [] := by
    intro h
    rw [h] at hperm
    exact hs hperm.symm.eq_nil
  unfold bracketSession
  generalize rt.sort Log (fun a b => decide (a.Timestamp < b.Timestamp)) session = sorted
    at hperm hsorted hne
  obtain ⟨first, tl, rfl⟩ : ∃ first tl, sorted = first :: tl := by
    cases sorted with
    | nil => exact absurd rfl hne
    | cons a t => exact ⟨a, t, rfl⟩
  obtain ⟨init, last, hlast⟩ : ∃ init last, first :: tl = init ++ [last] := by
    rcases List.eq_nil_or_concat (first :: tl) with h | ⟨L, b, h⟩
    · cases h
    · exact ⟨L, b, by rw [h, List.concat_eq_append]⟩
  refine ⟨first :: tl, first, last, ?_, hperm, hsorted, List.mem_cons_self _ _, ?_, ?_, ?_⟩
  · have hl : (first :: tl).getLast? = some last := by rw [hlast, List.getLast?_concat]
    simp only [List.head?_cons, Option.map_some', Option.getD_some, List.getLast?_cons_cons, hl]
  · intro l hl
    rcases List.mem_cons.1 hl with h | h
    · rw [h]
    · exact (List.pairwise_cons.1 hsorted).1 l h
  · rw [hlast]; simp
  · intro l hl
    rw [hlast] at hl hsorted
    rcases List.mem_append.1 hl with h | h
    · exact (List.pairwise_append.1 hsorted).2.2 l h last (by simp)
    · have : l = last := by simpa using h
      rw [this]

/-- A bracketed session whose timestamps lie strictly between the two extreme `int`
values: the `- 1` and the `+ 1` do not wrap. -/
theorem bracketSession_eq_of_range (rt : Runtime) (id : String) (session : List Log)
    (hs : session ≠ [])
    (hrange : ∀ l ∈ session,
      -9223372036854775808 < l.Timestamp ∧ l.Timestamp < 9223372036854775807) :
    ∃ sorted first last,
      bracketSession rt id session
        = { Timestamp := first.Timestamp - 1, SessionID := id, ScreenName := "start" }
          :: sorted
          ++ [{ Timestamp := last.Timestamp + 1, SessionID := id, ScreenName := "end" }]
      ∧ sorted.Perm session
      ∧ sorted.Pairwise (fun a b => a.Timestamp ≤ b.Timestamp)
      ∧ first ∈ sorted ∧ (∀ l ∈ sorted, first.Timestamp ≤ l.Timestamp)
      ∧ last ∈ sorted ∧ (∀ l ∈ sorted, l.Timestamp ≤ last.Timestamp) := by
  obtain ⟨sorted, first, last, heq, hperm, hsorted, hfirst, hmin, hlast, hmax⟩ :=
    bracketSession_eq rt id session hs
  have h1 := hrange first (hperm.mem_iff.1 hfirst)
  have h2 := hrange last (hperm.mem_iff.1 hlast)
  refine ⟨sorted, first, last, ?_, hperm, hsorted, hfirst, hmin, hlast, hmax⟩
  rw [heq, wrapInt_eq_self (first.Timestamp - 1) (by omega) (by omega),
    wrapInt_eq_self (last.Timestamp + 1) (by omega) (by omega)]

/-! ## Visit counts of the built graph -/

theorem visitNode_visitSum (nodeMap : GoMap Node) (log : Log) :
    (visitNode nodeMap log).valueSum Node.VisitCount = nodeMap.valueSum Node.VisitCount + 1 := by
  unfold visitNode
  simp only
  rw [GoMap.valueSum_set]
  cases nodeMap.get log.ScreenName with
  | none => simp
  | some old => simp only; omega

theorem visitNode_fold_visitSum (logs : List Log) (nodeMap : GoMap Node) :
    (logs.foldl visitNode nodeMap).valueSum Node.VisitCount
      = nodeMap.valueSum Node.VisitCount + (logs.length : Nat) := by
  induction logs generalizing nodeMap with
  | nil => simp
  | cons log rest ih =>
    rw [List.foldl_cons, ih, visitNode_visitSum, List.length_cons]
    push_cast
    omega

theorem sessions_fold_visitSum (l : List (String × List Log)) (nodeMap : GoMap Node) :
    (l.foldl (fun nodeMap entry => entry.2.foldl visitNode nodeMap) nodeMap).valueSum
        Node.VisitCount
      = nodeMap.valueSum Node.VisitCount
        + ((l.flatMap (fun entry => entry.2.map Log.ScreenName)).length : Nat) := by
  induction l generalizing nodeMap with
  | nil => simp
  | cons entry rest ih =>
    rw [List.foldl_cons, ih, visitNode_fold_visitSum, List.flatMap_cons, List.length_append,
      List.length_map]
    push_cast
    omega

theorem attachEdge_visitSum (nodeMap : GoMap Node) (edge : Edge) :
    (attachEdge nodeMap edge).valueSum Node.VisitCount = nodeMap.valueSum Node.VisitCount := by
  unfold attachEdge
  cases h : nodeMap.get edge.Origin with
  | none => rfl
  | some origNode =>
    simp only
    rw [GoMap.valueSum_set, h]
    simp only
    omega

theorem attachEdge_fold_visitSum (l : List (String × Edge)) (nodeMap : GoMap Node) :
    (l.foldl (fun nodeMap entry => attachEdge nodeMap entry.2) nodeMap).valueSum Node.VisitCount
      = nodeMap.valueSum Node.VisitCount := by
  induction l generalizing nodeMap with
  | nil => rfl
  | cons entry rest ih => rw [List.foldl_cons, ih, attachEdge_visitSum]

theorem sortedSlice_sum (rt : Runtime) (nodeMap : GoMap Node) (w : Node → Int) :
    ((nodeMapToSortedSlice rt nodeMap).map w).sum = nodeMap.valueSum w := by
  rw [((sortedSlice_perm rt nodeMap).map w).sum_eq]
  exact valueSum_eq_of_perm w nodeMap nodeMap.entries (List.Perm.refl _)

/-- The VisitCounts of the node sequence of the built graph add up to the number of
events. -/
theorem newGraph_visitSum (rt : Runtime) (sessionMap : GoMap (List Log)) :
    ((NewGraph rt sessionMap).nodeSlice.map Node.VisitCount).sum
      = (((screenNames sessionMap).length : Nat) : Int) := by
  have h1 : (NewGraph rt sessionMap).nodeSlice
      = nodeMapToSortedSlice rt (GoMap.mapValues
          (fun _ node => rankNode rt (NewGraph rt sessionMap).totalClickCount node)
          ((rt.order 4 _ (NewGraph rt sessionMap).edgeMap.entries).foldl
            (fun nodeMap entry => attachEdge nodeMap entry.2)
            (createNodeMapWithVisitCount rt sessionMap))) := rfl
  rw [h1, sortedSlice_sum,
    GoMap.valueSum_mapValues Node.VisitCount
      (fun _ node => rankNode rt (NewGraph rt sessionMap).totalClickCount node) _
      (fun _ _ => rfl),
    attachEdge_fold_visitSum]
  unfold createNodeMapWithVisitCount
  rw [sessions_fold_visitSum, GoMap.valueSum_empty, zero_add]
  unfold screenNames
  rw [((rt.order_perm 1 _ sessionMap.entries).flatMap_right _).length_eq]

theorem countP_decide_eq_count (l : List String) (name : String) :
    l.countP (fun n => decide (n = name)) = l.count name := by
  rw [List.count_eq_countP]
  apply List.countP_congr
  intro x _
  simp

/-- VisitCount of a node of the built graph: the number of events with its name. -/
theorem newGraph_node_visits (rt : Runtime) (sessionMap : GoMap (List Log)) (k : String)
    (node : Node) (h : (NewGraph rt sessionMap).nodeMap.get k = some node) :
    node.VisitCount = (((screenNames sessionMap).count k : Nat) : Int) := by
  obtain ⟨node0, h0, hnode⟩ := newGraph_node_eq rt sessionMap k node h
  have hvc : node.VisitCount = node0.VisitCount := by rw [hnode]; rfl
  have hvisits := createNodeMap_nodeVisits rt sessionMap k
  unfold nodeVisits at hvisits
  rw [h0] at hvisits
  simp only at hvisits
  rw [hvc, hvisits, countP_decide_eq_count]

theorem mem_nodeNames_iff (rt : Runtime) (sessionMap : GoMap (List Log)) (name : String) :
    name ∈ (NewGraph rt sessionMap).nodeNames ↔ name ∈ screenNames sessionMap := by
  rw [← newGraph_hasNode_iff rt sessionMap name]
  unfold Graph.nodeNames Graph.hasNode
  constructor
  · intro h
    obtain ⟨node, hnode, rfl⟩ := List.mem_map.1 h
    rw [newGraph_get_of_mem_slice rt sessionMap node hnode]
    rfl
  · intro h
    obtain ⟨node, hnode⟩ := Option.isSome_iff_exists.1 h
    have hname := newGraph_nodeMap_keyed rt sessionMap name node hnode
    have h1 : (NewGraph rt sessionMap).nodeSlice
        = nodeMapToSortedSlice rt (NewGraph rt sessionMap).nodeMap := rfl
    rw [h1]
    exact List.mem_map.2 ⟨node, mem_sortedSlice_of_get rt _ name node hnode, hname⟩

/-! ## Order of the outgoing edges -/

theorem strictWeak_edgeVisitCount :
    StrictWeak (fun a b : Edge => decide (a.VisitCount > b.VisitCount)) := by
  constructor
  · intro a b h
    have h1 : a.VisitCount > b.VisitCount := of_decide_eq_true h
    exact decide_eq_false (by omega)
  · intro a b c h1 h2
    have h3 : ¬ b.VisitCount > a.VisitCount := of_decide_eq_false h1
    have h4 : ¬ c.VisitCount > b.VisitCount := of_decide_eq_false h2
    exact decide_eq_false (by omega)

/-- The outgoing edges of a node of the built graph: the edges of the edge set that leave
the node, sorted descending by VisitCount, with the ranks filled in. -/
theorem newGraph_node_edges (rt : Runtime) (sessionMap : GoMap (List Log)) (k : String)
    (node : Node) (h : (NewGraph rt sessionMap).nodeMap.get k = some node) :
    ∃ sorted : List Edge,
      sorted.Perm ((NewGraph rt sessionMap).edges.filter (fun e => decide (e.Origin = k)))
      ∧ sorted.Pairwise (fun a b => b.VisitCount ≤ a.VisitCount)
      ∧ node.Edges = sorted.map (fun edge =>
          { edge with
            Rank := Float32.div (Float32.ofInt edge.VisitCount)
              (Float32.ofInt (NewGraph rt sessionMap).totalClickCount),
            LocalRank := Float32.div (Float32.ofInt edge.VisitCount)
              (Float32.ofInt node.VisitCount) }) := by
  obtain ⟨node0, h0, hnode⟩ := newGraph_node_eq rt sessionMap k node h
  have hnil := createNodeMap_edges_nil rt sessionMap k node0 h0
  refine ⟨rt.sort Edge (fun a b => decide (a.VisitCount > b.VisitCount))
    (((rt.order 4 _ (NewGraph rt sessionMap).edgeMap.entries).map Prod.snd).filter
      (fun e => decide (e.Origin = k))), ?_, ?_, ?_⟩
  · refine (rt.sort_perm Edge _ _).trans ?_
    unfold Graph.edges
    exact ((rt.order_perm 4 _ (NewGraph rt sessionMap).edgeMap.entries).map Prod.snd).filter _
  · refine (rt.sort_sorted Edge _ _ strictWeak_edgeVisitCount).imp ?_
    intro a b hab
    have h1 : ¬ b.VisitCount > a.VisitCount := of_decide_eq_false hab
    omega
  · rw [hnode]
    simp only [rankNode, hnil, List.nil_append]

theorem edgeCore_fill (total visits : Int) (edge : Edge) :
    edgeCore { edge with
      Rank := Float32.div (Float32.ofInt edge.VisitCount) (Float32.ofInt total),
      LocalRank := Float32.div (Float32.ofInt edge.VisitCount) (Float32.ofInt visits) }
      = edgeCore edge := rfl

theorem newGraph_node_edges_sorted (rt : Runtime) (sessionMap : GoMap (List Log)) (k : String)
    (node : Node) (h : (NewGraph rt sessionMap).nodeMap.get k = some node) :
    node.Edges.Pairwise (fun a b => b.VisitCount ≤ a.VisitCount) := by
  obtain ⟨sorted, _, hsorted, hedges⟩ := newGraph_node_edges rt sessionMap k node h
  rw [hedges]
  exact hsorted.map _ (fun a b hab => hab)

theorem newGraph_node_edges_perm (rt : Runtime) (sessionMap : GoMap (List Log)) (k : String)
    (node : Node) (h : (NewGraph rt sessionMap).nodeMap.get k = some node) :
    (node.Edges.map edgeCore).Perm
      (((NewGraph rt sessionMap).edges.filter (fun e => decide (e.Origin = k))).map edgeCore) := by
  obtain ⟨sorted, hperm, _, hedges⟩ := newGraph_node_edges rt sessionMap k node h
  rw [hedges, List.map_map]
  exact hperm.map edgeCore

/-- A node of a graph reduced from a built graph, seen from the built graph. -/
theorem reduceTo_newGraph_node (rt : Runtime) (sessionMap : GoMap (List Log)) (limit : Int)
    (r : Graph) (h : (NewGraph rt sessionMap).ReduceTo rt limit = some r) (k : String)
    (node' : Node) (hk : r.nodeMap.get k = some node') :
    ∃ node, (NewGraph rt sessionMap).nodeMap.get k = some node ∧
      node' = { node with Edges := stripEdges r.edgeMap node.Edges } := by
  obtain ⟨node, hmem, hname, heq⟩ := reduceTo_node_eq rt _ r limit h k node' hk
  have hget := newGraph_get_of_mem_slice rt sessionMap node (List.mem_of_mem_take hmem)
  rw [hname] at hget
  exact ⟨node, hget, heq⟩

/-! ## Ranks of the edges -/

theorem newGraph_edge_rank (rt : Runtime) (sessionMap : GoMap (List Log)) (k : String)
    (node : Node) (h : (NewGraph rt sessionMap).nodeMap.get k = some node) :
    ∀ e ∈ node.Edges,
      e.Rank = Float32.div (Float32.ofInt e.VisitCount)
        (Float32.ofInt (NewGraph rt sessionMap).totalClickCount) := by
  obtain ⟨sorted, _, _, hedges⟩ := newGraph_node_edges rt sessionMap k node h
  intro e he
  rw [hedges] at he
  obtain ⟨e0, _, rfl⟩ := List.mem_map.1 he
  rfl

theorem newGraph_edge_origin (rt : Runtime) (sessionMap : GoMap (List Log)) (k : String)
    (node : Node) (h : (NewGraph rt sessionMap).nodeMap.get k = some node) :
    ∀ e ∈ node.Edges, e.Origin = k := by
  obtain ⟨sorted, hperm, _, hedges⟩ := newGraph_node_edges rt sessionMap k node h
  intro e he
  rw [hedges] at he
  obtain ⟨e0, he0, rfl⟩ := List.mem_map.1 he
  have h1 := hperm.mem_iff.1 he0
  rw [List.mem_filter] at h1
  exact of_decide_eq_true h1.2

/-- An edge of the outgoing list of a node of the built graph comes from an edge of the
edge set with the same VisitCount. -/
theorem newGraph_edge_of_list (rt : Runtime) (sessionMap : GoMap (List Log)) (k : String)
    (node : Node) (h : (NewGraph rt sessionMap).nodeMap.get k = some node) :
    ∀ e ∈ node.Edges, ∃ e0 ∈ (NewGraph rt sessionMap).edges, e.VisitCount = e0.VisitCount := by
  obtain ⟨sorted, hperm, _, hedges⟩ := newGraph_node_edges rt sessionMap k node h
  intro e he
  rw [hedges] at he
  obtain ⟨e0, he0, rfl⟩ := List.mem_map.1 he
  have h1 := hperm.mem_iff.1 he0
  exact ⟨e0, (List.mem_filter.1 h1).1, rfl⟩

/-- The edges of the edge set of the built graph carry no ranks. -/
theorem newGraph_edge_set_ranks (rt : Runtime) (sessionMap : GoMap (List Log)) (k : String)
    (e : Edge) (h : (NewGraph rt sessionMap).edgeMap.get k = some e) :
    e.Rank = Float32.num 0 ∧ e.LocalRank = Float32.num 0 := by
  have h1 : (NewGraph rt sessionMap).edgeMap = createEdgeMapWithVisitCount rt sessionMap := rfl
  rw [h1, createEdgeMap_eq] at h
  have inv := foldl_invariant
    (fun acc : GoMap Edge => ∀ k e, acc.get k = some e →
      e.Rank = Float32.num 0 ∧ e.LocalRank = Float32.num 0)
    bumpEdge ((rt.order 3 _ sessionMap.entries).flatMap (fun entry => codePairs "" entry.2))
    GoMap.empty
    (fun k e h => by rw [GoMap.get_empty] at h; cases h)
    (fun acc p _ hacc k e h => by
      rw [bumpEdge_get] at h
      split at h
      · cases hold : acc.get (edgeName p.1 p.2) with
        | none =>
          rw [hold] at h
          cases h
          exact ⟨rfl, rfl⟩
        | some e0 =>
          rw [hold] at h
          cases h
          exact hacc _ e0 hold
      · exact hacc k e h)
  exact inv k e h

/-- Every edge of the edge set of the built graph has been visited. -/
theorem newGraph_edge_visits_pos (rt : Runtime) (sessionMap : GoMap (List Log)) (k : String)
    (e : Edge) (h : (NewGraph rt sessionMap).edgeMap.get k = some e) : 0 < e.VisitCount := by
  have hvis := newGraph_edge_visits rt sessionMap k e h
  have h1 : (NewGraph rt sessionMap).edgeMap = createEdgeMapWithVisitCount rt sessionMap := rfl
  rw [h1, createEdgeMap_eq] at h
  have hshape := bumpEdge_fold_shape _ k e h
  have hpos : 0 < ((rt.order 3 _ sessionMap.entries).flatMap
      (fun entry => codePairs "" entry.2)).countP (fun p => decide (edgeName p.1 p.2 = k)) :=
    List.countP_pos_iff.2 ⟨_, hshape.2.2, by simp [← hshape.2.1]⟩
  rw [hvis]
  exact_mod_cast hpos

/-! ## Division by zero -/

theorem float32_div_zero (a : Int) (ha : 0 < a) :
    Float32.div (Float32.ofInt a) (Float32.ofInt 0) = Float32.posInf := by
  have h1 : ¬ ((a : ℚ) = 0) := by
    have : a ≠ 0 := by omega
    exact_mod_cast this
  have h2 : (0 : ℚ) < (a : ℚ) := by exact_mod_cast ha
  simp [Float32.div, Float32.ofInt, h1, h2]

theorem newGraph_empty (rt : Runtime) :
    (NewGraph rt GoMap.empty).nodeSlice = []
    ∧ (NewGraph rt GoMap.empty).nodeMap.entries = []
    ∧ (NewGraph rt GoMap.empty).edgeMap.entries = []
    ∧ (NewGraph rt GoMap.empty).totalClickCount = 0 := by
  refine ⟨?_, ?_, ?_, ?_⟩ <;>
    simp [NewGraph, nodeMapToSortedSlice, enrichNodesWithRankAndEdges,
      createNodeMapWithVisitCount, createEdgeMapWithVisitCount, calculateClickCount,
      GoMap.mapValues, GoMap.empty, Runtime.order_nil, Runtime.sort_nil]

/-! ## Rounding to float32 -/

theorem roundHalfEven_intCast (n : Int) : roundHalfEven (n : ℚ) = n := by
  unfold roundHalfEven
  simp

theorem floor_le_roundHalfEven (x : ℚ) : ⌊x⌋ ≤ roundHalfEven x := by
  unfold roundHalfEven
  split_ifs <;> omega

theorem roundHalfEven_le_floor_succ (x : ℚ) : roundHalfEven x ≤ ⌊x⌋ + 1 := by
  unfold roundHalfEven
  split_ifs <;> omega

theorem roundHalfEven_mono (x y : ℚ) (h : x ≤ y) : roundHalfEven x ≤ roundHalfEven y := by
  have hm : ⌊x⌋ ≤ ⌊y⌋ := Int.floor_le_floor h
  rcases lt_or_eq_of_le hm with hlt | heq
  · have h1 := roundHalfEven_le_floor_succ x
    have h2 := floor_le_roundHalfEven y
    omega
  · unfold roundHalfEven
    rw [heq]
    split_ifs <;> first | omega | (exfalso; linarith)

theorem roundHalfEven_le_of_le (x : ℚ) (n : Int) (h : x ≤ n) : roundHalfEven x ≤ n := by
  have := roundHalfEven_mono x n h
  rwa [roundHalfEven_intCast] at this

theorem le_roundHalfEven_of_le (x : ℚ) (n : Int) (h : (n : ℚ) ≤ x) : n ≤ roundHalfEven x := by
  have := roundHalfEven_mono n x h
  rwa [roundHalfEven_intCast] at this

theorem float32Exponent_ge (q : ℚ) : -126 ≤ float32Exponent q := le_max_right _ _

theorem lt_zpow_float32Exponent (q : ℚ) : q < 2 ^ (float32Exponent q + 1) := by
  have h1 : q < ((2 : ℕ) : ℚ) ^ (Int.log 2 q + 1) := Int.lt_zpow_succ_log_self (by norm_num) q
  have h2 : ((2 : ℕ) : ℚ) ^ (Int.log 2 q + 1) ≤ ((2 : ℕ) : ℚ) ^ (float32Exponent q + 1) :=
    zpow_le_zpow_right₀ (by norm_num) (by unfold float32Exponent; omega)
  have := lt_of_lt_of_le h1 h2
  simpa using this

theorem zpow_float32Exponent_le (q : ℚ) (hq : 0 < q) (he : -126 < float32Exponent q) :
    2 ^ float32Exponent q ≤ q := by
  have h1 : float32Exponent q = Int.log 2 q := by
    unfold float32Exponent at he ⊢
    omega
  rw [h1]
  have : ((2 : ℕ) : ℚ) ^ Int.log 2 q ≤ q := Int.zpow_log_le_self (by norm_num) hq
  simpa using this

theorem float32Exponent_mono (a b : ℚ) (ha : 0 < a) (h : a ≤ b) :
    float32Exponent a ≤ float32Exponent b := by
  unfold float32Exponent
  exact max_le_max (Int.log_mono_right ha h) (le_refl _)

theorem float32Exponent_eq (q : ℚ) (e : Int) (he : -126 ≤ e) (hq : 0 < q)
    (hhi : q < 2 ^ (e + 1)) (hlo : -126 < e → 2 ^ e ≤ q) : float32Exponent q = e := by
  have hlog : Int.log 2 q ≤ e := by
    have h1 : q < ((2 : ℕ) : ℚ) ^ (e + 1) := by simpa using hhi
    have := (Int.lt_zpow_iff_log_lt (by norm_num) hq).1 h1
    omega
  unfold float32Exponent
  rcases lt_or_eq_of_le he with h | h
  · have h1 : ((2 : ℕ) : ℚ) ^ e ≤ q := by simpa using hlo h
    have := (Int.zpow_le_iff_le_log (by norm_num) hq).1 h1
    omega
  · omega

theorem zpow_split_succ (e : Int) : (2 : ℚ) ^ (e + 1) = 16777216 * 2 ^ (e - 23) := by
  have h : (16777216 : ℚ) = 2 ^ (24 : Int) := by norm_num
  rw [h, ← zpow_add₀ (by norm_num : (2 : ℚ) ≠ 0)]
  congr 1
  omega

theorem zpow_split (e : Int) : (2 : ℚ) ^ e = 8388608 * 2 ^ (e - 23) := by
  have h : (8388608 : ℚ) = 2 ^ (23 : Int) := by norm_num
  rw [h, ← zpow_add₀ (by norm_num : (2 : ℚ) ≠ 0)]
  congr 1
  omega

theorem ulp_pos (e : Int) : (0 : ℚ) < 2 ^ e := zpow_pos (by norm_num) e

theorem roundToGrid_zero : roundToGrid 0 = 0 := by
  unfold roundToGrid
  simp [roundHalfEven_intCast, roundHalfEven]

/-- The significand of the rounded number is at most `2^24`. -/
theorem significand_le (q : ℚ) :
    roundHalfEven (q / 2 ^ (float32Exponent q - 23)) ≤ 16777216 := by
  apply roundHalfEven_le_of_le
  rw [div_le_iff₀ (ulp_pos _)]
  have := lt_zpow_float32Exponent q
  rw [zpow_split_succ] at this
  push_cast
  exact le_of_lt this

theorem le_significand (q : ℚ) (hq : 0 < q) (he : -126 < float32Exponent q) :
    8388608 ≤ roundHalfEven (q / 2 ^ (float32Exponent q - 23)) := by
  apply le_roundHalfEven_of_le
  rw [le_div_iff₀ (ulp_pos _)]
  have := zpow_float32Exponent_le q hq he
  rw [zpow_split] at this
  push_cast
  exact this

theorem significand_nonneg (q : ℚ) (hq : 0 ≤ q) :
    0 ≤ roundHalfEven (q / 2 ^ (float32Exponent q - 23)) := by
  apply le_roundHalfEven_of_le
  push_cast
  exact div_nonneg hq (le_of_lt (ulp_pos _))

theorem roundToGrid_nonneg (q : ℚ) (hq : 0 ≤ q) : 0 ≤ roundToGrid q := by
  unfold roundToGrid
  exact mul_nonneg (by exact_mod_cast significand_nonneg q hq) (le_of_lt (ulp_pos _))

theorem roundToGrid_mono (a b : ℚ) (ha : 0 ≤ a) (h : a ≤ b) : roundToGrid a ≤ roundToGrid b := by
  rcases lt_or_eq_of_le ha with ha | ha
  · have hb : 0 < b := lt_of_lt_of_le ha h
    rcases lt_or_eq_of_le (float32Exponent_mono a b ha h) with he | he
    · have h1 : roundToGrid a ≤ 2 ^ (float32Exponent a + 1) := by
        unfold roundToGrid
        rw [zpow_split_succ]
        exact mul_le_mul_of_nonneg_right (by exact_mod_cast significand_le a)
          (le_of_lt (ulp_pos _))
      have h2 : (2 : ℚ) ^ float32Exponent b ≤ roundToGrid b := by
        unfold roundToGrid
        rw [zpow_split (float32Exponent b)]
        exact mul_le_mul_of_nonneg_right
          (by exact_mod_cast le_significand b hb (by have := float32Exponent_ge a; omega))
          (le_of_lt (ulp_pos _))
      have h3 : (2 : ℚ) ^ (float32Exponent a + 1) ≤ 2 ^ float32Exponent b :=
        zpow_le_zpow_right₀ (by norm_num) (by omega)
      linarith
    · unfold roundToGrid
      rw [he]
      apply mul_le_mul_of_nonneg_right _ (le_of_lt (ulp_pos _))
      exact_mod_cast roundHalfEven_mono _ _ (div_le_div_of_nonneg_right h (le_of_lt (ulp_pos _)))
  · rw [← ha, roundToGrid_zero]
    exact roundToGrid_nonneg b (by linarith)

theorem roundToGrid_def (q : ℚ) :
    roundToGrid q
      = roundHalfEven (q / 2 ^ (float32Exponent q - 23)) * 2 ^ (float32Exponent q - 23) := rfl

theorem roundToGrid_fix (a : ℚ) (ha : 0 ≤ a) : roundToGrid (roundToGrid a) = roundToGrid a := by
  rcases lt_or_eq_of_le ha with ha | ha
  · have hle := significand_le a
    have hnn := significand_nonneg a (le_of_lt ha)
    rcases lt_or_eq_of_le hnn with hpos | hzero
    · rcases lt_or_eq_of_le hle with hlt | heq
      · -- the result has the exponent of `a`
        have hq : 0 < roundToGrid a := by
          unfold roundToGrid
          exact mul_pos (by exact_mod_cast hpos) (ulp_pos _)
        have he : float32Exponent (roundToGrid a) = float32Exponent a := by
          apply float32Exponent_eq _ _ (float32Exponent_ge a) hq
          · unfold roundToGrid
            rw [zpow_split_succ]
            exact mul_lt_mul_of_pos_right (by exact_mod_cast hlt) (ulp_pos _)
          · intro h126
            unfold roundToGrid
            rw [zpow_split (float32Exponent a)]
            exact mul_le_mul_of_nonneg_right (by exact_mod_cast le_significand a ha h126)
              (le_of_lt (ulp_pos _))
        have : roundToGrid (roundToGrid a)
            = roundHalfEven (roundToGrid a / 2 ^ (float32Exponent a - 23))
              * 2 ^ (float32Exponent a - 23) := by
          rw [roundToGrid_def (roundToGrid a), he]
        rw [this]
        have h2 : roundToGrid a / 2 ^ (float32Exponent a - 23)
            = ((roundHalfEven (a / 2 ^ (float32Exponent a - 23)) : Int) : ℚ) := by
          unfold roundToGrid
          rw [mul_div_assoc, div_self (ne_of_gt (ulp_pos _)), mul_one]
        rw [h2, roundHalfEven_intCast]
        rfl
      · -- the result is the next power of two
        have hval : roundToGrid a = 2 ^ (float32Exponent a + 1) := by
          unfold roundToGrid
          rw [heq, zpow_split_succ]
          norm_num
        have he : float32Exponent (roundToGrid a) = float32Exponent a + 1 := by
          apply float32Exponent_eq _ _ (by have := float32Exponent_ge a; omega)
          · rw [hval]; exact ulp_pos _
          · rw [hval]
            exact zpow_lt_zpow_right₀ (by norm_num) (by omega)
          · intro _
            rw [hval]
        have : roundToGrid (roundToGrid a)
            = roundHalfEven (roundToGrid a / 2 ^ (float32Exponent a + 1 - 23))
              * 2 ^ (float32Exponent a + 1 - 23) := by
          rw [roundToGrid_def (roundToGrid a), he]
        rw [this]
        have h2 : roundToGrid a / 2 ^ (float32Exponent a + 1 - 23) = ((8388608 : Int) : ℚ) := by
          rw [hval, zpow_split (float32Exponent a + 1),
            mul_div_assoc, div_self (ne_of_gt (ulp_pos _)), mul_one]
          norm_num
        rw [h2, roundHalfEven_intCast, hval, zpow_split (float32Exponent a + 1)]
        norm_num
    · have hval : roundToGrid a = 0 := by
        unfold roundToGrid
        rw [← hzero]
        simp
      rw [hval, roundToGrid_zero]
  · rw [← ha, roundToGrid_zero, roundToGrid_zero]

theorem roundNearestEven_zero : roundNearestEven 0 = Float32.num 0 := by
  unfold roundNearestEven
  rw [if_pos (le_refl _), roundToGrid_zero, if_pos (by norm_num)]

theorem roundNearestEven_mono (a b : ℚ) (h : a ≤ b) :
    Float32.le (roundNearestEven a) (roundNearestEven b) = true := by
  unfold roundNearestEven
  by_cases ha : 0 ≤ a
  · have hb : 0 ≤ b := le_trans ha h
    have hg := roundToGrid_mono a b ha h
    rw [if_pos ha, if_pos hb]
    split_ifs with h1 h2 h2
    · simpa [Float32.le] using hg
    · rfl
    · exact absurd (lt_of_le_of_lt hg h2) h1
    · rfl
  · rw [if_neg ha]
    have ha' : 0 ≤ -a := by linarith
    by_cases hb : 0 ≤ b
    · rw [if_pos hb]
      have h1 := roundToGrid_nonneg (-a) ha'
      have h2 := roundToGrid_nonneg b hb
      split_ifs
      · simp only [Float32.le, decide_eq_true_eq]; linarith
      · rfl
      · rfl
      · rfl
    · rw [if_neg hb]
      have hb' : 0 ≤ -b := by linarith
      have hg := roundToGrid_mono (-b) (-a) hb' (by linarith)
      split_ifs with h1 h2 h2
      · simp only [Float32.le, decide_eq_true_eq]; linarith
      · exact absurd (lt_of_le_of_lt hg h1) h2
      · rfl
      · rfl

theorem roundNearestEven_fix (a q : ℚ) (h : roundNearestEven a = Float32.num q) :
    roundNearestEven q = Float32.num q := by
  unfold roundNearestEven at h
  by_cases ha : 0 ≤ a
  · rw [if_pos ha] at h
    split_ifs at h with h1
    cases h
    unfold roundNearestEven
    rw [if_pos (roundToGrid_nonneg a ha), roundToGrid_fix a ha, if_pos h1]
  · rw [if_neg ha] at h
    have ha' : 0 ≤ -a := by linarith
    split_ifs at h with h1
    cases h
    have hnn := roundToGrid_nonneg (-a) ha'
    unfold roundNearestEven
    rcases lt_or_eq_of_le hnn with hpos | hzero
    · rw [if_neg (by linarith), neg_neg, roundToGrid_fix (-a) ha', if_pos h1]
    · rw [← hzero, neg_zero, if_pos (le_refl _), roundToGrid_zero, if_pos (by norm_num)]

/-- IEEE rounding to nearest, ties to even, is a `Rounding`. -/
theorem roundNearestEven_isRounding : ∃ rd : Rounding, rd.round = roundNearestEven :=
  ⟨⟨roundNearestEven, roundNearestEven_mono, roundNearestEven_fix, roundNearestEven_zero⟩, rfl⟩

theorem roundHalfEven_eq (x : ℚ) (n : Int) (h1 : (n : ℚ) - 1 / 2 < x) (h2 : x < n + 1 / 2) :
    roundHalfEven x = n := by
  have hlo : n - 1 ≤ ⌊x⌋ := Int.le_floor.2 (by push_cast; linarith)
  have hhi : ⌊x⌋ < n + 1 := Int.floor_lt.2 (by push_cast; linarith)
  have hfl := Int.floor_le x
  have hfl2 := Int.lt_floor_add_one x
  rcases (by omega : ⌊x⌋ = n - 1 ∨ ⌊x⌋ = n) with h | h
  · unfold roundHalfEven
    rw [h]
    rw [h] at hfl hfl2
    push_cast at hfl hfl2 ⊢
    rw [if_neg (by linarith), if_pos (by linarith)]
    ring
  · unfold roundHalfEven
    rw [h]
    rw [if_pos (by linarith)]

theorem roundNearestEven_eq (q : ℚ) (e n : Int) (hq : 0 < q) (he : -126 ≤ e)
    (hhi : q < 2 ^ (e + 1)) (hlo : -126 < e → 2 ^ e ≤ q)
    (h1 : (n : ℚ) - 1 / 2 < q / 2 ^ (e - 23)) (h2 : q / 2 ^ (e - 23) < n + 1 / 2)
    (hfin : (n : ℚ) * 2 ^ (e - 23) < 340282366920938463463374607431768211456) :
    roundNearestEven q = Float32.num (n * 2 ^ (e - 23)) := by
  have hgrid : roundToGrid q = n * 2 ^ (e - 23) := by
    rw [roundToGrid_def, float32Exponent_eq q e he hq hhi hlo, roundHalfEven_eq _ n h1 h2]
  unfold roundNearestEven
  rw [if_pos (le_of_lt hq), hgrid, if_pos hfin]

theorem round_third_1 :
    roundNearestEven (0 + 11184811 / 33554432) = Float32.num (11184811 / 33554432) := by
  rw [roundNearestEven_eq (0 + 11184811 / 33554432) (-2) 11184811] <;> norm_num

theorem round_third_2 :
    roundNearestEven (11184811 / 33554432 + 11184811 / 33554432)
      = Float32.num (11184811 / 16777216) := by
  rw [roundNearestEven_eq (11184811 / 33554432 + 11184811 / 33554432) (-1) 11184811] <;> norm_num

theorem round_third_3 :
    roundNearestEven (11184811 / 16777216 + 11184811 / 33554432) = Float32.num 1 := by
  rw [roundNearestEven_eq (11184811 / 16777216 + 11184811 / 33554432) 0 8388608] <;> norm_num

/-! ## reduceEdgesUpTo -/

theorem reduceEdges_fold (rd : Rounding) (upto : Float32) (edges acc : List Edge)
    (sofar : Float32) :
    edges.foldl
      (fun (state : List Edge × Float32) edge =>
        if Float32.le (Float32.addRounded rd state.2 edge.LocalRank) upto = true then
          (state.1 ++ [edge], Float32.addRounded rd state.2 edge.LocalRank)
        else (state.1, Float32.addRounded rd state.2 edge.LocalRank))
      (acc, sofar)
    = (acc ++ keepUpTo rd upto sofar edges, sumFrom rd sofar edges) := by
  induction edges generalizing acc sofar with
  | nil => simp [keepUpTo, sumFrom]
  | cons e rest ih =>
    rw [List.foldl_cons]
    by_cases h : Float32.le (Float32.addRounded rd sofar e.LocalRank) upto = true
    · simp only [h, if_true, ih, keepUpTo, sumFrom, List.foldl_cons, List.append_assoc,
        List.singleton_append]
    · simp only [h, if_false, ih, keepUpTo, sumFrom, List.foldl_cons, Bool.false_eq_true]

theorem reduceEdgesUpTo_eq (rd : Rounding) (edges : List Edge) (upto : Float32) :
    reduceEdgesUpTo rd edges upto = keepUpTo rd upto (Float32.num 0) edges := by
  unfold reduceEdgesUpTo
  rw [reduceEdges_fold]
  simp

theorem float32_nonneg_cases (x : Float32) (h : Float32.le (Float32.num 0) x = true) :
    (∃ q : ℚ, 0 ≤ q ∧ x = Float32.num q) ∨ x = Float32.posInf := by
  cases x with
  | num q => exact Or.inl ⟨q, by simpa [Float32.le] using h, rfl⟩
  | posInf => exact Or.inr rfl
  | negInf => simp [Float32.le] at h
  | nan => simp [Float32.le] at h

theorem float32_le_trans (a b c : Float32) (hab : Float32.le a b = true)
    (hbc : Float32.le b c = true) : Float32.le a c = true := by
  cases a <;> cases b <;> cases c <;> simp_all [Float32.le]
  exact le_trans hab hbc

/-- Adding a non-negative value to a sum, and rounding, gives a sum that is not below
the one before. -/
theorem float32_addRounded_ge (rd : Rounding) (s x : Float32) (hs : s.IsSum rd)
    (hx : Float32.le (Float32.num 0) x = true) :
    Float32.le s (Float32.addRounded rd s x) = true ∧ (Float32.addRounded rd s x).IsSum rd := by
  rcases hs with ⟨a, rfl, ha⟩ | rfl <;> rcases float32_nonneg_cases x hx with ⟨q, hq, rfl⟩ | rfl
  · have hmono := rd.round_mono a (a + q) (by linarith)
    rw [ha] at hmono
    refine ⟨hmono, ?_⟩
    show (rd.round (a + q)).IsSum rd
    cases hr : rd.round (a + q) with
    | num r => exact Or.inl ⟨r, rfl, rd.round_fix _ _ hr⟩
    | posInf => exact Or.inr rfl
    | negInf => rw [hr] at hmono; simp [Float32.le] at hmono
    | nan => rw [hr] at hmono; simp [Float32.le] at hmono
  · exact ⟨rfl, Or.inr rfl⟩
  · exact ⟨rfl, Or.inr rfl⟩
  · exact ⟨rfl, Or.inr rfl⟩

theorem float32_add_isSum (rd : Rounding) (s x : Float32) (hs : s.IsSum rd)
    (hx : Float32.le (Float32.num 0) x = true) : (Float32.addRounded rd s x).IsSum rd :=
  (float32_addRounded_ge rd s x hs hx).2

/-- Adding a non-negative value to a sum that is not `<= upto` leaves it not `<= upto`. -/
theorem float32_add_not_le (rd : Rounding) (s x upto : Float32) (hs : s.IsSum rd)
    (hx : Float32.le (Float32.num 0) x = true) (h : Float32.le s upto = false) :
    Float32.le (Float32.addRounded rd s x) upto = false := by
  cases hle : Float32.le (Float32.addRounded rd s x) upto with
  | false => rfl
  | true =>
    have := float32_le_trans _ _ _ (float32_addRounded_ge rd s x hs hx).1 hle
    rw [h] at this
    exact absurd this (by simp)

theorem keepUpTo_nil (rd : Rounding) (upto : Float32) (edges : List Edge) (sofar : Float32)
    (hs : sofar.IsSum rd)
    (hnonneg : ∀ e ∈ edges, Float32.le (Float32.num 0) e.LocalRank = true)
    (h : Float32.le sofar upto = false) : keepUpTo rd upto sofar edges = [] := by
  induction edges generalizing sofar with
  | nil => rfl
  | cons e rest ih =>
    have he := hnonneg e (List.mem_cons_self e rest)
    have hrest : ∀ x ∈ rest, Float32.le (Float32.num 0) x.LocalRank = true :=
      fun x hx => hnonneg x (List.mem_cons_of_mem e hx)
    have h1 := float32_add_not_le rd sofar e.LocalRank upto hs he h
    simp only [keepUpTo, h1, Bool.false_eq_true, if_false]
    exact ih _ (float32_add_isSum rd sofar e.LocalRank hs he) hrest h1

theorem sumFrom_isSum (rd : Rounding) (edges : List Edge) (sofar : Float32)
    (hs : sofar.IsSum rd)
    (hnonneg : ∀ e ∈ edges, Float32.le (Float32.num 0) e.LocalRank = true) :
    (sumFrom rd sofar edges).IsSum rd := by
  induction edges generalizing sofar with
  | nil => exact hs
  | cons e rest ih =>
    simp only [sumFrom, List.foldl_cons]
    exact ih _
      (float32_add_isSum rd sofar e.LocalRank hs (hnonneg e (List.mem_cons_self e rest)))
      (fun x hx => hnonneg x (List.mem_cons_of_mem e hx))

/-- The kept edges are a prefix: every running sum in it is `<= upto`, the next one is
not. -/
theorem keepUpTo_initial_segment (rd : Rounding) (upto : Float32) (edges : List Edge)
    (sofar : Float32) (hs : sofar.IsSum rd)
    (hnonneg : ∀ e ∈ edges, Float32.le (Float32.num 0) e.LocalRank = true) :
    ∃ n, keepUpTo rd upto sofar edges = edges.take n ∧ n ≤ edges.length
      ∧ (∀ i, i < n → Float32.le (sumFrom rd sofar (edges.take (i + 1))) upto = true)
      ∧ (n < edges.length →
          Float32.le (sumFrom rd sofar (edges.take (n + 1))) upto = false) := by
  induction edges generalizing sofar with
  | nil => exact ⟨0, rfl, Nat.le_refl _, fun i hi => absurd hi (Nat.not_lt_zero i),
      fun h => absurd h (Nat.lt_irrefl _)⟩
  | cons e rest ih =>
    have he := hnonneg e (List.mem_cons_self e rest)
    have hrest : ∀ x ∈ rest, Float32.le (Float32.num 0) x.LocalRank = true :=
      fun x hx => hnonneg x (List.mem_cons_of_mem e hx)
    have hs' := float32_add_isSum rd sofar e.LocalRank hs he
    by_cases h : Float32.le (Float32.addRounded rd sofar e.LocalRank) upto = true
    · obtain ⟨n, hkeep, hlen, hin, hout⟩ := ih _ hs' hrest
      refine ⟨n + 1, ?_, ?_, ?_, ?_⟩
      · simp only [keepUpTo, h, if_true, hkeep, List.take_succ_cons]
      · simp only [List.length_cons]; omega
      · intro i hi
        cases i with
        | zero => simpa [sumFrom] using h
        | succ j =>
          have := hin j (by omega)
          simpa [sumFrom, List.take_succ_cons] using this
      · intro hlt
        have := hout (by simpa using hlt)
        simpa [sumFrom, List.take_succ_cons] using this
    · have hfalse : Float32.le (Float32.addRounded rd sofar e.LocalRank) upto = false := by
        simpa using h
      refine ⟨0, ?_, Nat.zero_le _, fun i hi => absurd hi (Nat.not_lt_zero i), ?_⟩
      · simp only [keepUpTo, h, if_false, List.take_zero]
        exact keepUpTo_nil rd upto rest _ hs' hrest hfalse
      · intro _
        simpa [sumFrom] using hfalse

/-- A sum that is not `<= upto` is `> upto`, unless `upto` is NaN. -/
theorem float32_lt_of_not_le (rd : Rounding) (s upto : Float32) (hs : s.IsSum rd)
    (h : Float32.le s upto = false) (hnan : upto ≠ Float32.nan) :
    Float32.lt upto s = true := by
  rcases hs with ⟨a, rfl, _⟩ | rfl <;> cases upto <;> simp_all [Float32.le, Float32.lt]

theorem float32_le_nan (x : Float32) : Float32.le x Float32.nan = false := by
  cases x <;> rfl

theorem float32_nan_lt (x : Float32) : Float32.lt Float32.nan x = false := by
  cases x <;> rfl

theorem float32_zero_isSum (rd : Rounding) : (Float32.num 0).IsSum rd :=
  Or.inl ⟨0, rfl, rd.round_zero⟩

/-- Three edges whose LocalRank is the `float32` nearest to 1/3, with the threshold 1:
under IEEE rounding the three running sums are 11184811/33554432, 11184811/16777216
and 1, and all three edges are kept; in exact arithmetic the third sum is
33554433/33554432 and two edges are kept. -/
theorem reduceEdgesUpTo_thirds (rd : Rounding) (h : rd.round = roundNearestEven) :
    reduceEdgesUpTo rd [edgeThird, edgeThird, edgeThird] (Float32.num 1)
      = [edgeThird, edgeThird, edgeThird]
    ∧ reduceEdgesUpTo Rounding.exact [edgeThird, edgeThird, edgeThird] (Float32.num 1)
      = [edgeThird, edgeThird] := by
  constructor
  · rw [reduceEdgesUpTo_eq]
    have hl : edgeThird.LocalRank = Float32.num (11184811 / 33554432) := rfl
    simp only [keepUpTo, hl, Float32.addRounded, h, round_third_1, round_third_2, round_third_3]
    norm_num [Float32.le]
  · rw [reduceEdgesUpTo_eq]
    have hl : edgeThird.LocalRank = Float32.num (11184811 / 33554432) := rfl
    simp only [keepUpTo, hl, Float32.addRounded, Rounding.exact]
    norm_num [Float32.le]

/-! ## The node sequence under different map orders -/

theorem mem_visitPairs_iff (rt : Runtime) (sessionMap : GoMap (List Log))
    (p : String × Int) :
    p ∈ (NewGraph rt sessionMap).visitPairs ↔
      p.1 ∈ screenNames sessionMap
        ∧ p.2 = (((screenNames sessionMap).count p.1 : Nat) : Int) := by
  unfold Graph.visitPairs
  rw [List.mem_map]
  constructor
  · rintro ⟨node, hnode, rfl⟩
    have hget := newGraph_get_of_mem_slice rt sessionMap node hnode
    refine ⟨(newGraph_hasNode_iff rt sessionMap node.Name).1 ?_,
      newGraph_node_visits rt sessionMap node.Name node hget⟩
    unfold Graph.hasNode
    rw [hget]
    rfl
  · rintro ⟨hname, hcount⟩
    have hhas := (newGraph_hasNode_iff rt sessionMap p.1).2 hname
    obtain ⟨node, hnode⟩ := Option.isSome_iff_exists.1 hhas
    have h1 : (NewGraph rt sessionMap).nodeSlice
        = nodeMapToSortedSlice rt (NewGraph rt sessionMap).nodeMap := rfl
    refine ⟨node, by rw [h1]; exact mem_sortedSlice_of_get rt _ p.1 node hnode, ?_⟩
    rw [newGraph_nodeMap_keyed rt sessionMap p.1 node hnode,
      newGraph_node_visits rt sessionMap p.1 node hnode, ← hcount]

theorem newGraph_nodeNames_nodup (rt : Runtime) (sessionMap : GoMap (List Log)) :
    ((NewGraph rt sessionMap).nodeSlice.map Node.Name).Nodup :=
  sortedSlice_names_nodup rt _ (newGraph_nodeMap_keyed rt sessionMap)

theorem visitPairs_nodup (rt : Runtime) (sessionMap : GoMap (List Log)) :
    (NewGraph rt sessionMap).visitPairs.Nodup := by
  apply List.Nodup.of_map Prod.fst
  unfold Graph.visitPairs
  rw [List.map_map]
  exact newGraph_nodeNames_nodup rt sessionMap

theorem visitPairs_perm (rt1 rt2 : Runtime) (sessionMap : GoMap (List Log)) :
    (NewGraph rt1 sessionMap).visitPairs.Perm (NewGraph rt2 sessionMap).visitPairs := by
  rw [List.perm_ext_iff_of_nodup (visitPairs_nodup rt1 sessionMap)
    (visitPairs_nodup rt2 sessionMap)]
  intro p
  rw [mem_visitPairs_iff, mem_visitPairs_iff]

/-- With pairwise different VisitCounts the node sequence is strictly descending. -/
theorem visitPairs_strict (rt : Runtime) (sessionMap : GoMap (List Log))
    (hdistinct : DistinctCounts sessionMap) :
    (NewGraph rt sessionMap).visitPairs.Pairwise (fun p q => q.2 < p.2) := by
  have hsorted : (NewGraph rt sessionMap).visitPairs.Pairwise (fun p q => q.2 ≤ p.2) := by
    unfold Graph.visitPairs
    exact (newGraph_slice_sorted rt sessionMap).map _ (fun a b hab => hab)
  have hne : (NewGraph rt sessionMap).visitPairs.Pairwise (fun p q => p.1 ≠ q.1) := by
    have h := newGraph_nodeNames_nodup rt sessionMap
    unfold Graph.visitPairs
    rw [List.pairwise_map]
    exact (List.pairwise_map.1 h)
  refine (hsorted.and hne).imp_of_mem ?_
  intro p q hp hq hpq
  have hp' := (mem_visitPairs_iff rt sessionMap p).1 hp
  have hq' := (mem_visitPairs_iff rt sessionMap q).1 hq
  rcases lt_or_eq_of_le hpq.1 with hlt | heq
  · exact hlt
  · exfalso
    apply hpq.2
    apply hdistinct p.1 hp'.1 q.1 hq'.1
    have : (((screenNames sessionMap).count p.1 : Nat) : Int)
        = (((screenNames sessionMap).count q.1 : Nat) : Int) := by
      rw [← hp'.2, ← hq'.2, heq]
    exact_mod_cast this

theorem visitPairs_eq (rt1 rt2 : Runtime) (sessionMap : GoMap (List Log))
    (hdistinct : DistinctCounts sessionMap) :
    (NewGraph rt1 sessionMap).visitPairs = (NewGraph rt2 sessionMap).visitPairs := by
  haveI : IsAntisymm (String × Int) (fun p q => q.2 < p.2) :=
    ⟨fun p q h1 h2 => absurd h1 (by omega)⟩
  exact List.eq_of_perm_of_sorted (visitPairs_perm rt1 rt2 sessionMap)
    (visitPairs_strict rt1 sessionMap hdistinct) (visitPairs_strict rt2 sessionMap hdistinct)

/-- Whether `ReduceTo` returns, and whether the reduced graph has a node of a given
name, is decided by the names of the node sequence. -/
theorem reduceTo_hasNode_eq (rt : Runtime) (g : Graph) (limit : Int) (name : String) :
    (g.ReduceTo rt limit).map (fun r => (r.nodeMap.get name).isSome)
      = if min limit ((g.nodeNames.length : Int) - 1) < 0 then none
        else some (decide (name ∈ g.nodeNames.take
          (min limit ((g.nodeNames.length : Int) - 1)).toNat)) := by
  have hlen : g.nodeNames.length = g.nodeSlice.length := by
    unfold Graph.nodeNames
    rw [List.length_map]
  rw [hlen]
  unfold Graph.ReduceTo
  simp only
  split
  · rfl
  · simp only [Option.map_some', Option.some.injEq]
    rw [stripNodeMap_isSome, Bool.eq_iff_iff, nodeSliceToMap_isSome]
    unfold Graph.nodeNames
    rw [List.map_take]
    simp

/-! ## Claims -/

/-- C1 (the code departs from it): `ReduceTo` clamps the limit to `len(nodeSlice)-1`, not
to the node count. On the graph of the single session `[start, A, end]`, which has 3
nodes, `ReduceTo(3)` keeps 2 nodes instead of all 3, whichever node the map order puts
last, and so does `ReduceTo(10)`. -/
theorem reduceTo_full_limit_drops_node :
    (NewGraph Runtime.std sessionsA).NodeCount = 3
    ∧ ((NewGraph Runtime.std sessionsA).ReduceTo Runtime.std 3).map Graph.nodeNames
      = some ["start", "A"]
    ∧ ((NewGraph Runtime.std sessionsA).ReduceTo Runtime.std 10).map Graph.NodeCount = some 2
    ∧ ((NewGraph Runtime.rev sessionsA).ReduceTo Runtime.rev 3).map Graph.nodeNames
      = some ["A", "end"] := by
  decide

/-- C2 (the code departs from it): `stripNodeMap` assigns the filtered list only inside
the `if`, so a retained node none of whose edges survive keeps its whole list. For the
sessions `[start, A, B, end]` and `[start, A, C, end]` reduced with limit 3 the reduced
graph has the nodes start, A, end and the single edge `start-A`, yet node A still lists
the edges `A-B` and `A-C`, which are not in the reduced edge set and lead to nodes that
are not in the reduced graph. -/
theorem stripNodeMap_keeps_dropped_edges :
    ((NewGraph Runtime.std sessionsAB).ReduceTo Runtime.std 3).map
      (fun r => (r.nodeMap.entries.map Prod.fst, r.edgeMap.entries.map Prod.fst,
        (r.nodeMap.get "A").map (fun node => node.Edges.map Edge.Name),
        (r.edgeMap.get "A-B").isSome, (r.nodeMap.get "B").isSome))
    = some (["start", "A", "end"], ["start-A"], some ["A-B", "A-C"], false, false) := by
  decide

/-- C3 (as stated, refuted): the single session `[start, A, A, end]` built by
`ToSessions` gives A two visits and start and end one each. With limit 2 the reduced
graph holds A and only one of start and end: end is missing when the map is visited in
entry order, start when it is visited in reverse. -/
theorem reduceTo_loses_start_or_end :
    sessionsAA.entries.map (fun entry => entry.2.map Log.ScreenName)
      = [["start", "A", "A", "end"]]
    ∧ ((NewGraph Runtime.std sessionsAA).ReduceTo Runtime.std 2).map
        (fun r => (r.nodeNames, decide (r.hasNode "end"))) = some (["A", "start"], false)
    ∧ ((NewGraph Runtime.rev sessionsAA).ReduceTo Runtime.rev 2).map
        (fun r => (r.nodeNames, decide (r.hasNode "start"))) = some (["A", "end"], false) := by
  decide

/-- C3 (amended): for every non-empty session mapping in which each session is bracketed
by start and end, and every limit of at least 2, provided the built graph has at least
three nodes and every node other than start and end has a smaller VisitCount than start
and than end, `ReduceTo` returns a graph that contains both the node start and the node
end. -/
theorem reduceTo_keeps_start_end (rt : Runtime) (sessionMap : GoMap (List Log)) (limit : Int)
    (hne : sessionMap.entries ≠ []) (hb : ∀ entry ∈ sessionMap.entries, Bracketed entry.2)
    (hlimit : 2 ≤ limit) (hcount : 3 ≤ (NewGraph rt sessionMap).NodeCount)
    (hdom : ∀ node ∈ (NewGraph rt sessionMap).nodeSlice,
      node.Name ≠ "start" → node.Name ≠ "end" →
        ∀ other ∈ (NewGraph rt sessionMap).nodeSlice,
          (other.Name = "start" ∨ other.Name = "end") → node.VisitCount < other.VisitCount) :
    ∃ r, (NewGraph rt sessionMap).ReduceTo rt limit = some r ∧
      r.hasNode "start" ∧ r.hasNode "end" := by
  have hsome := reduceTo_isSome rt (NewGraph rt sessionMap) limit (by omega) (by omega)
  obtain ⟨r, hr⟩ := Option.isSome_iff_exists.1 hsome
  obtain ⟨_, hedges, hnodes, _, _⟩ := reduceTo_eq_some rt _ r limit hr
  have hslice : (NewGraph rt sessionMap).nodeSlice
      = nodeMapToSortedSlice rt (NewGraph rt sessionMap).nodeMap := rfl
  have hkeyed := newGraph_nodeMap_keyed rt sessionMap
  have hnodup : ((NewGraph rt sessionMap).nodeSlice.map Node.Name).Nodup := by
    rw [hslice]; exact sortedSlice_names_nodup rt _ hkeyed
  have hsorted : (NewGraph rt sessionMap).nodeSlice.Pairwise
      (fun a b => b.VisitCount ≤ a.VisitCount) := by
    rw [hslice]; exact sortedSlice_sorted rt _
  have hmem : ∀ name, name ∈ screenNames sessionMap →
      name ∈ (NewGraph rt sessionMap).nodeSlice.map Node.Name := by
    intro name hname
    have h1 := (newGraph_hasNode_iff rt sessionMap name).2 hname
    obtain ⟨node, hnode⟩ := Option.isSome_iff_exists.1 h1
    rw [hslice]
    exact List.mem_map.2 ⟨node, mem_sortedSlice_of_get rt _ name node hnode, hkeyed name node hnode⟩
  obtain ⟨entry, hentry⟩ := List.exists_mem_of_ne_nil _ hne
  have hnames := bracketed_names entry.2 (hb entry hentry)
  have hstart : "start" ∈ screenNames sessionMap :=
    List.mem_flatMap.2 ⟨entry, hentry, hnames.1⟩
  have hend : "end" ∈ screenNames sessionMap :=
    List.mem_flatMap.2 ⟨entry, hentry, hnames.2⟩
  unfold Graph.NodeCount at hcount
  have htake : 2 ≤ (min limit (((NewGraph rt sessionMap).nodeSlice.length : Int) - 1)).toNat := by
    unfold min
    split <;> omega
  refine ⟨r, hr, ?_, ?_⟩
  · unfold Graph.hasNode
    rw [hnodes, stripNodeMap_isSome, nodeSliceToMap_isSome]
    exact name_in_take _ "start" "end" _ htake (by omega) hnodup hsorted hdom (hmem _ hstart)
  · unfold Graph.hasNode
    rw [hnodes, stripNodeMap_isSome, nodeSliceToMap_isSome]
    exact name_in_take _ "end" "start" _ htake (by omega) hnodup hsorted
      (fun node hn h1 h2 o ho h3 => hdom node hn h2 h1 o ho h3.symm) (hmem _ hend)

/-- C3 (amended) at the sessions `[start, A, end]`, `[start, B, end]` and limit 2. -/
theorem reduceTo_keeps_start_end_witness :
    sessionsTwo.entries ≠ [] ∧ (∀ entry ∈ sessionsTwo.entries, Bracketed entry.2)
    ∧ (2 : Int) ≤ 2 ∧ 3 ≤ (NewGraph Runtime.std sessionsTwo).NodeCount
    ∧ (∀ node ∈ (NewGraph Runtime.std sessionsTwo).nodeSlice,
        node.Name ≠ "start" → node.Name ≠ "end" →
          ∀ other ∈ (NewGraph Runtime.std sessionsTwo).nodeSlice,
            (other.Name = "start" ∨ other.Name = "end") →
              node.VisitCount < other.VisitCount)
    ∧ ∃ r, (NewGraph Runtime.std sessionsTwo).ReduceTo Runtime.std 2 = some r ∧
        r.hasNode "start" ∧ r.hasNode "end" :=
  ⟨by decide, by decide, by decide, by decide, by decide,
    reduceTo_keeps_start_end Runtime.std sessionsTwo 2 (by decide) (by decide) (by decide)
      (by decide) (by decide)⟩

/-- C4 (the code departs from it): because of the clamp to `len(nodeSlice)-1` a second
`ReduceTo` with the same limit drops one more node. For the sessions
`[start, A, B, end]` and `[start, A, C, end]` and limit 3 the first reduction keeps
start, A, end and the second keeps only start and A. -/
theorem reduceTo_twice_drops_node :
    ((NewGraph Runtime.std sessionsAB).ReduceTo Runtime.std 3).map Graph.nodeNames
      = some ["start", "A", "end"]
    ∧ (((NewGraph Runtime.std sessionsAB).ReduceTo Runtime.std 3).bind
        (fun r => r.ReduceTo Runtime.std 3)).map Graph.nodeNames = some ["start", "A"] := by
  decide

/-- C5 (the code departs from it): for the empty session mapping, which `ToSessions`
returns for an empty log, the graph has no node, the slice bound
`min(limit, len(nodeSlice)-1)` is negative and `ReduceTo` panics, for every limit and
every map order. -/
theorem reduceTo_empty_graph_panics (rt : Runtime) (limit : Int) :
    (ToSessions rt []).entries = []
    ∧ (NewGraph rt (ToSessions rt [])).ReduceTo rt limit = none := by
  refine ⟨rfl, ?_⟩
  have h : (NewGraph rt (ToSessions rt [])).nodeSlice = [] := by
    simp [NewGraph, nodeMapToSortedSlice, enrichNodesWithRankAndEdges,
      createNodeMapWithVisitCount, createEdgeMapWithVisitCount, ToSessions, GoMap.mapValues,
      GoMap.empty, Runtime.order_nil, Runtime.sort_nil]
  unfold Graph.ReduceTo
  rw [h]
  have hm : min limit (-1) < 0 := by
    unfold min
    split <;> omega
  simp [hm]

/-- C6 (as stated, refuted): in the session `[start, "", A, end]` the event named ""
is immediately followed by A, but the empty name is what `prevName` holds before the
first event, so no edge from "" to A is made. In the session
`[start, a, b-c, a-b, c, end]` the pairs `(a, b-c)` and `(a-b, c)` share the key `a-b-c`:
there is no edge from `a-b` to `c`, and the edge from `a` to `b-c` has VisitCount 2 for
one such pair. -/
theorem edgeMap_misses_transitions :
    (("", "A") ∈ allTransitions sessionsEmptyName
      ∧ (NewGraph Runtime.std sessionsEmptyName).edges.filter
          (fun e => decide (e.Origin = "" ∧ e.Destination = "A")) = [])
    ∧ (("a-b", "c") ∈ allTransitions sessionsDash
      ∧ (NewGraph Runtime.std sessionsDash).edges.filter
          (fun e => decide (e.Origin = "a-b" ∧ e.Destination = "c")) = [])
    ∧ ((allTransitions sessionsDash).count ("a", "b-c") = 1
      ∧ ((NewGraph Runtime.std sessionsDash).edges.filter
          (fun e => decide (e.Origin = "a" ∧ e.Destination = "b-c"))).map Edge.VisitCount
        = [2]) := by
  decide

/-- C6 (amended): when no event has an empty screen name and different consecutive pairs
of screen names have different keys `origin-destination`, the graph built by `NewGraph`
has an edge with Origin `o` and Destination `d` exactly when some session contains an
event named `o` immediately followed by an event named `d`; that edge's VisitCount is
the number of such consecutive pairs over all sessions, and there is at most one such
edge. -/
theorem edges_match_transitions (rt : Runtime) (sessionMap : GoMap (List Log))
    (hne : NoEmptyName sessionMap) (hkeys : DistinctKeys sessionMap) (o d : String) :
    ((∃ e ∈ (NewGraph rt sessionMap).edges, e.Origin = o ∧ e.Destination = d) ↔
      (o, d) ∈ allTransitions sessionMap)
    ∧ (∀ e ∈ (NewGraph rt sessionMap).edges, e.Origin = o → e.Destination = d →
        e.VisitCount = (((allTransitions sessionMap).count (o, d) : Nat) : Int))
    ∧ ((NewGraph rt sessionMap).edges.filter
        (fun e => decide (e.Origin = o ∧ e.Destination = d))).length ≤ 1 := by
  have hperm := codePairs_perm_allTransitions rt sessionMap hne
  refine ⟨⟨?_, ?_⟩, ?_, ?_⟩
  · rintro ⟨e, he, ho, hd⟩
    obtain ⟨k, hk⟩ := (mem_edges_iff _ e).1 he
    have hshape := newGraph_edge_shape rt sessionMap k e hk
    rw [ho, hd] at hshape
    exact hshape.2.2
  · intro hmem
    have hcode := hperm.mem_iff.2 hmem
    have hsome : ((NewGraph rt sessionMap).edgeMap.get (edgeName o d)).isSome = true := by
      have h1 : (NewGraph rt sessionMap).edgeMap = createEdgeMapWithVisitCount rt sessionMap :=
        rfl
      rw [h1, createEdgeMap_eq, bumpEdge_fold_isSome]
      exact Or.inr ⟨(o, d), hcode, rfl⟩
    obtain ⟨e, he⟩ := Option.isSome_iff_exists.1 hsome
    have hshape := newGraph_edge_shape rt sessionMap _ e he
    have heq := hkeys (o, d) hmem (e.Origin, e.Destination) hshape.2.2 hshape.2.1
    have ho : o = e.Origin := congrArg Prod.fst heq
    have hd : d = e.Destination := congrArg Prod.snd heq
    exact ⟨e, (mem_edges_iff _ e).2 ⟨_, he⟩, ho.symm, hd.symm⟩
  · intro e he ho hd
    obtain ⟨k, hk⟩ := (mem_edges_iff _ e).1 he
    have hshape := newGraph_edge_shape rt sessionMap k e hk
    rw [ho, hd] at hshape
    rw [newGraph_edge_visits rt sessionMap k e hk, hshape.2.1,
      countP_key_eq_count _ (allTransitions sessionMap) (fun p hp => hperm.mem_iff.1 hp) hkeys
        (o, d) hshape.2.2,
      List.count_eq_countP, List.count_eq_countP, hperm.countP_eq]
  · unfold Graph.edges
    rw [List.filter_map, List.length_map,
      ← List.length_map ((NewGraph rt sessionMap).edgeMap.entries.filter _) Prod.fst]
    apply length_le_one_of_nodup_of_all_eq _ (edgeName o d)
    · exact ((List.filter_sublist _).map Prod.fst).nodup (NewGraph rt sessionMap).edgeMap.nodup
    · intro x hx
      obtain ⟨entry, hentry, rfl⟩ := List.mem_map.1 hx
      rw [List.mem_filter] at hentry
      have hget := (GoMap.get_eq_some_iff _ entry.1 entry.2).2 hentry.1
      have hshape := newGraph_edge_shape rt sessionMap _ _ hget
      have hod : entry.2.Origin = o ∧ entry.2.Destination = d := by simpa using hentry.2
      rw [hshape.2.1, hod.1, hod.2]

/-- C6 (amended) at the sessions `[start, A, B, end]`, `[start, A, C, end]` for the pair
`(A, B)`. -/
theorem edges_match_transitions_witness :
    NoEmptyName sessionsAB ∧ DistinctKeys sessionsAB
    ∧ ((∃ e ∈ (NewGraph Runtime.std sessionsAB).edges, e.Origin = "A" ∧ e.Destination = "B") ↔
        ("A", "B") ∈ allTransitions sessionsAB)
    ∧ (∀ e ∈ (NewGraph Runtime.std sessionsAB).edges, e.Origin = "A" → e.Destination = "B" →
        e.VisitCount = (((allTransitions sessionsAB).count ("A", "B") : Nat) : Int))
    ∧ ((NewGraph Runtime.std sessionsAB).edges.filter
        (fun e => decide (e.Origin = "A" ∧ e.Destination = "B"))).length ≤ 1 :=
  ⟨by decide, by decide,
    edges_match_transitions Runtime.std sessionsAB (by decide) (by decide) "A" "B"⟩

/-- C7 (as stated, refuted): both sessions are bracketed and have no real screen named
start or end. In `[start, "", A, end]` the two real screens have one visit each but
totalClickCount is 1, because the event after the empty name counts no edge. In
`[start, x, y-end, x-y, end]` the three real screens have one visit each but
totalClickCount is 4, because the edge into end shares the key `x-y-end` with the edge
from `x` to `y-end`. -/
theorem real_visit_sum_ne_click_count :
    ((∀ entry ∈ sessionsEmptyName.entries, Bracketed entry.2 ∧ RealNamesFree entry.2)
      ∧ realVisitSum (NewGraph Runtime.std sessionsEmptyName).nodeSlice = 2
      ∧ (NewGraph Runtime.std sessionsEmptyName).totalClickCount = 1)
    ∧ ((∀ entry ∈ sessionsDashEnd.entries, Bracketed entry.2 ∧ RealNamesFree entry.2)
      ∧ realVisitSum (NewGraph Runtime.std sessionsDashEnd).nodeSlice = 3
      ∧ (NewGraph Runtime.std sessionsDashEnd).totalClickCount = 4) := by
  decide

/-- C7 (amended): when every session is bracketed by one leading start and one trailing
end event, no real screen is named start or end, no event has an empty screen name and
different consecutive pairs of screen names have different keys `origin-destination`,
the sum of VisitCount over the nodes other than start and end of the graph built by
`NewGraph` equals its totalClickCount; and when totalClickCount is positive the ranks of
these nodes, added up as `printDebug` does but in exact arithmetic, give 1. -/
theorem real_visits_eq_click_count (rt : Runtime) (sessionMap : GoMap (List Log))
    (hb : ∀ entry ∈ sessionMap.entries, Bracketed entry.2 ∧ RealNamesFree entry.2)
    (hne : NoEmptyName sessionMap) (hkeys : DistinctKeys sessionMap) :
    realVisitSum (NewGraph rt sessionMap).nodeSlice = (NewGraph rt sessionMap).totalClickCount
    ∧ (0 < (NewGraph rt sessionMap).totalClickCount →
        nodeSum (NewGraph rt sessionMap).nodeSlice = Float32.num 1) := by
  have hsum : realVisitSum (NewGraph rt sessionMap).nodeSlice
      = (NewGraph rt sessionMap).totalClickCount := by
    have h1 : (NewGraph rt sessionMap).totalClickCount
        = calculateClickCount rt (NewGraph rt sessionMap).edgeMap := rfl
    rw [h1, calculateClickCount_eq, newGraph_edge_weight rt sessionMap hkeys,
      newGraph_realVisitSum, (codePairs_perm_allTransitions rt sessionMap hne).countP_eq]
    congr 1
    unfold screenNames allTransitions
    exact countP_flatMap_congr _ _ _ _ _
      (fun entry hentry => bracketed_real_count entry.2 (hb entry hentry).1 (hb entry hentry).2)
  refine ⟨hsum, fun hpos => ?_⟩
  rw [newGraph_nodeSum rt sessionMap hpos, hsum]
  have hne0 : ((NewGraph rt sessionMap).totalClickCount : ℚ) ≠ 0 := by
    have : (NewGraph rt sessionMap).totalClickCount ≠ 0 := by omega
    exact_mod_cast this
  rw [div_self hne0]

/-- C7 (amended) at the sessions `[start, A, B, end]`, `[start, A, C, end]`. -/
theorem real_visits_eq_click_count_witness :
    (∀ entry ∈ sessionsAB.entries, Bracketed entry.2 ∧ RealNamesFree entry.2)
    ∧ NoEmptyName sessionsAB ∧ DistinctKeys sessionsAB
    ∧ 0 < (NewGraph Runtime.std sessionsAB).totalClickCount
    ∧ realVisitSum (NewGraph Runtime.std sessionsAB).nodeSlice
        = (NewGraph Runtime.std sessionsAB).totalClickCount
    ∧ nodeSum (NewGraph Runtime.std sessionsAB).nodeSlice = Float32.num 1 :=
  ⟨by decide, by decide, by decide, by decide,
    (real_visits_eq_click_count Runtime.std sessionsAB (by decide) (by decide) (by decide)).1,
    (real_visits_eq_click_count Runtime.std sessionsAB (by decide) (by decide) (by decide)).2
      (by decide)⟩

/-- C8 (as stated, refuted): in the session `[start, a, b-c, a-b, c, end]` node `a` has
VisitCount 1, but its only outgoing edge, keyed `a-b-c`, also counted the pair
`(a-b, c)` and has VisitCount 2. -/
theorem edge_visits_exceed_node_visits :
    (NewGraph Runtime.std sessionsDash).nodeSlice.map
        (fun node => (node.Name, node.VisitCount, edgeVisitSum node.Edges))
      = [("start", 1, 1), ("a", 1, 2), ("b-c", 1, 1), ("a-b", 1, 0), ("c", 1, 1), ("end", 1, 0)] := by
  decide

/-- C8 (amended): when different consecutive pairs of screen names have different keys
`origin-destination`, for every node of the graph built by `NewGraph`, in the node
sequence and in the node map alike, the sum of VisitCount over the node's outgoing edges
is at most the node's VisitCount, and the sum of LocalRank over them, added up as
`printDebug` does but in exact arithmetic, is at most 1. -/
theorem edge_visits_le_node_visits (rt : Runtime) (sessionMap : GoMap (List Log))
    (hkeys : DistinctKeys sessionMap) :
    (∀ node ∈ (NewGraph rt sessionMap).nodeSlice,
      edgeVisitSum node.Edges ≤ node.VisitCount
        ∧ Float32.le (localRankSum node.Edges) (Float32.num 1) = true)
    ∧ (∀ k node, (NewGraph rt sessionMap).nodeMap.get k = some node →
        edgeVisitSum node.Edges ≤ node.VisitCount
          ∧ Float32.le (localRankSum node.Edges) (Float32.num 1) = true) := by
  refine ⟨fun node hnode => ?_, fun k node h =>
    ⟨newGraph_node_edges_le rt sessionMap hkeys k node h,
      newGraph_node_localRank_le rt sessionMap hkeys k node h⟩⟩
  have h1 : (NewGraph rt sessionMap).nodeSlice
      = nodeMapToSortedSlice rt (NewGraph rt sessionMap).nodeMap := rfl
  rw [h1] at hnode
  obtain ⟨k, hk⟩ := mem_sortedSlice rt _ node hnode
  exact ⟨newGraph_node_edges_le rt sessionMap hkeys k node hk,
    newGraph_node_localRank_le rt sessionMap hkeys k node hk⟩

/-- C8 (amended) at the sessions `[start, A, B, end]`, `[start, A, C, end]`. -/
theorem edge_visits_le_node_visits_witness :
    DistinctKeys sessionsAB
    ∧ (∀ node ∈ (NewGraph Runtime.std sessionsAB).nodeSlice,
        edgeVisitSum node.Edges ≤ node.VisitCount
          ∧ Float32.le (localRankSum node.Edges) (Float32.num 1) = true)
    ∧ (∀ k node, (NewGraph Runtime.std sessionsAB).nodeMap.get k = some node →
        edgeVisitSum node.Edges ≤ node.VisitCount
          ∧ Float32.le (localRankSum node.Edges) (Float32.num 1) = true) :=
  ⟨by decide, edge_visits_le_node_visits Runtime.std sessionsAB (by decide)⟩

/-- C9: in the graph built by `NewGraph` from any session mapping every edge of the edge
set has its Origin and its Destination in the node set; whenever `ReduceTo` returns, for
any limit, the same holds of the reduced graph; and `ReduceTo` does return for every
limit of at least 0 when the graph has a node. -/
theorem referential_integrity (rt : Runtime) (sessionMap : GoMap (List Log)) :
    (∀ key edge, (NewGraph rt sessionMap).edgeMap.get key = some edge →
      (NewGraph rt sessionMap).hasNode edge.Origin ∧
        (NewGraph rt sessionMap).hasNode edge.Destination)
    ∧ (∀ limit r, (NewGraph rt sessionMap).ReduceTo rt limit = some r →
        ∀ key edge, r.edgeMap.get key = some edge →
          r.hasNode edge.Origin ∧ r.hasNode edge.Destination)
    ∧ (∀ limit, 0 ≤ limit → 0 < (NewGraph rt sessionMap).NodeCount →
        ((NewGraph rt sessionMap).ReduceTo rt limit).isSome = true) := by
  refine ⟨fun key edge h => ?_, fun limit r h key edge hedge => ?_, fun limit hl hn => ?_⟩
  · have hshape := newGraph_edge_shape rt sessionMap key edge h
    have hnames := mem_allTransitions_names sessionMap _ hshape.2.2
    exact ⟨(newGraph_hasNode_iff rt sessionMap _).2 hnames.1,
      (newGraph_hasNode_iff rt sessionMap _).2 hnames.2⟩
  · obtain ⟨_, hedges, hnodes, _, _⟩ := reduceTo_eq_some rt _ r limit h
    unfold Graph.hasNode
    rw [hnodes, stripNodeMap_isSome, stripNodeMap_isSome]
    rw [hedges] at hedge
    exact ((filterEdgeMap_get rt _ _ key edge).1 hedge).2
  · exact reduceTo_isSome rt _ limit hl hn

/-- C9 at the sessions `[start, A, B, end]`, `[start, A, C, end]` and limit 3, for the
edge from start to A. -/
theorem referential_integrity_witness :
    (NewGraph Runtime.std sessionsAB).edgeMap.get "start-A" = some edgeStartA
    ∧ ((NewGraph Runtime.std sessionsAB).hasNode "start"
        ∧ (NewGraph Runtime.std sessionsAB).hasNode "A")
    ∧ (NewGraph Runtime.std sessionsAB).ReduceTo Runtime.std 3 = some reducedAB
    ∧ reducedAB.edgeMap.get "start-A" = some edgeStartA
    ∧ (reducedAB.hasNode "start" ∧ reducedAB.hasNode "A")
    ∧ ((0 : Int) ≤ 3 ∧ 0 < (NewGraph Runtime.std sessionsAB).NodeCount
        ∧ ((NewGraph Runtime.std sessionsAB).ReduceTo Runtime.std 3).isSome = true) :=
  ⟨rfl, (referential_integrity Runtime.std sessionsAB).1 "start-A" edgeStartA rfl, rfl, rfl,
    (referential_integrity Runtime.std sessionsAB).2.1 3 reducedAB rfl "start-A" edgeStartA rfl,
    by decide, by decide,
    (referential_integrity Runtime.std sessionsAB).2.2 3 (by decide) (by decide)⟩

/-- C10: whenever `ReduceTo` returns, an edge is in the reduced edge set, under its key
and with all its fields (so with the same VisitCount), exactly when it is in the edge
set of `g` under that key and its Origin and its Destination are both nodes of the
reduced graph. -/
theorem reduceTo_edge_set_exact (rt : Runtime) (g : Graph) (limit : Int) (r : Graph)
    (h : g.ReduceTo rt limit = some r) (key : String) (edge : Edge) :
    r.edgeMap.get key = some edge ↔
      g.edgeMap.get key = some edge ∧ r.hasNode edge.Origin ∧ r.hasNode edge.Destination := by
  obtain ⟨_, hedges, hnodes, _, _⟩ := reduceTo_eq_some rt g r limit h
  unfold Graph.hasNode
  rw [hnodes, stripNodeMap_isSome, stripNodeMap_isSome, hedges]
  exact filterEdgeMap_get rt g.edgeMap _ key edge

/-- C10 at the sessions `[start, A, B, end]`, `[start, A, C, end]` and limit 3, for the
edge from start to A. -/
theorem reduceTo_edge_set_exact_witness :
    (NewGraph Runtime.std sessionsAB).ReduceTo Runtime.std 3 = some reducedAB
    ∧ (reducedAB.edgeMap.get "start-A" = some edgeStartA ↔
        (NewGraph Runtime.std sessionsAB).edgeMap.get "start-A" = some edgeStartA
          ∧ reducedAB.hasNode "start" ∧ reducedAB.hasNode "A") :=
  ⟨rfl, reduceTo_edge_set_exact Runtime.std (NewGraph Runtime.std sessionsAB) 3 reducedAB rfl
    "start-A" edgeStartA⟩

/-- C11: whenever `ReduceTo` returns, for any graph and any limit, the node count of the
reduced graph is at most `min(limit, NodeCount(g))` and its edge set has at most as many
edges as the edge set of `g`. -/
theorem reduceTo_counts_le (rt : Runtime) (g : Graph) (limit : Int) (r : Graph)
    (h : g.ReduceTo rt limit = some r) :
    r.NodeCount ≤ min limit g.NodeCount ∧ r.edges.length ≤ g.edges.length := by
  constructor
  · have h1 := reduceTo_nodeCount_le rt g r limit h
    unfold Graph.NodeCount at h1 ⊢
    unfold min at h1 ⊢
    split at h1 <;> split <;> omega
  · obtain ⟨_, hedges, _, _, _⟩ := reduceTo_eq_some rt g r limit h
    unfold Graph.edges
    rw [List.length_map, List.length_map, hedges]
    exact filterEdgeMap_length_le rt g.edgeMap _

/-- C11 at the sessions `[start, A, B, end]`, `[start, A, C, end]` and limit 3. -/
theorem reduceTo_counts_le_witness :
    (NewGraph Runtime.std sessionsAB).ReduceTo Runtime.std 3 = some reducedAB
    ∧ reducedAB.NodeCount ≤ min 3 (NewGraph Runtime.std sessionsAB).NodeCount
    ∧ reducedAB.edges.length ≤ (NewGraph Runtime.std sessionsAB).edges.length :=
  ⟨rfl, reduceTo_counts_le Runtime.std (NewGraph Runtime.std sessionsAB) 3 reducedAB rfl⟩

/-- C12: whenever `ReduceTo` returns on a graph built by `NewGraph`, every node of the
reduced graph has a VisitCount at least as large as that of every node of the graph that
was not retained. -/
theorem reduceTo_keeps_most_visited (rt : Runtime) (sessionMap : GoMap (List Log))
    (limit : Int) (r : Graph) (h : (NewGraph rt sessionMap).ReduceTo rt limit = some r) :
    ∀ kept ∈ r.nodeSlice, ∀ other ∈ (NewGraph rt sessionMap).nodeSlice,
      ¬ r.hasNode other.Name → other.VisitCount ≤ kept.VisitCount := by
  intro kept hkept other hother hnot
  obtain ⟨_, _, hnodes, hslice, _⟩ := reduceTo_eq_some rt _ r limit h
  rw [hslice] at hkept
  obtain ⟨k, hk⟩ := mem_sortedSlice rt _ kept hkept
  obtain ⟨node, hnode, _, hkeptEq⟩ := reduceTo_node_eq rt _ r limit h k kept hk
  have hvc : kept.VisitCount = node.VisitCount := by rw [hkeptEq]
  have hdrop : other ∈ (NewGraph rt sessionMap).nodeSlice.drop
      (min limit (((NewGraph rt sessionMap).nodeSlice.length : Int) - 1)).toNat := by
    have hsplit := List.take_append_drop
      (min limit (((NewGraph rt sessionMap).nodeSlice.length : Int) - 1)).toNat
      (NewGraph rt sessionMap).nodeSlice
    rw [← hsplit, List.mem_append] at hother
    rcases hother with htake | hd
    · exfalso
      apply hnot
      unfold Graph.hasNode
      rw [hnodes, stripNodeMap_isSome, nodeSliceToMap_isSome]
      exact List.mem_map.2 ⟨other, htake, rfl⟩
    · exact hd
  have hsorted := newGraph_slice_sorted rt sessionMap
  rw [← List.take_append_drop
    (min limit (((NewGraph rt sessionMap).nodeSlice.length : Int) - 1)).toNat
    (NewGraph rt sessionMap).nodeSlice, List.pairwise_append] at hsorted
  rw [hvc]
  exact hsorted.2.2 node hnode other hdrop

/-- C12 at the sessions `[start, A, B, end]`, `[start, A, C, end]` and limit 3. -/
theorem reduceTo_keeps_most_visited_witness :
    (NewGraph Runtime.std sessionsAB).ReduceTo Runtime.std 3 = some reducedAB
    ∧ ∀ kept ∈ reducedAB.nodeSlice, ∀ other ∈ (NewGraph Runtime.std sessionsAB).nodeSlice,
        ¬ reducedAB.hasNode other.Name → other.VisitCount ≤ kept.VisitCount :=
  ⟨rfl, reduceTo_keeps_most_visited Runtime.std sessionsAB 3 reducedAB rfl⟩

/-- C13, the failing case: for the single log `(-2^63, s1, A)`, whose timestamp is the
smallest `int`, the start log of session `s1` gets the timestamp `2^63 - 1`, the largest
`int`, which is not the smallest timestamp of the session minus 1 and lies after every
log of the session; for the single log `(2^63 - 1, s1, A)` the end log gets the timestamp
`-2^63`, which is not the largest timestamp plus 1. -/
theorem toSessions_wraps_at_extreme_timestamp :
    (ToSessions Runtime.std [mkLog (-9223372036854775808) "s1" "A"]).get "s1"
      = some [mkLog 9223372036854775807 "s1" "start", mkLog (-9223372036854775808) "s1" "A",
          mkLog (-9223372036854775807) "s1" "end"]
    ∧ (9223372036854775807 : Int) ≠ -9223372036854775808 - 1
    ∧ (ToSessions Runtime.std [mkLog 9223372036854775807 "s1" "A"]).get "s1"
      = some [mkLog 9223372036854775806 "s1" "start", mkLog 9223372036854775807 "s1" "A",
          mkLog (-9223372036854775808) "s1" "end"]
    ∧ (-9223372036854775808 : Int) ≠ 9223372036854775807 + 1 := by
  decide

/-- C13, amended: for every list of logs whose timestamps lie strictly between the
smallest and the largest `int` value, and every session identifier, `ToSessions` has an
entry for the identifier exactly when it occurs in the list, and that entry is a start
log, then a permutation of the logs of that session in ascending timestamp order, then an
end log; the start log has the smallest timestamp of the session minus 1, the end log the
largest plus 1, and both carry the session identifier. -/
theorem toSessions_brackets (rt : Runtime) (logs : List Log) (id : String)
    (hrange : ∀ l ∈ logs,
      -9223372036854775808 < l.Timestamp ∧ l.Timestamp < 9223372036854775807) :
    ((ToSessions rt logs).get id = none ↔ id ∉ logs.map Log.SessionID)
    ∧ (id ∈ logs.map Log.SessionID →
        ∃ sorted first last,
          (ToSessions rt logs).get id
            = some ({ Timestamp := first.Timestamp - 1, SessionID := id, ScreenName := "start" }
                :: sorted
                ++ [{ Timestamp := last.Timestamp + 1, SessionID := id, ScreenName := "end" }])
          ∧ sorted.Perm (logs.filter (fun l => decide (l.SessionID = id)))
          ∧ sorted.Pairwise (fun a b => a.Timestamp ≤ b.Timestamp)
          ∧ first ∈ sorted ∧ (∀ l ∈ sorted, first.Timestamp ≤ l.Timestamp)
          ∧ last ∈ sorted ∧ (∀ l ∈ sorted, l.Timestamp ≤ last.Timestamp)) := by
  constructor
  · rw [toSessions_get, ← filter_session_eq_nil_iff]
    split <;> simp_all
  · intro hid
    have hne : logs.filter (fun l => decide (l.SessionID = id)) ≠ [] :=
      fun h => (filter_session_eq_nil_iff logs id).1 h hid
    obtain ⟨sorted, first, last, heq, hrest⟩ :=
      bracketSession_eq_of_range rt id _ hne (fun l hl => hrange l (List.mem_of_mem_filter hl))
    refine ⟨sorted, first, last, ?_, hrest⟩
    rw [toSessions_get, if_neg hne, heq]

/-- C13 at the single log `(5, s1, A)`: the session `s1` is
`[(4, s1, start), (5, s1, A), (6, s1, end)]`, under either runtime. -/
theorem toSessions_brackets_witness :
    (∀ l ∈ [mkLog 5 "s1" "A"],
      -9223372036854775808 < l.Timestamp ∧ l.Timestamp < 9223372036854775807)
    ∧ "s1" ∈ [mkLog 5 "s1" "A"].map Log.SessionID
    ∧ (∃ sorted first last,
        (ToSessions Runtime.std [mkLog 5 "s1" "A"]).get "s1"
          = some ({ Timestamp := first.Timestamp - 1, SessionID := "s1", ScreenName := "start" }
              :: sorted
              ++ [{ Timestamp := last.Timestamp + 1, SessionID := "s1", ScreenName := "end" }])
        ∧ sorted.Perm ([mkLog 5 "s1" "A"].filter (fun l => decide (l.SessionID = "s1")))
        ∧ sorted.Pairwise (fun a b => a.Timestamp ≤ b.Timestamp)
        ∧ first ∈ sorted ∧ (∀ l ∈ sorted, first.Timestamp ≤ l.Timestamp)
        ∧ last ∈ sorted ∧ (∀ l ∈ sorted, l.Timestamp ≤ last.Timestamp))
    ∧ (ToSessions Runtime.std [mkLog 5 "s1" "A"]).get "s1"
        = some [mkLog 4 "s1" "start", mkLog 5 "s1" "A", mkLog 6 "s1" "end"]
    ∧ (ToSessions Runtime.rev [mkLog 5 "s1" "A"]).get "s1"
        = some [mkLog 4 "s1" "start", mkLog 5 "s1" "A", mkLog 6 "s1" "end"] :=
  ⟨by decide, by decide,
    (toSessions_brackets Runtime.std [mkLog 5 "s1" "A"] "s1" (by decide)).2 (by decide),
    by decide, by decide⟩

/-- C14: for every session mapping the nodes of the graph built by `NewGraph`, in the
node map and in the node sequence alike, are exactly the screen names that occur in some
event of some session; each node is stored under its name and its VisitCount is the
number of events with that screen name over all sessions; and the VisitCounts add up to
the number of events. -/
theorem nodes_match_screen_names (rt : Runtime) (sessionMap : GoMap (List Log)) :
    (∀ name, (NewGraph rt sessionMap).hasNode name ↔ name ∈ screenNames sessionMap)
    ∧ (∀ name, name ∈ (NewGraph rt sessionMap).nodeNames ↔ name ∈ screenNames sessionMap)
    ∧ (∀ name node, (NewGraph rt sessionMap).nodeMap.get name = some node →
        node.Name = name
          ∧ node.VisitCount = (((screenNames sessionMap).count name : Nat) : Int))
    ∧ (∀ node ∈ (NewGraph rt sessionMap).nodeSlice,
        node.VisitCount = (((screenNames sessionMap).count node.Name : Nat) : Int))
    ∧ ((NewGraph rt sessionMap).nodeSlice.map Node.VisitCount).sum
        = (((screenNames sessionMap).length : Nat) : Int) := by
  refine ⟨newGraph_hasNode_iff rt sessionMap, mem_nodeNames_iff rt sessionMap,
    fun name node h => ⟨newGraph_nodeMap_keyed rt sessionMap name node h,
      newGraph_node_visits rt sessionMap name node h⟩,
    fun node hnode => ?_, newGraph_visitSum rt sessionMap⟩
  exact newGraph_node_visits rt sessionMap node.Name node
    (newGraph_get_of_mem_slice rt sessionMap node hnode)

/-- C14 at the sessions `[start, A, B, end]`, `[start, A, C, end]`: node A has
VisitCount 2. -/
theorem nodes_match_screen_names_witness :
    ((NewGraph Runtime.std sessionsAB).hasNode "A" ↔ "A" ∈ screenNames sessionsAB)
    ∧ (∀ node, (NewGraph Runtime.std sessionsAB).nodeMap.get "A" = some node →
        node.Name = "A" ∧ node.VisitCount = (((screenNames sessionsAB).count "A" : Nat) : Int))
    ∧ (screenNames sessionsAB).count "A" = 2
    ∧ ((NewGraph Runtime.std sessionsAB).nodeMap.get "A").map Node.VisitCount = some 2
    ∧ ((NewGraph Runtime.std sessionsAB).nodeSlice.map Node.VisitCount).sum
        = (((screenNames sessionsAB).length : Nat) : Int) :=
  ⟨(nodes_match_screen_names Runtime.std sessionsAB).1 "A",
    (nodes_match_screen_names Runtime.std sessionsAB).2.2.1 "A",
    by decide, by decide,
    (nodes_match_screen_names Runtime.std sessionsAB).2.2.2.2⟩

/-- C15: for every session mapping, every node of the graph built by `NewGraph` has its
outgoing edges sorted descending by VisitCount, and they are, each once and apart from
the ranks filled in, the edges of the edge set whose Origin is the node; whenever
`ReduceTo` returns, the outgoing edges of every node of the reduced graph are still
sorted descending by VisitCount and form a sublist of the node's list in the original
graph, so that the retained edges keep their relative order. -/
theorem outgoing_edges_sorted (rt : Runtime) (sessionMap : GoMap (List Log)) :
    (∀ k node, (NewGraph rt sessionMap).nodeMap.get k = some node →
      node.Edges.Pairwise (fun a b => b.VisitCount ≤ a.VisitCount)
      ∧ (node.Edges.map edgeCore).Perm
          (((NewGraph rt sessionMap).edges.filter (fun e => decide (e.Origin = k))).map
            edgeCore))
    ∧ (∀ limit r, (NewGraph rt sessionMap).ReduceTo rt limit = some r →
        ∀ k node', r.nodeMap.get k = some node' →
          node'.Edges.Pairwise (fun a b => b.VisitCount ≤ a.VisitCount)
          ∧ ∃ node, (NewGraph rt sessionMap).nodeMap.get k = some node
              ∧ node'.Edges.Sublist node.Edges
              ∧ node'.Edges.filter (fun e => (r.edgeMap.get e.Name).isSome)
                  = node.Edges.filter (fun e => (r.edgeMap.get e.Name).isSome)) := by
  refine ⟨fun k node h => ⟨newGraph_node_edges_sorted rt sessionMap k node h,
    newGraph_node_edges_perm rt sessionMap k node h⟩, ?_⟩
  intro limit r h k node' hk
  obtain ⟨node, hget, heq⟩ := reduceTo_newGraph_node rt sessionMap limit r h k node' hk
  have hedges : node'.Edges = stripEdges r.edgeMap node.Edges := by rw [heq]
  have hsub : node'.Edges.Sublist node.Edges := by
    rw [hedges]; exact stripEdges_sublist _ _
  refine ⟨(newGraph_node_edges_sorted rt sessionMap k node hget).sublist hsub,
    node, hget, hsub, ?_⟩
  rw [hedges]
  exact stripEdges_filter _ _

/-- C15 at the sessions `[start, A, B, end]`, `[start, A, C, end]` and limit 3, for
node A. -/
theorem outgoing_edges_sorted_witness :
    (NewGraph Runtime.std sessionsAB).nodeMap.get "A" = some nodeAofAB
    ∧ (nodeAofAB.Edges.Pairwise (fun a b => b.VisitCount ≤ a.VisitCount)
      ∧ (nodeAofAB.Edges.map edgeCore).Perm
          (((NewGraph Runtime.std sessionsAB).edges.filter
            (fun e => decide (e.Origin = "A"))).map edgeCore))
    ∧ (NewGraph Runtime.std sessionsAB).ReduceTo Runtime.std 3 = some reducedAB
    ∧ reducedAB.nodeMap.get "A" = some reducedNodeA
    ∧ (reducedNodeA.Edges.Pairwise (fun a b => b.VisitCount ≤ a.VisitCount)
      ∧ ∃ node, (NewGraph Runtime.std sessionsAB).nodeMap.get "A" = some node
          ∧ reducedNodeA.Edges.Sublist node.Edges
          ∧ reducedNodeA.Edges.filter (fun e => (reducedAB.edgeMap.get e.Name).isSome)
              = node.Edges.filter (fun e => (reducedAB.edgeMap.get e.Name).isSome)) :=
  ⟨rfl, (outgoing_edges_sorted Runtime.std sessionsAB).1 "A" nodeAofAB rfl, rfl, rfl,
    (outgoing_edges_sorted Runtime.std sessionsAB).2 3 reducedAB rfl "A" reducedNodeA rfl⟩

/-- C16 (as stated, refuted): the graph of the sessions `[start, A, B, end]`,
`[start, A, C, end]` has totalClickCount 4, and the edge from A to B has VisitCount 1;
read from the edge set it has Rank 0 and LocalRank 0, not 1/4 and 1/2, because
`enrichNodesWithRankAndEdges` fills the ranks in the copies it attaches to the nodes. -/
theorem edge_set_has_no_ranks :
    (NewGraph Runtime.std sessionsAB).totalClickCount = 4
    ∧ (NewGraph Runtime.std sessionsAB).edgeMap.get "A-B"
        = some { Name := "A-B", Origin := "A", Destination := "B", VisitCount := 1,
                 Rank := Float32.num 0, LocalRank := Float32.num 0 }
    ∧ Float32.num 0 ≠ Float32.num (1 / 4) ∧ Float32.num 0 ≠ Float32.num (1 / 2) := by
  refine ⟨by decide, rfl, ?_, ?_⟩
  · rw [ne_eq, Float32.num.injEq]; norm_num
  · rw [ne_eq, Float32.num.injEq]; norm_num

/-- C16 (amended): for every session mapping whose built graph has a positive
totalClickCount, every node of the graph has Rank = VisitCount / totalClickCount, and
every edge in the outgoing-edge list of a node has that node as Origin,
Rank = edge VisitCount / totalClickCount and LocalRank = edge VisitCount / the node's
VisitCount, in exact arithmetic; the edges read from the edge set have Rank 0 and
LocalRank 0. -/
theorem ranks_of_built_graph (rt : Runtime) (sessionMap : GoMap (List Log))
    (hpos : 0 < (NewGraph rt sessionMap).totalClickCount) :
    (∀ k node, (NewGraph rt sessionMap).nodeMap.get k = some node →
      node.Rank = Float32.num ((node.VisitCount : ℚ)
        / ((NewGraph rt sessionMap).totalClickCount : ℚ))
      ∧ ∀ e ∈ node.Edges,
          e.Origin = node.Name
          ∧ e.Rank = Float32.num ((e.VisitCount : ℚ)
              / ((NewGraph rt sessionMap).totalClickCount : ℚ))
          ∧ e.LocalRank = Float32.num ((e.VisitCount : ℚ) / (node.VisitCount : ℚ)))
    ∧ (∀ key e, (NewGraph rt sessionMap).edgeMap.get key = some e →
        e.Rank = Float32.num 0 ∧ e.LocalRank = Float32.num 0) := by
  refine ⟨fun k node h => ⟨?_, fun e he => ⟨?_, ?_, ?_⟩⟩,
    fun key e h => newGraph_edge_set_ranks rt sessionMap key e h⟩
  · rw [newGraph_node_rank rt sessionMap k node h, float32_div_ofInt _ _ (by omega)]
  · rw [newGraph_edge_origin rt sessionMap k node h e he,
      newGraph_nodeMap_keyed rt sessionMap k node h]
  · rw [newGraph_edge_rank rt sessionMap k node h e he, float32_div_ofInt _ _ (by omega)]
  · have hvis := newGraph_node_visits_pos rt sessionMap k node h
    rw [newGraph_edge_localRank rt sessionMap k node h e he, float32_div_ofInt _ _ (by omega)]

/-- C16 (amended) at the sessions `[start, A, B, end]`, `[start, A, C, end]` for node A:
the edges from A to B and from A to C have LocalRank 1/2. -/
theorem ranks_of_built_graph_witness :
    0 < (NewGraph Runtime.std sessionsAB).totalClickCount
    ∧ (NewGraph Runtime.std sessionsAB).nodeMap.get "A" = some nodeAofAB
    ∧ nodeAofAB.Edges.map Edge.Name = ["A-B", "A-C"]
    ∧ nodeAofAB.Rank = Float32.num (1 / 2)
    ∧ ∀ e ∈ nodeAofAB.Edges,
        e.Rank = Float32.num (1 / 4) ∧ e.LocalRank = Float32.num (1 / 2) := by
  have hthm := (ranks_of_built_graph Runtime.std sessionsAB (by decide)).1 "A" nodeAofAB rfl
  have htotal : (NewGraph Runtime.std sessionsAB).totalClickCount = 4 := by decide
  have hnode : nodeAofAB.VisitCount = 2 := by decide
  have hedges : ∀ e ∈ nodeAofAB.Edges, e.VisitCount = 1 := by decide
  refine ⟨by decide, rfl, by decide, ?_, fun e he => ⟨?_, ?_⟩⟩
  · rw [hthm.1, hnode, htotal]; norm_num
  · rw [(hthm.2 e he).2.1, hedges e he, htotal]; norm_num
  · rw [(hthm.2 e he).2.2, hedges e he, hnode]; norm_num

/-- C17: whenever `ReduceTo` returns on a graph built by `NewGraph`, every node of the
reduced graph, in the node map and in the node sequence alike, has the Name, VisitCount
and Rank of the node of that name in the original graph, and every edge of its
outgoing-edge list is an edge of the original node's list, with all its fields; so its
Rank is still its VisitCount divided by the totalClickCount of the original graph. -/
theorem reduceTo_preserves_ranks (rt : Runtime) (sessionMap : GoMap (List Log)) (limit : Int)
    (r : Graph) (h : (NewGraph rt sessionMap).ReduceTo rt limit = some r) :
    (∀ k node', r.nodeMap.get k = some node' →
      ∃ node, (NewGraph rt sessionMap).nodeMap.get k = some node
        ∧ node'.Name = node.Name ∧ node'.VisitCount = node.VisitCount
        ∧ node'.Rank = node.Rank ∧ (∀ e ∈ node'.Edges, e ∈ node.Edges)
        ∧ node'.Rank = Float32.div (Float32.ofInt node'.VisitCount)
            (Float32.ofInt (NewGraph rt sessionMap).totalClickCount))
    ∧ (∀ node' ∈ r.nodeSlice,
        ∃ node ∈ (NewGraph rt sessionMap).nodeSlice,
          node'.Name = node.Name ∧ node'.VisitCount = node.VisitCount
          ∧ node'.Rank = node.Rank ∧ (∀ e ∈ node'.Edges, e ∈ node.Edges)) := by
  have key : ∀ k node', r.nodeMap.get k = some node' →
      ∃ node, (NewGraph rt sessionMap).nodeMap.get k = some node
        ∧ node'.Name = node.Name ∧ node'.VisitCount = node.VisitCount
        ∧ node'.Rank = node.Rank ∧ (∀ e ∈ node'.Edges, e ∈ node.Edges) := by
    intro k node' hk
    obtain ⟨node, hget, heq⟩ := reduceTo_newGraph_node rt sessionMap limit r h k node' hk
    refine ⟨node, hget, by rw [heq], by rw [heq], by rw [heq], ?_⟩
    intro e he
    rw [heq] at he
    exact (stripEdges_sublist _ _).subset he
  constructor
  · intro k node' hk
    obtain ⟨node, hget, hname, hvc, hrank, hedges⟩ := key k node' hk
    refine ⟨node, hget, hname, hvc, hrank, hedges, ?_⟩
    rw [hrank, hvc]
    exact newGraph_node_rank rt sessionMap k node hget
  · intro node' hnode'
    obtain ⟨_, _, _, hslice, _⟩ := reduceTo_eq_some rt _ r limit h
    rw [hslice] at hnode'
    obtain ⟨k, hk⟩ := mem_sortedSlice rt _ node' hnode'
    obtain ⟨node, hget, hrest⟩ := key k node' hk
    have h1 : (NewGraph rt sessionMap).nodeSlice
        = nodeMapToSortedSlice rt (NewGraph rt sessionMap).nodeMap := rfl
    exact ⟨node, by rw [h1]; exact mem_sortedSlice_of_get rt _ k node hget, hrest⟩

/-- C17 at the sessions `[start, A, B, end]`, `[start, A, C, end]` and limit 3, for
node A. -/
theorem reduceTo_preserves_ranks_witness :
    (NewGraph Runtime.std sessionsAB).ReduceTo Runtime.std 3 = some reducedAB
    ∧ reducedAB.nodeMap.get "A" = some reducedNodeA
    ∧ ∃ node, (NewGraph Runtime.std sessionsAB).nodeMap.get "A" = some node
        ∧ reducedNodeA.Name = node.Name ∧ reducedNodeA.VisitCount = node.VisitCount
        ∧ reducedNodeA.Rank = node.Rank ∧ (∀ e ∈ reducedNodeA.Edges, e ∈ node.Edges)
        ∧ reducedNodeA.Rank = Float32.div (Float32.ofInt reducedNodeA.VisitCount)
            (Float32.ofInt (NewGraph Runtime.std sessionsAB).totalClickCount) :=
  ⟨rfl, rfl,
    (reduceTo_preserves_ranks Runtime.std sessionsAB 3 reducedAB rfl).1 "A" reducedNodeA rfl⟩

/-- C18 (as stated, refuted): the graph of the single session `[start, end]` has
totalClickCount 0, and its nodes start and end and the edge from start to end in the
list of start have Rank +Inf, not 0: Go's `float32` division by zero does not fault but
yields an infinity. The same holds for the session `[start, end, end]` that `ToSessions`
builds from a single log whose screen is named end. -/
theorem zero_click_count_gives_infinite_ranks :
    ((NewGraph Runtime.std sessionsStartEnd).totalClickCount = 0
      ∧ (NewGraph Runtime.std sessionsStartEnd).nodeSlice.map
          (fun node => (node.Name, node.VisitCount, node.Rank, node.Edges.map Edge.Rank))
        = [("start", 1, Float32.posInf, [Float32.posInf]), ("end", 1, Float32.posInf, [])])
    ∧ ((NewGraph Runtime.std sessionsEndScreen).totalClickCount = 0
      ∧ (NewGraph Runtime.std sessionsEndScreen).nodeSlice.map
          (fun node => (node.Name, node.VisitCount, node.Rank, node.Edges.map Edge.Rank))
        = [("end", 2, Float32.posInf, [Float32.posInf]),
           ("start", 1, Float32.posInf, [Float32.posInf])]) := by
  decide

/-- C18 (amended): division by zero does not fault but yields an infinity: for every
session mapping whose built graph has totalClickCount 0, every node of the graph has
Rank +Inf and every edge in a node's outgoing-edge list has Rank +Inf; for the empty
session mapping `NewGraph` returns a graph with no node, no edge and totalClickCount 0. -/
theorem zero_click_count_ranks (rt : Runtime) (sessionMap : GoMap (List Log))
    (hzero : (NewGraph rt sessionMap).totalClickCount = 0) :
    (∀ k node, (NewGraph rt sessionMap).nodeMap.get k = some node →
      node.Rank = Float32.posInf ∧ ∀ e ∈ node.Edges, e.Rank = Float32.posInf)
    ∧ (∀ node ∈ (NewGraph rt sessionMap).nodeSlice,
        node.Rank = Float32.posInf ∧ ∀ e ∈ node.Edges, e.Rank = Float32.posInf)
    ∧ ((NewGraph rt GoMap.empty).nodeSlice = []
        ∧ (NewGraph rt GoMap.empty).nodeMap.entries = []
        ∧ (NewGraph rt GoMap.empty).edgeMap.entries = []
        ∧ (NewGraph rt GoMap.empty).totalClickCount = 0) := by
  have key : ∀ k node, (NewGraph rt sessionMap).nodeMap.get k = some node →
      node.Rank = Float32.posInf ∧ ∀ e ∈ node.Edges, e.Rank = Float32.posInf := by
    intro k node h
    constructor
    · rw [newGraph_node_rank rt sessionMap k node h, hzero]
      exact float32_div_zero _ (newGraph_node_visits_pos rt sessionMap k node h)
    · intro e he
      obtain ⟨e0, he0, hvc⟩ := newGraph_edge_of_list rt sessionMap k node h e he
      obtain ⟨key0, hkey0⟩ := (mem_edges_iff _ e0).1 he0
      have hpos := newGraph_edge_visits_pos rt sessionMap key0 e0 hkey0
      rw [newGraph_edge_rank rt sessionMap k node h e he, hzero]
      exact float32_div_zero _ (by omega)
  refine ⟨key, fun node hnode => ?_, newGraph_empty rt⟩
  exact key node.Name node (newGraph_get_of_mem_slice rt sessionMap node hnode)

/-- C18 (amended) at the single session `[start, end]`. -/
theorem zero_click_count_ranks_witness :
    (NewGraph Runtime.std sessionsStartEnd).totalClickCount = 0
    ∧ (∀ k node, (NewGraph Runtime.std sessionsStartEnd).nodeMap.get k = some node →
        node.Rank = Float32.posInf ∧ ∀ e ∈ node.Edges, e.Rank = Float32.posInf)
    ∧ (∀ node ∈ (NewGraph Runtime.std sessionsStartEnd).nodeSlice,
        node.Rank = Float32.posInf ∧ ∀ e ∈ node.Edges, e.Rank = Float32.posInf)
    ∧ ((NewGraph Runtime.std GoMap.empty).nodeSlice = []
        ∧ (NewGraph Runtime.std GoMap.empty).nodeMap.entries = []
        ∧ (NewGraph Runtime.std GoMap.empty).edgeMap.entries = []
        ∧ (NewGraph Runtime.std GoMap.empty).totalClickCount = 0) :=
  ⟨by decide, zero_click_count_ranks Runtime.std sessionsStartEnd (by decide)⟩

/-- C19 (as stated, refuted): with the threshold NaN, which `factorRepresented` returns
when both click counts are 0, `reduceEdgesUpTo` keeps no edge of the list holding one
edge with LocalRank 1, however the sum is rounded; the first edge not in the result has
the running sum 1, and `1 > NaN` is false. -/
theorem reduceEdgesUpTo_nan_threshold :
    Float32.le (Float32.num 0) edgeOne.LocalRank = true
    ∧ factorRepresented 0 0 = Float32.nan
    ∧ runningSum Rounding.exact ([edgeOne].take 1) = Float32.num 1
    ∧ ∀ rd : Rounding,
        reduceEdgesUpTo rd [edgeOne] (factorRepresented 0 0) = []
        ∧ Float32.lt (factorRepresented 0 0) (runningSum rd ([edgeOne].take 1)) = false := by
  have hnan : factorRepresented 0 0 = Float32.nan := by decide
  refine ⟨by simp [Float32.le, edgeOne], hnan, ?_, fun rd => ?_⟩
  · simp [runningSum, Float32.addRounded, Rounding.exact, edgeOne]
  rw [hnan]
  exact ⟨by simp [reduceEdgesUpTo, float32_le_nan], float32_nan_lt _⟩

/-- C19 (amended): for every list of edges whose LocalRank values are non-negative and
every threshold `f`, `reduceEdgesUpTo(edges, f)` is a prefix of `edges`, the longest one
whose cumulative LocalRank sums are all `<= f`: every edge in the result has a running
sum `<= f`, and the first edge not in the result, if any, has a running sum that is not
`<= f`, which is `> f` unless `f` is NaN. The running sums are those of the code, rounded
after every addition, whatever the rounding `rd`: the IEEE rounding `roundNearestEven`
of Go and exact arithmetic are two cases. -/
theorem reduceEdgesUpTo_initial_segment (rd : Rounding) (edges : List Edge) (f : Float32)
    (hnonneg : ∀ e ∈ edges, Float32.le (Float32.num 0) e.LocalRank = true) :
    ∃ n, reduceEdgesUpTo rd edges f = edges.take n ∧ n ≤ edges.length
      ∧ (∀ i, i < n → Float32.le (runningSum rd (edges.take (i + 1))) f = true)
      ∧ (n < edges.length →
          Float32.le (runningSum rd (edges.take (n + 1))) f = false
          ∧ (f ≠ Float32.nan → Float32.lt f (runningSum rd (edges.take (n + 1))) = true))
      ∧ (∀ m, m ≤ edges.length →
          (∀ i, i < m → Float32.le (runningSum rd (edges.take (i + 1))) f = true) →
          m ≤ n) := by
  have hzero := float32_zero_isSum rd
  obtain ⟨n, hkeep, hlen, hin, hout⟩ :=
    keepUpTo_initial_segment rd f edges (Float32.num 0) hzero hnonneg
  refine ⟨n, ?_, hlen, hin, fun hlt => ⟨hout hlt, fun hnan => ?_⟩, fun m hm hall => ?_⟩
  · rw [reduceEdgesUpTo_eq, hkeep]
  · exact float32_lt_of_not_le rd _ f
      (sumFrom_isSum rd _ _ hzero (fun e he => hnonneg e (List.mem_of_mem_take he)))
      (hout hlt) hnan
  · by_contra hgt
    have h1 := hall n (by omega)
    have h2 := hout (by omega)
    have h3 : runningSum rd (edges.take (n + 1))
        = sumFrom rd (Float32.num 0) (edges.take (n + 1)) := rfl
    rw [h3, h2] at h1
    cases h1

/-- C19 (amended) at the list holding one edge with LocalRank 1 and the threshold 1/2,
in exact arithmetic. -/
theorem reduceEdgesUpTo_initial_segment_witness :
    (∀ e ∈ [edgeOne], Float32.le (Float32.num 0) e.LocalRank = true)
    ∧ ∃ n, reduceEdgesUpTo Rounding.exact [edgeOne] (Float32.num (1 / 2)) = [edgeOne].take n
      ∧ n ≤ [edgeOne].length
      ∧ (∀ i, i < n →
          Float32.le (runningSum Rounding.exact ([edgeOne].take (i + 1))) (Float32.num (1 / 2))
            = true)
      ∧ (n < [edgeOne].length →
          Float32.le (runningSum Rounding.exact ([edgeOne].take (n + 1))) (Float32.num (1 / 2))
            = false
          ∧ (Float32.num (1 / 2) ≠ Float32.nan →
              Float32.lt (Float32.num (1 / 2)) (runningSum Rounding.exact ([edgeOne].take (n + 1)))
                = true))
      ∧ (∀ m, m ≤ [edgeOne].length →
          (∀ i, i < m →
            Float32.le (runningSum Rounding.exact ([edgeOne].take (i + 1)))
              (Float32.num (1 / 2)) = true) →
          m ≤ n) :=
  ⟨by simp [Float32.le, edgeOne],
    reduceEdgesUpTo_initial_segment Rounding.exact [edgeOne] (Float32.num (1 / 2))
      (by simp [Float32.le, edgeOne])⟩

/-- C20 (as stated, refuted): `nodeMapToSortedSlice` compares VisitCounts only. For the
one session mapping `[start, A, end]`, whose three nodes have VisitCount 1, the node
sequence is start, A, end when the node map is visited in entry order and end, A, start
when it is visited in reverse, and `ReduceTo(2)` keeps start and A in the first case, end
and A in the second. -/
theorem node_sequence_depends_on_map_order :
    (NewGraph Runtime.std sessionsA).visitPairs = [("start", 1), ("A", 1), ("end", 1)]
    ∧ (NewGraph Runtime.rev sessionsA).visitPairs = [("end", 1), ("A", 1), ("start", 1)]
    ∧ ((NewGraph Runtime.std sessionsA).ReduceTo Runtime.std 2).map Graph.nodeNames
        = some ["start", "A"]
    ∧ ((NewGraph Runtime.rev sessionsA).ReduceTo Runtime.rev 2).map Graph.nodeNames
        = some ["A", "end"] := by
  decide

/-- C20 (amended): for every session mapping and any two map orders, the node sequence
of `NewGraph` holds the same nodes with the same VisitCounts, each once, sorted
descending by VisitCount, so that two runs differ at most in the order of nodes of equal
VisitCount; when no two nodes have the same VisitCount the sequence of names and
VisitCounts is the same for all map orders, and so is, for every limit, whether
`ReduceTo` returns and which names the reduced graph holds. -/
theorem node_sequence_up_to_ties (rt1 rt2 : Runtime) (sessionMap : GoMap (List Log)) :
    (NewGraph rt1 sessionMap).visitPairs.Perm (NewGraph rt2 sessionMap).visitPairs
    ∧ (NewGraph rt1 sessionMap).visitPairs.Nodup
    ∧ (NewGraph rt1 sessionMap).nodeSlice.Pairwise (fun a b => b.VisitCount ≤ a.VisitCount)
    ∧ (DistinctCounts sessionMap →
        (NewGraph rt1 sessionMap).visitPairs = (NewGraph rt2 sessionMap).visitPairs
        ∧ ∀ limit name,
            ((NewGraph rt1 sessionMap).ReduceTo rt1 limit).map
                (fun r => (r.nodeMap.get name).isSome)
              = ((NewGraph rt2 sessionMap).ReduceTo rt2 limit).map
                (fun r => (r.nodeMap.get name).isSome)) := by
  refine ⟨visitPairs_perm rt1 rt2 sessionMap, visitPairs_nodup rt1 sessionMap,
    newGraph_slice_sorted rt1 sessionMap, fun hdistinct => ?_⟩
  have heq := visitPairs_eq rt1 rt2 sessionMap hdistinct
  refine ⟨heq, fun limit name => ?_⟩
  have hnames : (NewGraph rt1 sessionMap).nodeNames = (NewGraph rt2 sessionMap).nodeNames := by
    have h1 : ∀ g : Graph, g.nodeNames = g.visitPairs.map Prod.fst := by
      intro g
      unfold Graph.nodeNames Graph.visitPairs
      rw [List.map_map]
      rfl
    rw [h1, h1, heq]
  rw [reduceTo_hasNode_eq, reduceTo_hasNode_eq, hnames]

/-- C20 (amended) at the session `[start, A, A, A, end, end]`, whose nodes have the
VisitCounts 1, 3 and 2, for the entry order and the reverse order, limit 2 and the
name A. -/
theorem node_sequence_up_to_ties_witness :
    DistinctCounts sessionsDistinct
    ∧ (NewGraph Runtime.std sessionsDistinct).visitPairs.Perm
        (NewGraph Runtime.rev sessionsDistinct).visitPairs
    ∧ (NewGraph Runtime.std sessionsDistinct).visitPairs
        = (NewGraph Runtime.rev sessionsDistinct).visitPairs
    ∧ ((NewGraph Runtime.std sessionsDistinct).ReduceTo Runtime.std 2).map
          (fun r => (r.nodeMap.get "A").isSome)
        = ((NewGraph Runtime.rev sessionsDistinct).ReduceTo Runtime.rev 2).map
          (fun r => (r.nodeMap.get "A").isSome) :=
  ⟨by decide,
    (node_sequence_up_to_ties Runtime.std Runtime.rev sessionsDistinct).1,
    ((node_sequence_up_to_ties Runtime.std Runtime.rev sessionsDistinct).2.2.2
      (by decide)).1,
    ((node_sequence_up_to_ties Runtime.std Runtime.rev sessionsDistinct).2.2.2
      (by decide)).2 2 "A"⟩

end VisualizeNavigation
